import Mathlib

/-! minitar: a shallow embedding of `minitar.c` and `minitar_main.c`.

The archive operations of the repository are embedded as pure functions over an
explicit file-system state.

Modelling conventions
* A byte is a natural number below 256; a C string is the list of its bytes
  without the terminating NUL (`Name`).
* `int` is 32 bits and `long`, `size_t`, `off_t` are 64 bits (LP64, Linux);
  conversions and arithmetic that can leave the range are reduced with
  `wrap32` / `wrap64`, signed overflow included.  Plain `char` is signed.
* A stdio stream opened for reading is read through the content the file had
  when it was opened; output written to a stream reaches the file when the
  operation ends.  This is exact as long as the archive is not itself one of
  the member files, which the theorems state as a hypothesis where it matters.
* Calls on an open handle fail only for reasons that the data determines: a
  seek to a negative offset, a read that meets the end of the file.  Short
  writes, `ftell` and `fclose` failures and allocation failures are not
  modelled.
* Loops whose termination depends on the archive bytes take a fuel argument
  and return `none` when it runs out.
* What the operations do with their file handles is embedded a second time, as
  functions named after the operation with the suffix `_events`, which return
  the status and the sequence of opens, uses and closes; their status is proved
  equal to the status of the byte-level function (for the list walk: as long as
  `file_list_add` does not fail, a failure the byte-level function leaves out).
-/

namespace Minitar

/-! ## Machine integers and bytes -/

/-- A C string: its bytes without the terminating NUL. -/
abbrev Name := List Nat

/-- Conversion of a mathematical integer to a 32-bit `int` (two's complement). -/
def wrap32 (z : Int) : Int := (z + 2147483648) % 4294967296 - 2147483648

/-- Reduction of a mathematical integer to a 64-bit `long` (two's complement). -/
def wrap64 (z : Int) : Int :=
  (z + 9223372036854775808) % 18446744073709551616 - 9223372036854775808

def LONG_MAX : Int := 9223372036854775807

def LONG_MIN : Int := -9223372036854775808

/-- Value of a byte read through a plain (signed) `char`. -/
def char_val (b : Nat) : Int :=
  if b % 256 < 128 then ((b % 256 : Nat) : Int) else ((b % 256 : Nat) : Int) - 256

/-! ## C library routines used by the program -/

/-- The C string that starts at the beginning of `mem`: the bytes before the first NUL. -/
def cstr (mem : List Nat) : Name := mem.takeWhile (fun b => b != 0)

/-- The bytes `strncpy(dst, src, n)` stores in `dst[0..n)`. -/
def strncpy (src : Name) (n : Nat) : List Nat :=
  src.take n ++ List.replicate (n - src.length) 0

/-- Octal digits of `v`, most significant first, prepended to `acc`. -/
def octal_digits : Nat → Nat → List Nat → List Nat
  | 0, _, acc => acc
  | fuel + 1, v, acc =>
    if v < 8 then (48 + v) :: acc else octal_digits fuel (v / 8) ((48 + v % 8) :: acc)

/-- Output of the conversion `%0<w>o` applied to an `unsigned int` argument. -/
def fmt_octal (w : Nat) (v : Nat) : List Nat :=
  let ds := octal_digits 11 (v % 4294967296) []
  List.replicate (w - ds.length) 48 ++ ds

/-- The bytes `snprintf(dst, n, ...)` stores when the formatted text is `text`. -/
def snprintf (n : Nat) (text : List Nat) : List Nat := text.take (n - 1) ++ [0]

def isspace (c : Nat) : Bool := c == 32 || (9 ≤ c && c ≤ 13)

def is_octal_digit (c : Nat) : Bool := 48 ≤ c && c ≤ 55

/-- Digit accumulation of `strtol` in base 8; stops at the first byte that is no octal digit. -/
def strtol8_digits : List Nat → Nat → Nat
  | [], acc => acc
  | c :: cs, acc => if is_octal_digit c then strtol8_digits cs (acc * 8 + (c - 48)) else acc

/-- The value `strtol(s, NULL, 8)` returns for the bytes `s` in memory: leading white space, an
optional sign, octal digits; out-of-range values are clamped to `LONG_MIN` / `LONG_MAX`. -/
def strtol8 (s : List Nat) : Int :=
  let t := s.dropWhile isspace
  if t.head? = some 45 then
    let v := strtol8_digits t.tail 0
    if (v : Int) > 9223372036854775808 then LONG_MIN else -(v : Int)
  else
    let v := strtol8_digits (if t.head? = some 43 then t.tail else t) 0
    if (v : Int) > LONG_MAX then LONG_MAX else (v : Int)

/-- Store `data` into `buf` at offset `off`, as `memcpy(buf + off, data, len)` does. -/
def poke (buf : List Nat) (off : Nat) (data : List Nat) : List Nat :=
  buf.take off ++ data ++ buf.drop (off + data.length)

/-! ## The file system -/

/-- A regular file: its bytes, the `stat` fields the program reads, and whether the process may
open it for reading and for writing. -/
structure File where
  content : List Nat
  st_mode : Nat
  st_uid : Nat
  st_gid : Nat
  st_mtime : Nat
  st_dev_major : Nat
  st_dev_minor : Nat
  readable : Bool
  writable : Bool
deriving DecidableEq, Repr

/-- File-system state and the user database. `creatable n` tells whether a file that does not
exist can be created at path `n`; `fresh` carries the metadata given to a created file. -/
structure FileSys where
  files : Name → Option File
  creatable : Name → Bool
  fresh : File
  getpwuid : Nat → Option Name
  getgrgid : Nat → Option Name

def FileSys.put (fs : FileSys) (name : Name) (f : File) : FileSys :=
  { fs with files := fun n => if n = name then some f else fs.files n }

/-- Replace the bytes of an existing file. -/
def FileSys.set_content (fs : FileSys) (name : Name) (bytes : List Nat) : FileSys :=
  match fs.files name with
  | some f => fs.put name { f with content := bytes }
  | none => fs

/-- Modelled `stat(name, &buf)`: `none` when the call fails. -/
def stat (fs : FileSys) (name : Name) : Option File := fs.files name

/-- Modelled `fopen(name, "r")`: the bytes of the file, `none` when the call fails. -/
def fopen_r (fs : FileSys) (name : Name) : Option (List Nat) :=
  match fs.files name with
  | some f => if f.readable then some f.content else none
  | none => none

/-- Modelled `fopen(name, "r+")`: the bytes of the file, `none` when the call fails. -/
def fopen_rw (fs : FileSys) (name : Name) : Option (List Nat) :=
  match fs.files name with
  | some f => if f.readable && f.writable then some f.content else none
  | none => none

/-- Modelled `fopen(name, "w")`: the file is created or truncated; `none` when the call fails. -/
def fopen_w (fs : FileSys) (name : Name) : Option FileSys :=
  match fs.files name with
  | some f => if f.writable then some (fs.put name { f with content := [] }) else none
  | none =>
    if fs.creatable name then
      some (fs.put name { fs.fresh with content := [], readable := true, writable := true })
    else none

/-! ## Header codec (`minitar.c`, lines 23-81) -/

/-- Modelled from the spec: offset of the field `name` (100 bytes) in `tar_header`, which is declared
in `minitar.h` (not among the sources); the USTAR layout of the 512-byte header block. -/
def OFF_NAME : Nat := 0

/-- Modelled from the spec: offset of the field `mode` (8 bytes) in `tar_header`, which is declared
in `minitar.h` (not among the sources); the USTAR layout of the 512-byte header block. -/
def OFF_MODE : Nat := 100

/-- Modelled from the spec: offset of the field `uid` (8 bytes) in `tar_header`, which is declared
in `minitar.h` (not among the sources); the USTAR layout of the 512-byte header block. -/
def OFF_UID : Nat := 108

/-- Modelled from the spec: offset of the field `gid` (8 bytes) in `tar_header`, which is declared
in `minitar.h` (not among the sources); the USTAR layout of the 512-byte header block. -/
def OFF_GID : Nat := 116

/-- Modelled from the spec: offset of the field `size` (12 bytes) in `tar_header`, which is declared
in `minitar.h` (not among the sources); the USTAR layout of the 512-byte header block. -/
def OFF_SIZE : Nat := 124

/-- Modelled from the spec: offset of the field `mtime` (12 bytes) in `tar_header`, which is declared
in `minitar.h` (not among the sources); the USTAR layout of the 512-byte header block. -/
def OFF_MTIME : Nat := 136

/-- Modelled from the spec: offset of the field `chksum` (8 bytes) in `tar_header`, which is declared
in `minitar.h` (not among the sources); the USTAR layout of the 512-byte header block. -/
def OFF_CHKSUM : Nat := 148

/-- Modelled from the spec: offset of the field `typeflag` (1 byte) in `tar_header`, which is declared
in `minitar.h` (not among the sources); the USTAR layout of the 512-byte header block. -/
def OFF_TYPEFLAG : Nat := 156

/-- Modelled from the spec: offset of the field `magic` (6 bytes) in `tar_header`, which is declared
in `minitar.h` (not among the sources); the USTAR layout of the 512-byte header block. -/
def OFF_MAGIC : Nat := 257

/-- Modelled from the spec: offset of the field `version` (2 bytes) in `tar_header`, which is declared
in `minitar.h` (not among the sources); the USTAR layout of the 512-byte header block. -/
def OFF_VERSION : Nat := 263

/-- Modelled from the spec: offset of the field `uname` (32 bytes) in `tar_header`, which is declared
in `minitar.h` (not among the sources); the USTAR layout of the 512-byte header block. -/
def OFF_UNAME : Nat := 265

/-- Modelled from the spec: offset of the field `gname` (32 bytes) in `tar_header`, which is declared
in `minitar.h` (not among the sources); the USTAR layout of the 512-byte header block. -/
def OFF_GNAME : Nat := 297

/-- Modelled from the spec: offset of the field `devmajor` (8 bytes) in `tar_header`, which is declared
in `minitar.h` (not among the sources); the USTAR layout of the 512-byte header block. -/
def OFF_DEVMAJOR : Nat := 329

/-- Modelled from the spec: offset of the field `devminor` (8 bytes) in `tar_header`, which is declared
in `minitar.h` (not among the sources); the USTAR layout of the 512-byte header block. -/
def OFF_DEVMINOR : Nat := 337

/-- Modelled from the spec: `REGTYPE` of `minitar.h`, the type flag `'0'` of a regular file. -/
def REGTYPE : Nat := 48

/-- Modelled from the spec: `MAGIC` of `minitar.h`, the string `"ustar"`. -/
def MAGIC : Name := [117, 115, 116, 97, 114]

/-- The function `compute_checksum`: blank the checksum field, add up all bytes of the header as
`char` values in an `unsigned`, print the sum into the field. -/
def compute_checksum (header : List Nat) : List Nat :=
  let header := poke header OFF_CHKSUM (List.replicate 8 32)
  let sum : Int := header.foldl (fun s b => (s + char_val b) % 4294967296) 0
  poke header OFF_CHKSUM (snprintf 8 (fmt_octal 7 sum.toNat))

/-- The function `fill_tar_header`: the header block for `file_name`, `none` for the result -1. -/
def fill_tar_header (fs : FileSys) (file_name : Name) : Option (List Nat) :=
  let header := List.replicate 512 0
  match stat fs file_name with
  | none => none
  | some stat_buf =>
    let header := poke header OFF_NAME (strncpy file_name 100)
    let header := poke header OFF_MODE (snprintf 8 (fmt_octal 7 (stat_buf.st_mode % 4096)))
    let header := poke header OFF_UID (snprintf 8 (fmt_octal 7 stat_buf.st_uid))
    match fs.getpwuid stat_buf.st_uid with
    | none => none
    | some pw_name =>
      let header := poke header OFF_UNAME (strncpy pw_name 32)
      let header := poke header OFF_GID (snprintf 8 (fmt_octal 7 stat_buf.st_gid))
      match fs.getgrgid stat_buf.st_gid with
      | none => none
      | some gr_name =>
        let header := poke header OFF_GNAME (strncpy gr_name 32)
        let header := poke header OFF_SIZE (snprintf 12 (fmt_octal 11 stat_buf.content.length))
        let header := poke header OFF_MTIME (snprintf 12 (fmt_octal 11 stat_buf.st_mtime))
        let header := poke header OFF_TYPEFLAG [REGTYPE]
        let header := poke header OFF_MAGIC (strncpy MAGIC 6)
        let header := poke header OFF_VERSION [48, 48]
        let header := poke header OFF_DEVMAJOR (snprintf 8 (fmt_octal 7 stat_buf.st_dev_major))
        let header := poke header OFF_DEVMINOR (snprintf 8 (fmt_octal 7 stat_buf.st_dev_minor))
        some (compute_checksum header)

/-! ## Removing the padding of an extracted file (`minitar.c`, lines 88-118) -/

/-- The function `remove_trailing_bytes`, with `nbytes` the `size_t` argument: the file is opened
with `O_WRONLY`, the offset `-1 * nbytes` (computed in `size_t`, passed as `off_t`) is sought from
the end, and the file is cut (or extended with zero bytes) at the position reached.
The result is `none` for -1. -/
def remove_trailing_bytes (fs : FileSys) (file_name : Name) (nbytes : Nat) : Option FileSys :=
  match fs.files file_name with
  | none => none
  | some f =>
    if f.writable then
      let offset : Int := wrap64 (-((nbytes % 18446744073709551616 : Nat) : Int))
      let current_pos : Int := (f.content.length : Int) + offset
      if current_pos < 0 then none
      else
        let n := current_pos.toNat
        some (fs.put file_name
          { f with content := f.content.take n ++ List.replicate (n - f.content.length) 0 })
    else none

/-! ## Archive writer (`minitar.c`, lines 121-270) -/

/-- The copy loop `while (fread(buffer, 1, 512, fnode) > 0) fwrite(buffer, 1, 512, fp)`: every
chunk read is written as a full block, the buffer being zeroed before each read. `src` is what is
left to read; the fuel bounds the number of iterations. -/
def copy_blocks : Nat → List Nat → List Nat
  | 0, _ => []
  | fuel + 1, src =>
    match src with
    | [] => []
    | _ :: _ =>
      let chunk := src.take 512
      (chunk ++ List.replicate (512 - chunk.length) 0) ++ copy_blocks fuel (src.drop 512)

/-- The loop over the file list that `create_archive` and `append_files_to_archive` share: for
each name the header is built and written, the file is opened and copied block by block. The
result is the success flag and the bytes written to the archive stream. -/
def write_entries (fs : FileSys) : List Name → Bool × List Nat
  | [] => (true, [])
  | name :: rest =>
    match fill_tar_header fs name with
    | none => (false, [])
    | some header =>
      match fopen_r fs name with
      | none => (false, header)
      | some content =>
        let r := write_entries fs rest
        (r.1, header ++ copy_blocks content.length content ++ r.2)

/-- The function `create_archive`: the status returned and the file system left behind. -/
def create_archive (fs : FileSys) (archive_name : Name) (files : List Name) : Int × FileSys :=
  match fopen_w fs archive_name with
  | none => (-1, fs)
  | some fs1 =>
    let r := write_entries fs1 files
    if r.1 then (0, fs1.set_content archive_name (r.2 ++ List.replicate 1024 0))
    else (-1, fs1.set_content archive_name r.2)

/-- The function `append_files_to_archive`: the status returned and the file system left
behind. The stream is positioned 1024 bytes before the end and written from there. -/
def append_files_to_archive (fs : FileSys) (archive_name : Name) (files : List Name) :
    Int × FileSys :=
  match fopen_r fs archive_name with
  | none => (-1, fs)
  | some _ =>
    match fopen_rw fs archive_name with
    | none => (-1, fs)
    | some old =>
      if old.length < 1024 then (-1, fs)
      else
        let r := write_entries fs files
        if r.1 then
          (0, fs.set_content archive_name (poke old (old.length - 1024) (r.2 ++ List.replicate 1024 0)))
        else (-1, fs.set_content archive_name (poke old (old.length - 1024) r.2))

/-! ## Archive reader (`minitar.c`, lines 272-456) -/

/-- Modelled from the spec: `file_list_add` of `file_list.c` (not among the sources), which
records a name at the end of the ordered, duplicate-permitting sequence. -/
def file_list_add (files : List Name) (name : Name) : List Name := files ++ [name]

/-- A read `fread(&current_header, 1, 512, fp)` at position `pos`: `none` when fewer than 512
bytes are left. -/
def fread_block (arc : List Nat) (pos : Nat) : Option (List Nat) :=
  let block := (arc.drop pos).take 512
  if block.length = 512 then some block else none

/-- The name field of a header read as a C string, as `file_list_add`, `fopen` and `open` read
it: the bytes from the start of the block up to the first NUL, which lies beyond the 100-byte
field when the name fills it. The string ends with the block at the latest. -/
def header_name (header : List Nat) : Name := cstr (header.drop OFF_NAME)

/-- The value `strtol(current_header.size, NULL, 8)`: the conversion starts at the size field
and stops at the first byte that is no octal digit, at the end of the block at the latest. -/
def header_size (header : List Nat) : Int := strtol8 (header.drop OFF_SIZE)

/-- The loop of `get_archive_file_list`; `currenttell` is the position after the header that was
just read and `sz` the position 512 bytes before the end of the archive. -/
def list_loop (arc : List Nat) (sz : Int) :
    Nat → List Nat → Int → List Name → Option (Int × List Name)
  | 0, _, _, _ => none
  | fuel + 1, current_header, currenttell, files =>
    if currenttell = sz then some (0, files)
    else
      let files := file_list_add files (header_name current_header)
      let x : Int := wrap32 (wrap64 (512 * Int.tdiv (wrap64 (header_size current_header + 511)) 512))
      let target := currenttell + x
      if target < 0 then some (-1, files)
      else
        match fread_block arc target.toNat with
        | none => some (-1, files)
        | some next_header => list_loop arc sz fuel next_header (target + 512) files

/-- The function `get_archive_file_list`: the status returned and the output list; `none` when
the walk does not finish within `fuel` iterations. -/
def get_archive_file_list (fuel : Nat) (fs : FileSys) (archive_name : Name) (files : List Name) :
    Option (Int × List Name) :=
  match fopen_r fs archive_name with
  | none => some (-1, files)
  | some arc =>
    if arc.length < 512 then some (-1, files)
    else
      let sz : Int := (arc.length : Int) - 512
      match fread_block arc 0 with
      | none => some (-1, files)
      | some current_header => list_loop arc sz fuel current_header 512 files

/-- The loop of `extract_files_from_archive`. -/
def extract_loop (arc : List Nat) (sz : Int) :
    Nat → FileSys → List Nat → Nat → Option (Int × FileSys)
  | 0, _, _, _ => none
  | fuel + 1, fs, current_header, currenttell =>
    if (currenttell : Int) < sz then
      match fopen_w fs (header_name current_header) with
      | none => some (-1, fs)
      | some fs1 =>
        let x : Int := wrap32 (Int.tdiv (wrap64 (header_size current_header + 511)) 512)
        let wanted := x.toNat
        let available := (arc.length - currenttell) / 512
        if available < wanted then
          some (-1, fs1.set_content (header_name current_header)
            ((arc.drop currenttell).take (512 * available)))
        else
          let fs2 := fs1.set_content (header_name current_header)
            ((arc.drop currenttell).take (512 * wanted))
          let trailingbytes : Int := wrap32 (wrap64 (wrap32 (512 * x) - header_size current_header))
          match remove_trailing_bytes fs2 (header_name current_header)
              (trailingbytes % 18446744073709551616).toNat with
          | none => some (-1, fs2)
          | some fs3 =>
            match fread_block arc (currenttell + 512 * wanted) with
            | none => some (-1, fs3)
            | some next_header =>
              extract_loop arc sz fuel fs3 next_header (currenttell + 512 * wanted + 512)
    else some (0, fs)

/-- The function `extract_files_from_archive`: the status returned and the file system left
behind. Every iteration of the loop moves the position forward by at least 512 bytes, so the
length of the archive is enough fuel. -/
def extract_files_from_archive (fs : FileSys) (archive_name : Name) : Option (Int × FileSys) :=
  match fopen_r fs archive_name with
  | none => some (-1, fs)
  | some arc =>
    if arc.length < 512 then some (-1, fs)
    else
      let sz : Int := (arc.length : Int) - 512
      match fread_block arc 0 with
      | none => some (-1, fs)
      | some current_header => extract_loop arc sz arc.length fs current_header 512

/-! ## Command line (`minitar_main.c`) -/

/-- Modelled from the spec: `file_list_is_subset` of `file_list.c` (not among the sources), which
tells whether every name of the first list appears in the second. -/
def file_list_is_subset (files all : List Name) : Bool := files.all (fun n => decide (n ∈ all))

def OPT_C : Name := [45, 99]
def OPT_A : Name := [45, 97]
def OPT_T : Name := [45, 116]
def OPT_U : Name := [45, 117]
def OPT_X : Name := [45, 120]

/-- The function `main` on the argument vector `argv`: the exit status, the file system left
behind and the lines printed by `-t`; `none` when a list walk does not finish within `fuel`
iterations. The five tests of `argv[1]` exclude one another, so they are written as a chain. -/
def main (fuel : Nat) (fs : FileSys) (argv : List Name) : Option (Int × FileSys × List Name) :=
  match argv with
  | _ :: op :: _ :: archive :: rest =>
    let files := rest.foldl file_list_add []
    if op = OPT_C then
      let r := create_archive fs archive files
      if r.1 ≠ 0 then some (1, r.2, []) else some (0, r.2, [])
    else if op = OPT_A then
      let r := append_files_to_archive fs archive files
      if r.1 ≠ 0 then some (1, r.2, []) else some (0, r.2, [])
    else if op = OPT_T then
      match get_archive_file_list fuel fs archive [] with
      | none => none
      | some r => if r.1 ≠ 0 then some (1, fs, []) else some (0, fs, r.2)
    else if op = OPT_U then
      match get_archive_file_list fuel fs archive [] with
      | none => none
      | some r =>
        if r.1 ≠ 0 then some (1, fs, [])
        else if file_list_is_subset files r.2 ≠ true then some (1, fs, [])
        else
          let a := append_files_to_archive fs archive files
          if a.1 ≠ 0 then some (1, a.2, []) else some (0, a.2, [])
    else if op = OPT_X then
      match extract_files_from_archive fs archive with
      | none => none
      | some r => if r.1 ≠ 0 then some (1, r.2, []) else some (0, r.2, [])
    else some (0, fs, [])
  | _ => some (1, fs, [])

/-! ## Vocabulary of the specification -/

/-- A byte string right-padded with zero bytes to the next multiple of 512. -/
def zero_pad (bytes : List Nat) : List Nat :=
  bytes ++ List.replicate ((512 - bytes.length % 512) % 512) 0

/-- The archive footer: 1024 zero bytes. -/
def footer : List Nat := List.replicate 1024 0

/-- An archive entry: a header block and the data region that follows it. -/
structure Entry where
  header : List Nat
  data : List Nat
deriving DecidableEq, Repr

/-- The name an entry declares. -/
def Entry.name (e : Entry) : Name := header_name e.header

/-- The size an entry declares. -/
def Entry.size (e : Entry) : Int := header_size e.header

/-- The file content an entry stands for: the first `size` bytes of its data region. -/
def Entry.payload (e : Entry) : List Nat := e.data.take e.size.toNat

/-- A well-formed entry: the header is one block, the declared size is not negative and fits
the eleven octal digits of the size field, and the data region is the declared size rounded up
to whole blocks. -/
def Entry.wf (e : Entry) : Prop :=
  e.header.length = 512 ∧ 0 ≤ e.size ∧ e.size < 8589934592 ∧
    (e.data.length : Int) = 512 * ((e.size + 511) / 512)

instance (e : Entry) : Decidable e.wf := by
  unfold Entry.wf
  exact inferInstance

/-- An entry the list walk can step over: the length of its data region fits the `int` in which
the walk computes the distance to seek. -/
def Entry.skippable (e : Entry) : Prop := e.data.length < 2147483648

instance (e : Entry) : Decidable e.skippable := by
  unfold Entry.skippable
  exact inferInstance

/-- The bytes of a sequence of entries, one after the other. -/
def entries_bytes : List Entry → List Nat
  | [] => []
  | e :: es => e.header ++ e.data ++ entries_bytes es

/-- The archive that holds the given entries: the entries, then the footer. -/
def archive_bytes (es : List Entry) : List Nat := entries_bytes es ++ footer

/-- Whether a file can be archived: it exists, can be opened for reading, and its owner and
group ids resolve to names. -/
def archivable (fs : FileSys) (name : Name) : Bool :=
  match fs.files name with
  | some f => f.readable && (fs.getpwuid f.st_uid).isSome && (fs.getgrgid f.st_gid).isSome
  | none => false

/-- The bytes of the file at `name` (empty when there is none). -/
def content_of (fs : FileSys) (name : Name) : List Nat :=
  match fs.files name with
  | some f => f.content
  | none => []

/-- The entry the writer produces for the file at `name`: the header `fill_tar_header` builds
and the content padded with zero bytes. -/
def entry_of (fs : FileSys) (name : Name) : Entry :=
  { header := (fill_tar_header fs name).getD [], data := zero_pad (content_of fs name) }

/-- Whether `fopen(name, "w")` succeeds. -/
def openable (fs : FileSys) (name : Name) : Bool := (fopen_w fs name).isSome

/-- The effect on the file system of extracting one entry: the file at the declared name is
created or truncated, the data region is written to it, and the padding is cut off. -/
def extract_entry (fs : FileSys) (e : Entry) : FileSys :=
  match fopen_w fs e.name with
  | none => fs
  | some fs1 =>
    match remove_trailing_bytes (fs1.set_content e.name e.data) e.name
        (e.data.length - e.size.toNat) with
    | none => fs
    | some fs3 => fs3

/-- Whether `name` can serve as the archive of a create that is read back afterwards: the file
is absent and can be created, or it exists and is both readable and writable. -/
def usable_as_archive (fs : FileSys) (name : Name) : Bool :=
  match fs.files name with
  | some f => f.readable && f.writable
  | none => fs.creatable name

/-- The footer invariant of the specification: the length is a multiple of 512 and the last 1024
bytes are zero. -/
def footer_invariant (bytes : List Nat) : Prop :=
  bytes.length % 512 = 0 ∧ 1024 ≤ bytes.length ∧
    bytes.drop (bytes.length - 1024) = List.replicate 1024 0

/-! ## Sample data used to instantiate the theorems -/

/-- A file with the given bytes, mode 0644, owner and group 1000. -/
def sample_file (bytes : List Nat) : File :=
  { content := bytes, st_mode := 33188, st_uid := 1000, st_gid := 1000, st_mtime := 1700000000,
    st_dev_major := 8, st_dev_minor := 1, readable := true, writable := true }

/-- A file system with a 10-byte file `a` and an empty file `b`. -/
def sample_fs : FileSys :=
  { files := fun n =>
      if n = [97] then some (sample_file [104, 105, 10, 0, 1, 2, 3, 4, 0, 0])
      else if n = [98] then some (sample_file [])
      else none
    creatable := fun n => decide (n ≠ [])
    fresh := sample_file []
    getpwuid := fun u => if u = 1000 then some [117] else none
    getgrgid := fun g => if g = 1000 then some [103] else none }

/-- A file system whose only file, `b`, is 2 GiB long. -/
def large_fs : FileSys :=
  { files := fun n =>
      if n = [98] then some (sample_file (List.replicate 2147483648 0)) else none
    creatable := fun n => decide (n ≠ [])
    fresh := sample_file []
    getpwuid := fun u => if u = 1000 then some [117] else none
    getgrgid := fun g => if g = 1000 then some [103] else none }

/-- A name of 101 bytes, one more than the name field of a header holds. -/
def long_name : Name := List.replicate 101 97

/-- A file system with an empty archive `x` and a 3-byte file whose name is 101 bytes long. -/
def long_name_fs : FileSys :=
  { files := fun n =>
      if n = [120] then some (sample_file (List.replicate 1024 0))
      else if n = long_name then some (sample_file [1, 2, 3])
      else none
    creatable := fun n => decide (n ≠ [])
    fresh := sample_file []
    getpwuid := fun u => if u = 1000 then some [117] else none
    getgrgid := fun g => if g = 1000 then some [103] else none }

/-- A header block that carries only a name and a size. -/
def sample_header (name : Name) (size : Nat) : List Nat :=
  poke (poke (List.replicate 512 0) OFF_NAME name) OFF_SIZE (snprintf 12 (fmt_octal 11 size))

/-- Two entries with the same name `a`: a 3-byte version followed by a 1-byte version. -/
def shadow_entries : List Entry :=
  [{ header := sample_header [97] 3, data := [1, 2, 3] ++ List.replicate 509 0 },
   { header := sample_header [97] 1, data := [9] ++ List.replicate 511 7 }]

/-- A file system that holds only the archive `x` made of `shadow_entries`. -/
def shadow_fs : FileSys :=
  { files := fun n => if n = [120] then some (sample_file (archive_bytes shadow_entries)) else none
    creatable := fun n => decide (n ≠ [])
    fresh := sample_file []
    getpwuid := fun u => if u = 1000 then some [117] else none
    getgrgid := fun g => if g = 1000 then some [103] else none }

/-- The file system at extraction time in the round-trip example: the archive `x` as
`create_archive` wrote it for `a`, `b`, `a`; file `a` altered and file `b` deleted. -/
def roundtrip_fs : FileSys :=
  { files := fun n =>
      if n = [120] then (create_archive sample_fs [120] [[97], [98], [97]]).2.files [120]
      else if n = [97] then some (sample_file [7, 7])
      else none
    creatable := fun n => decide (n ≠ [])
    fresh := sample_file []
    getpwuid := fun u => if u = 1000 then some [117] else none
    getgrgid := fun g => if g = 1000 then some [103] else none }

/-! ## Quantities the two walks compute from a declared size -/

/-- The distance the list walk seeks past the data of an entry of declared size `s`
(`minitar.c`, line 327): `x = 512 * ((s + 511) / 512)`, computed in `long` and stored in the
`int` variable `x`. -/
def list_skip (s : Int) : Int := wrap32 (wrap64 (512 * Int.tdiv (wrap64 (s + 511)) 512))

/-- The number of blocks the extract walk copies for an entry of declared size `s`
(`minitar.c`, line 411): `x = (s + 511) / 512`, computed in `long` and stored in the `int`
variable `x`. -/
def extract_blocks (s : Int) : Int := wrap32 (Int.tdiv (wrap64 (s + 511)) 512)

/-- The number of trailing bytes the extract walk removes for an entry of declared size `s`
(`minitar.c`, line 431): `trailingbytes = 512 * x - s`, stored in an `int`. -/
def extract_trailing (s : Int) : Int :=
  wrap32 (wrap64 (wrap32 (512 * extract_blocks s) - s))

/-- The `w`-digit zero-padded octal rendering of `v`: the `w` lowest octal digits of `v`, most
significant first, as ASCII. -/
def octal_fixed : Nat → Nat → List Nat
  | 0, _ => []
  | w + 1, v => octal_fixed w (v / 8) ++ [48 + v % 8]

/-- The checksum the specification describes: the sum of all bytes of the header, each counted
as a value in 0..255, with the eight bytes of the checksum field counted as spaces. -/
def unsigned_checksum (header : List Nat) : Nat :=
  (poke header OFF_CHKSUM (List.replicate 8 32)).foldl (fun s b => s + b % 256) 0

/-! ## More sample data -/

/-- A file system whose only file is named by the two bytes 0xC3 0xA9 (the UTF-8 encoding of an
accented letter). -/
def accent_fs : FileSys :=
  { files := fun n => if n = [195, 169] then some (sample_file [1]) else none
    creatable := fun n => decide (n ≠ [])
    fresh := sample_file []
    getpwuid := fun u => if u = 1000 then some [117] else none
    getgrgid := fun g => if g = 1000 then some [103] else none }

/-- A file system with a file `a` that exists but cannot be opened for reading, and a readable
file `c` whose owner id 7 does not resolve to a name. -/
def failing_fs : FileSys :=
  { files := fun n =>
      if n = [97] then some { sample_file [1, 2, 3] with readable := false }
      else if n = [99] then some { sample_file [4, 5] with st_uid := 7 }
      else none
    creatable := fun n => decide (n ≠ [])
    fresh := sample_file []
    getpwuid := fun u => if u = 1000 then some [117] else none
    getgrgid := fun g => if g = 1000 then some [103] else none }

/-- A file system whose only file, `b`, is 4 GiB long. -/
def huge_fs : FileSys :=
  { files := fun n =>
      if n = [98] then some (sample_file (List.replicate 4294967296 0)) else none
    creatable := fun n => decide (n ≠ [])
    fresh := sample_file []
    getpwuid := fun u => if u = 1000 then some [117] else none
    getgrgid := fun g => if g = 1000 then some [103] else none }

/-- A name of exactly 100 bytes, which fills the name field of a header. -/
def full_name : Name := List.replicate 100 97

/-- A file system whose only file has the 100-byte name `full_name` and holds three bytes. -/
def full_name_fs : FileSys :=
  { files := fun n => if n = full_name then some (sample_file [1, 2, 3]) else none
    creatable := fun n => decide (n ≠ [])
    fresh := sample_file []
    getpwuid := fun u => if u = 1000 then some [117] else none
    getgrgid := fun g => if g = 1000 then some [103] else none }

/-- The file system at extraction time in the example of the 100-byte name: only the archive
`x`, as `create_archive` wrote it for `full_name`; the file itself has been deleted. -/
def full_name_extract_fs : FileSys :=
  { files := fun n =>
      if n = [120] then (create_archive full_name_fs [120] [full_name]).2.files [120] else none
    creatable := fun n => decide (n ≠ [])
    fresh := sample_file []
    getpwuid := fun u => if u = 1000 then some [117] else none
    getgrgid := fun g => if g = 1000 then some [103] else none }

/-- A header block named `a` whose size field holds the text `-1777`, octal for -1023. -/
def backward_header : List Nat :=
  poke (poke (List.replicate 512 0) OFF_NAME [97]) OFF_SIZE [45, 49, 55, 55, 55]

/-- A file system that holds only the 2048-byte archive `x` that starts with
`backward_header`. -/
def backward_fs : FileSys :=
  { files := fun n =>
      if n = [120] then some (sample_file (backward_header ++ List.replicate 1536 0)) else none
    creatable := fun n => decide (n ≠ [])
    fresh := sample_file []
    getpwuid := fun u => if u = 1000 then some [117] else none
    getgrgid := fun g => if g = 1000 then some [103] else none }

/-! ## The entries the list walk steps over -/

/-- The entries the loop of `get_archive_file_list` steps over: for each header at which the
loop records a name, the header block together with the bytes between the position after it
and the position the loop seeks to. The recursion is that of `list_loop`. -/
def list_loop_entries (arc : List Nat) (sz : Int) : Nat → List Nat → Int → List Entry
  | 0, _, _ => []
  | fuel + 1, current_header, currenttell =>
    if currenttell = sz then []
    else
      let x : Int := wrap32 (wrap64 (512 * Int.tdiv (wrap64 (header_size current_header + 511)) 512))
      let target := currenttell + x
      let e : Entry :=
        { header := current_header, data := (arc.drop currenttell.toNat).take x.toNat }
      if target < 0 then [e]
      else
        match fread_block arc target.toNat with
        | none => [e]
        | some next_header => e :: list_loop_entries arc sz fuel next_header (target + 512)

/-- The entries `get_archive_file_list` steps over in the archive at `archive_name`. -/
def list_entries (fuel : Nat) (fs : FileSys) (archive_name : Name) : List Entry :=
  match fopen_r fs archive_name with
  | none => []
  | some arc =>
    if arc.length < 512 then []
    else
      match fread_block arc 0 with
      | none => []
      | some current_header =>
        list_loop_entries arc ((arc.length : Int) - 512) fuel current_header 512

/-- A header block named `a` whose size field holds the text `40000000000`, octal for 2^32. -/
def wide_header : List Nat :=
  poke (poke (List.replicate 512 0) OFF_NAME [97]) OFF_SIZE
    [52, 48, 48, 48, 48, 48, 48, 48, 48, 48, 48]

/-- A file system that holds only the 1536-byte archive `x`: `wide_header` and 1024 zero
bytes. -/
def wide_fs : FileSys :=
  { files := fun n =>
      if n = [120] then some (sample_file (wide_header ++ List.replicate 1024 0)) else none
    creatable := fun n => decide (n ≠ [])
    fresh := sample_file []
    getpwuid := fun u => if u = 1000 then some [117] else none
    getgrgid := fun g => if g = 1000 then some [103] else none }


/-! ## File handles (`minitar.c`, every `fopen`, `open`, `fclose` and `close`) -/

/-- What the program does with a file handle, a `FILE *` or a descriptor. Handles are numbered
in the order in which the opens succeed; an open that fails yields no handle. -/
inductive Event where
  | opened (h : Nat)
  | used (h : Nat)
  | closed (h : Nat)
deriving DecidableEq, Repr

/-- The handles that are open after one more event; `none` once the discipline is broken: a
handle is opened only while it is not open, and used or closed only while it is open. -/
def handle_step (live : Option (List Nat)) (e : Event) : Option (List Nat) :=
  match live with
  | none => none
  | some l =>
    match e with
    | Event.opened h => if h ∈ l then none else some (h :: l)
    | Event.used h => if h ∈ l then some l else none
    | Event.closed h => if h ∈ l then some (l.erase h) else none

/-- The handles that are open after a sequence of events. -/
def handles_after (live : Option (List Nat)) (events : List Event) : Option (List Nat) :=
  events.foldl handle_step live

/-- The handle discipline of the specification: every handle that was opened has been closed
exactly once, and none is used or closed after it was closed or before it was opened. -/
def disciplined (events : List Event) : Prop := handles_after (some []) events = some []

instance (events : List Event) : Decidable (disciplined events) := by
  unfold disciplined
  exact inferInstance

/-- The handle events of the copy loop `while (fread(buffer, 1, 512, fnode) > 0)
fwrite(buffer, 1, 512, fp)`: every read that returns data is followed by a write, and the last
read returns nothing. `src` is what is left to read. -/
def copy_events (fnode fp : Nat) : Nat → List Nat → List Event
  | 0, _ => []
  | fuel + 1, src =>
    match src with
    | [] => [Event.used fnode]
    | _ :: _ => Event.used fnode :: Event.used fp :: copy_events fnode fp fuel (src.drop 512)

/-- The handle events of the loop of `create_archive` over the file list (lines 134-178); `fp`
is the archive stream and `next` the number the next handle gets. The flag tells whether the
loop ran to its end. Every path that leaves the loop early closes `fp`. -/
def create_loop_events (fs : FileSys) (fp : Nat) : Nat → List Name → Bool × List Event
  | _, [] => (true, [])
  | next, name :: rest =>
    match fill_tar_header fs name with
    | none => (false, [Event.closed fp])
    | some _ =>
      match fopen_r fs name with
      | none => (false, [Event.used fp, Event.closed fp])
      | some content =>
        let r := create_loop_events fs fp (next + 1) rest
        (r.1, [Event.used fp, Event.opened next] ++
          copy_events next fp (content.length + 1) content ++ [Event.closed next] ++ r.2)

/-- The function `create_archive`: the status returned and the handle events. -/
def create_archive_events (fs : FileSys) (archive_name : Name) (files : List Name) :
    Int × List Event :=
  match fopen_w fs archive_name with
  | none => (-1, [])
  | some fs1 =>
    let r := create_loop_events fs1 0 1 files
    if r.1 then (0, [Event.opened 0] ++ r.2 ++ [Event.used 0, Event.closed 0])
    else (-1, [Event.opened 0] ++ r.2)

/-- The handle events of the loop of `append_files_to_archive` over the file list (lines
220-257). When `fill_tar_header` fails the function returns at once (line 224), without a call
of `fclose`. -/
def append_loop_events (fs : FileSys) (fp : Nat) : Nat → List Name → Bool × List Event
  | _, [] => (true, [])
  | next, name :: rest =>
    match fill_tar_header fs name with
    | none => (false, [])
    | some _ =>
      match fopen_r fs name with
      | none => (false, [Event.used fp, Event.closed fp])
      | some content =>
        let r := append_loop_events fs fp (next + 1) rest
        (r.1, [Event.used fp, Event.opened next] ++
          copy_events next fp (content.length + 1) content ++ [Event.closed next] ++ r.2)

/-- The function `append_files_to_archive`: the status returned and the handle events. Handle 0
is `checkexistence`, handle 1 is `fp`. -/
def append_files_to_archive_events (fs : FileSys) (archive_name : Name) (files : List Name) :
    Int × List Event :=
  match fopen_r fs archive_name with
  | none => (-1, [])
  | some _ =>
    match fopen_rw fs archive_name with
    | none => (-1, [Event.opened 0, Event.closed 0])
    | some old =>
      if old.length < 1024 then
        (-1, [Event.opened 0, Event.closed 0, Event.opened 1, Event.used 1, Event.closed 1])
      else
        let r := append_loop_events fs 1 2 files
        if r.1 then
          (0, [Event.opened 0, Event.closed 0, Event.opened 1, Event.used 1] ++ r.2 ++
            [Event.used 1, Event.closed 1])
        else (-1, [Event.opened 0, Event.closed 0, Event.opened 1, Event.used 1] ++ r.2)

/-- The handle events of the loop of `get_archive_file_list` (lines 318-346) on the stream
`fp`, handle 0. `add_status` gives the value `file_list_add` returns for a name
(`file_list.c` is not among the sources). When it is 1 the loop closes `fp` (line 323) and goes
on without returning: the `fseek` that follows is a call on the closed stream and fails, so
the function closes `fp` a second time and returns -1 (lines 329-333). -/
def list_loop_events (arc : List Nat) (sz : Int) (add_status : Name → Int) :
    Nat → List Nat → Int → Option (Int × List Event)
  | 0, _, _ => none
  | fuel + 1, current_header, currenttell =>
    if currenttell = sz then some (0, [Event.closed 0])
    else if add_status (header_name current_header) = 1 then
      some (-1, [Event.closed 0, Event.used 0, Event.closed 0])
    else
      let x : Int := wrap32 (wrap64 (512 * Int.tdiv (wrap64 (header_size current_header + 511)) 512))
      let target := currenttell + x
      if target < 0 then some (-1, [Event.used 0, Event.closed 0])
      else
        match fread_block arc target.toNat with
        | none => some (-1, [Event.used 0, Event.used 0, Event.closed 0])
        | some next_header =>
          match list_loop_events arc sz add_status fuel next_header (target + 512) with
          | none => none
          | some r => some (r.1, [Event.used 0, Event.used 0, Event.used 0] ++ r.2)

/-- The function `get_archive_file_list`: the status returned and the handle events; `none`
when the walk does not finish within `fuel` iterations. -/
def get_archive_file_list_events (add_status : Name → Int) (fuel : Nat) (fs : FileSys)
    (archive_name : Name) : Option (Int × List Event) :=
  match fopen_r fs archive_name with
  | none => some (-1, [])
  | some arc =>
    if arc.length < 512 then some (-1, [Event.opened 0, Event.used 0, Event.closed 0])
    else
      let sz : Int := (arc.length : Int) - 512
      match fread_block arc 0 with
      | none =>
        some (-1, [Event.opened 0, Event.used 0, Event.used 0, Event.used 0, Event.used 0,
          Event.closed 0])
      | some current_header =>
        match list_loop_events arc sz add_status fuel current_header 512 with
        | none => none
        | some r =>
          some (r.1, [Event.opened 0, Event.used 0, Event.used 0, Event.used 0, Event.used 0,
            Event.used 0] ++ r.2)

/-- The handle events of `remove_trailing_bytes` on the descriptor `fd`. -/
def remove_trailing_bytes_events (fs : FileSys) (file_name : Name) (nbytes : Nat) (fd : Nat) :
    List Event :=
  match fs.files file_name with
  | none => []
  | some f =>
    if f.writable then
      let offset : Int := wrap64 (-((nbytes % 18446744073709551616 : Nat) : Int))
      let current_pos : Int := (f.content.length : Int) + offset
      if current_pos < 0 then [Event.opened fd, Event.used fd, Event.closed fd]
      else [Event.opened fd, Event.used fd, Event.used fd, Event.closed fd]
    else []

/-- The handle events of `n` iterations of the block loop of `extract_files_from_archive`: a
read from `fp`, then a write to `fdest`. -/
def block_events (fp fdest : Nat) : Nat → List Event
  | 0 => []
  | n + 1 => Event.used fp :: Event.used fdest :: block_events fp fdest n

/-- The handle events of the loop of `extract_files_from_archive` (lines 399-453) on the stream
`fp`, handle 0; `next` is the number the next handle gets. The file system is threaded as in
`extract_loop`. -/
def extract_loop_events (arc : List Nat) (sz : Int) :
    Nat → FileSys → List Nat → Nat → Nat → Option (Int × List Event)
  | 0, _, _, _, _ => none
  | fuel + 1, fs, current_header, currenttell, next =>
    if (currenttell : Int) < sz then
      match fopen_w fs (header_name current_header) with
      | none => some (-1, [Event.closed 0])
      | some fs1 =>
        let x : Int := wrap32 (Int.tdiv (wrap64 (header_size current_header + 511)) 512)
        let wanted := x.toNat
        let available := (arc.length - currenttell) / 512
        if available < wanted then
          some (-1, [Event.opened next] ++ block_events 0 next available ++
            [Event.used 0, Event.closed 0, Event.closed next])
        else
          let fs2 := fs1.set_content (header_name current_header)
            ((arc.drop currenttell).take (512 * wanted))
          let trailingbytes : Int := wrap32 (wrap64 (wrap32 (512 * x) - header_size current_header))
          let nbytes := (trailingbytes % 18446744073709551616).toNat
          let copied : List Event :=
            [Event.opened next] ++ block_events 0 next wanted ++ [Event.closed next] ++
              remove_trailing_bytes_events fs2 (header_name current_header) nbytes (next + 1)
          match remove_trailing_bytes fs2 (header_name current_header) nbytes with
          | none => some (-1, copied ++ [Event.closed 0])
          | some fs3 =>
            match fread_block arc (currenttell + 512 * wanted) with
            | none => some (-1, copied ++ [Event.used 0, Event.closed 0])
            | some next_header =>
              match extract_loop_events arc sz fuel fs3 next_header
                  (currenttell + 512 * wanted + 512) (next + 2) with
              | none => none
              | some r => some (r.1, copied ++ [Event.used 0, Event.used 0] ++ r.2)
    else some (0, [Event.closed 0])

/-- The function `extract_files_from_archive`: the status returned and the handle events. -/
def extract_files_from_archive_events (fs : FileSys) (archive_name : Name) :
    Option (Int × List Event) :=
  match fopen_r fs archive_name with
  | none => some (-1, [])
  | some arc =>
    if arc.length < 512 then some (-1, [Event.opened 0, Event.used 0, Event.closed 0])
    else
      let sz : Int := (arc.length : Int) - 512
      match fread_block arc 0 with
      | none =>
        some (-1, [Event.opened 0, Event.used 0, Event.used 0, Event.used 0, Event.used 0,
          Event.closed 0])
      | some current_header =>
        match extract_loop_events arc sz arc.length fs current_header 512 1 with
        | none => none
        | some r =>
          some (r.1, [Event.opened 0, Event.used 0, Event.used 0, Event.used 0, Event.used 0,
            Event.used 0] ++ r.2)


/-! ## Octal text -/

theorem octal_digits_spec : ∀ (fuel v : Nat) (acc : List Nat), v < 8 ^ fuel →
    ∃ ds : List Nat, octal_digits fuel v acc = ds ++ acc ∧ ds.length ≤ fuel ∧
      (∀ d ∈ ds, is_octal_digit d = true) ∧
      ds.foldl (fun a c => a * 8 + (c - 48)) 0 = v := by
  intro fuel
  induction fuel with
  | zero =>
    intro v acc hv
    refine ⟨[], ?_, ?_, ?_, ?_⟩ <;> simp_all [octal_digits]
  | succ k ih =>
    intro v acc hv
    unfold octal_digits
    by_cases h8 : v < 8
    · refine ⟨[48 + v], ?_, ?_, ?_, ?_⟩
      · simp [h8]
      · simp
      · intro d hd
        simp at hd
        subst hd
        clear hv ih
        simp only [is_octal_digit, Bool.and_eq_true, decide_eq_true_eq]
        omega
      · simp
    · have hlt : v / 8 < 8 ^ k := by
        rw [Nat.div_lt_iff_lt_mul (by norm_num)]
        rw [pow_succ] at hv
        exact hv
      obtain ⟨ds, h1, h2, h3, h4⟩ := ih (v / 8) ((48 + v % 8) :: acc) hlt
      refine ⟨ds ++ [48 + v % 8], ?_, ?_, ?_, ?_⟩
      · simp [h8, h1]
      · simp; omega
      · intro d hd
        rcases List.mem_append.mp hd with hd | hd
        · exact h3 d hd
        · simp at hd
          subst hd
          clear hv ih hlt h1
          simp only [is_octal_digit, Bool.and_eq_true, decide_eq_true_eq]
          omega
      · rw [List.foldl_append, h4]
        simp only [List.foldl_cons, List.foldl_nil]
        clear hv ih hlt h1
        omega

theorem strtol8_digits_append (ds rest : List Nat) (acc : Nat)
    (hds : ∀ d ∈ ds, is_octal_digit d = true) :
    strtol8_digits (ds ++ rest) acc =
      strtol8_digits rest (ds.foldl (fun a c => a * 8 + (c - 48)) acc) := by
  induction ds generalizing acc with
  | nil => rfl
  | cons d ds ih =>
    have hd : is_octal_digit d = true := hds d (by simp)
    simp only [List.cons_append, strtol8_digits, hd, if_true, List.foldl_cons]
    exact ih _ (fun x hx => hds x (by simp [hx]))

theorem foldl_octal_zeros (k : Nat) :
    (List.replicate k 48).foldl (fun a c => a * 8 + (c - 48)) 0 = 0 := by
  induction k with
  | zero => rfl
  | succ k ih => simpa [List.replicate_succ] using ih

theorem fmt_octal_spec (w v : Nat) :
    ∃ ds : List Nat, fmt_octal w v = ds ∧ w ≤ ds.length ∧ ds.length ≤ max w 11 ∧
      (∀ d ∈ ds, is_octal_digit d = true) ∧
      ds.foldl (fun a c => a * 8 + (c - 48)) 0 = v % 4294967296 := by
  obtain ⟨ds, h1, h2, h3, h4⟩ := octal_digits_spec 11 (v % 4294967296) []
    (by have := Nat.mod_lt v (show 0 < 4294967296 by norm_num); norm_num; omega)
  refine ⟨_, rfl, ?_, ?_, ?_, ?_⟩
  · simp only [fmt_octal, h1, List.append_nil, List.length_append, List.length_replicate]
    omega
  · simp only [fmt_octal, h1, List.append_nil, List.length_append, List.length_replicate]
    omega
  · intro d hd
    simp only [fmt_octal, h1, List.append_nil] at hd
    rcases List.mem_append.mp hd with hd | hd
    · have := List.eq_of_mem_replicate hd
      subst this
      rfl
    · exact h3 d hd
  · simp only [fmt_octal, h1, List.append_nil, List.foldl_append, foldl_octal_zeros, h4]

theorem length_strncpy (src : Name) (n : Nat) : (strncpy src n).length = n := by
  simp [strncpy]
  omega

theorem length_snprintf_fmt7 (v : Nat) : (snprintf 8 (fmt_octal 7 v)).length = 8 := by
  obtain ⟨ds, h1, h2, _, _, _⟩ := fmt_octal_spec 7 v
  simp [snprintf, h1]
  omega

theorem snprintf_fmt11 (v : Nat) : snprintf 12 (fmt_octal 11 v) = fmt_octal 11 v ++ [0] := by
  obtain ⟨ds, h1, h2, h3, _, _⟩ := fmt_octal_spec 11 v
  simp only [snprintf, h1]
  rw [List.take_of_length_le (by simp at h3; omega)]

theorem length_fmt11 (v : Nat) : (fmt_octal 11 v).length = 11 := by
  obtain ⟨ds, h1, h2, h3, _, _⟩ := fmt_octal_spec 11 v
  simp at h3
  rw [h1]; omega

theorem length_snprintf_fmt11 (v : Nat) : (snprintf 12 (fmt_octal 11 v)).length = 12 := by
  rw [snprintf_fmt11]; simp [length_fmt11]

/-- Reading back a size field: eleven octal digits and a NUL parse to the value printed. -/
theorem strtol8_fmt11 (v : Nat) (rest : List Nat) :
    strtol8 (snprintf 12 (fmt_octal 11 v) ++ rest) = ((v % 4294967296 : Nat) : Int) := by
  obtain ⟨ds, h1, h2, h3, h4, h5⟩ := fmt_octal_spec 11 v
  rw [snprintf_fmt11, h1]
  cases ds with
  | nil => simp at h2
  | cons d tl =>
    have hd : is_octal_digit d = true := h4 d (by simp)
    simp only [is_octal_digit, Bool.and_eq_true, decide_eq_true_eq] at hd
    have hsp : isspace d = false := by
      simp [isspace]
      omega
    have hdw : List.dropWhile isspace (d :: tl ++ [0] ++ rest) = d :: tl ++ [0] ++ rest := by
      simp [List.dropWhile, hsp]
    have h45 : ¬ d = 45 := by omega
    have h43 : ¬ d = 43 := by omega
    unfold strtol8
    simp only [hdw]
    simp only [List.cons_append, List.head?_cons, Option.some.injEq, h45, h43, if_false]
    have := strtol8_digits_append (d :: tl) ([0] ++ rest) 0 h4
    simp only [List.cons_append, List.append_assoc] at this ⊢
    rw [this, h5]
    simp only [List.singleton_append, strtol8_digits, is_octal_digit]
    have hlt := Nat.mod_lt v (show 0 < 4294967296 by norm_num)
    simp [LONG_MAX]
    omega


/-! ## Buffers -/

theorem length_poke (buf data : List Nat) (off : Nat) (h : off + data.length ≤ buf.length) :
    (poke buf off data).length = buf.length := by
  simp [poke]
  omega

theorem take_poke (buf data : List Nat) (off k : Nat) (hk : k ≤ off) (h : off ≤ buf.length) :
    (poke buf off data).take k = buf.take k := by
  unfold poke
  rw [List.append_assoc, List.take_append_of_le_length (by simp; omega), List.take_take]
  simp [hk]

theorem drop_poke (buf data : List Nat) (off a : Nat) (ha : off + data.length ≤ a)
    (h : off + data.length ≤ buf.length) :
    (poke buf off data).drop a = buf.drop a := by
  unfold poke
  have h1 : (List.take off buf ++ data).length = off + data.length := by simp; omega
  rw [show a = (List.take off buf ++ data).length + (a - (off + data.length)) by omega,
    List.drop_append, List.drop_drop]
  congr 1
  omega

theorem slice_poke_before (buf data : List Nat) (off a n : Nat) (ha : a + n ≤ off)
    (h : off ≤ buf.length) :
    ((poke buf off data).drop a).take n = (buf.drop a).take n := by
  rw [List.take_drop, List.take_drop, take_poke _ _ _ _ ha h]

theorem slice_poke_self (buf data : List Nat) (off : Nat) (h : off ≤ buf.length) :
    ((poke buf off data).drop off).take data.length = data := by
  unfold poke
  have h1 : (List.take off buf).length = off := by simp; omega
  rw [List.append_assoc, List.drop_left' h1]
  simp


/-! ## Header blocks -/

theorem poke_keeps_length {buf data : List Nat} {off : Nat} (hb : buf.length = 512)
    (hd : off + data.length ≤ 512) : (poke buf off data).length = 512 := by
  rw [length_poke _ _ _ (by omega), hb]

theorem poke_keeps_name {buf nm : List Nat} (off : Nat) (data : List Nat)
    (hb : buf.length = 512 ∧ buf.take 100 = nm) (ho : 100 ≤ off)
    (hd : off + data.length ≤ 512) :
    (poke buf off data).length = 512 ∧ (poke buf off data).take 100 = nm := by
  refine ⟨poke_keeps_length hb.1 hd, ?_⟩
  rw [take_poke _ _ _ _ ho (by omega), hb.2]

theorem poke_keeps_size {buf sz : List Nat} (off : Nat) (data : List Nat)
    (hb : buf.length = 512 ∧ (buf.drop 124).take 12 = sz) (ho : 136 ≤ off)
    (hd : off + data.length ≤ 512) :
    (poke buf off data).length = 512 ∧ ((poke buf off data).drop 124).take 12 = sz := by
  refine ⟨poke_keeps_length hb.1 hd, ?_⟩
  rw [slice_poke_before _ _ _ _ _ (by omega) (by omega), hb.2]

theorem poke_sets_size {buf data : List Nat} (hb : buf.length = 512)
    (hd : data.length = 12) :
    (poke buf OFF_SIZE data).length = 512 ∧ ((poke buf OFF_SIZE data).drop 124).take 12 = data := by
  refine ⟨poke_keeps_length hb (by rw [hd]; decide), ?_⟩
  have := slice_poke_self buf data OFF_SIZE (by rw [hb]; decide)
  rw [hd] at this
  exact this

theorem length_compute_checksum {header : List Nat} (hb : header.length = 512) :
    (compute_checksum header).length = 512 := by
  unfold compute_checksum
  exact poke_keeps_length (poke_keeps_length hb (by decide))
    (by rw [length_snprintf_fmt7]; decide)

theorem compute_checksum_keeps_name {header nm : List Nat}
    (hb : header.length = 512 ∧ header.take 100 = nm) :
    (compute_checksum header).length = 512 ∧ (compute_checksum header).take 100 = nm := by
  unfold compute_checksum
  exact poke_keeps_name _ _ (poke_keeps_name _ _ hb (by decide) (by decide)) (by decide)
    (by rw [length_snprintf_fmt7]; decide)

theorem compute_checksum_keeps_size {header sz : List Nat}
    (hb : header.length = 512 ∧ (header.drop 124).take 12 = sz) :
    (compute_checksum header).length = 512 ∧
      ((compute_checksum header).drop 124).take 12 = sz := by
  unfold compute_checksum
  exact poke_keeps_size _ _ (poke_keeps_size _ _ hb (by decide) (by decide)) (by decide)
    (by rw [length_snprintf_fmt7]; decide)

/-- What a successful `fill_tar_header` returns: the inputs it read. -/
theorem fill_tar_header_some {fs : FileSys} {file_name : Name} {header : List Nat}
    (h : fill_tar_header fs file_name = some header) :
    ∃ f, fs.files file_name = some f ∧ (fs.getpwuid f.st_uid).isSome = true ∧
      (fs.getgrgid f.st_gid).isSome = true ∧
      header.length = 512 ∧ header.take 100 = strncpy file_name 100 ∧
      (header.drop 124).take 12 = snprintf 12 (fmt_octal 11 f.content.length) := by
  unfold fill_tar_header stat at h
  cases hf : fs.files file_name with
  | none => simp [hf] at h
  | some f =>
    cases hp : fs.getpwuid f.st_uid with
    | none => simp [hf, hp] at h
    | some pw =>
      cases hg : fs.getgrgid f.st_gid with
      | none => simp [hf, hp, hg] at h
      | some gr =>
        simp only [hf, hp, hg, Option.some.injEq] at h
        subst h
        refine ⟨f, rfl, by rw [hp]; rfl, by rw [hg]; rfl, ?_⟩
        have side7 : ∀ (off v : Nat), off + 8 ≤ 512 →
            off + (snprintf 8 (fmt_octal 7 v)).length ≤ 512 := by
          intro off v ho; rw [length_snprintf_fmt7]; exact ho
        have side11 : ∀ (off v : Nat), off + 12 ≤ 512 →
            off + (snprintf 12 (fmt_octal 11 v)).length ≤ 512 := by
          intro off v ho; rw [length_snprintf_fmt11]; exact ho
        have sideS : ∀ (off n : Nat) (s : Name), off + n ≤ 512 →
            off + (strncpy s n).length ≤ 512 := by
          intro off n s ho; rw [length_strncpy]; exact ho
        have l0 : (List.replicate 512 0 : List Nat).length = 512 := List.length_replicate _ _
        have n1 : (poke (List.replicate 512 0) OFF_NAME (strncpy file_name 100)).length = 512 ∧
            (poke (List.replicate 512 0) OFF_NAME (strncpy file_name 100)).take 100 =
              strncpy file_name 100 := by
          refine ⟨poke_keeps_length l0 (sideS _ _ _ (by decide)), ?_⟩
          have := slice_poke_self (List.replicate 512 0) (strncpy file_name 100) 0
            (Nat.zero_le _)
          rw [length_strncpy, List.drop_zero] at this
          exact this
        have n2 := poke_keeps_name OFF_MODE
          (snprintf 8 (fmt_octal 7 (f.st_mode % 4096))) n1 (by decide) (side7 _ _ (by decide))
        have n3 := poke_keeps_name OFF_UID
          (snprintf 8 (fmt_octal 7 f.st_uid)) n2 (by decide) (side7 _ _ (by decide))
        have n4 := poke_keeps_name OFF_UNAME
          (strncpy pw 32) n3 (by decide) (sideS _ _ _ (by decide))
        have n5 := poke_keeps_name OFF_GID
          (snprintf 8 (fmt_octal 7 f.st_gid)) n4 (by decide) (side7 _ _ (by decide))
        have n6 := poke_keeps_name OFF_GNAME
          (strncpy gr 32) n5 (by decide) (sideS _ _ _ (by decide))
        have n7 := poke_keeps_name OFF_SIZE
          (snprintf 12 (fmt_octal 11 f.content.length)) n6 (by decide)
          (side11 _ _ (by decide))
        have s7 := poke_sets_size n6.1 (length_snprintf_fmt11 f.content.length)
        have n8 := poke_keeps_name OFF_MTIME
          (snprintf 12 (fmt_octal 11 f.st_mtime)) n7 (by decide) (side11 _ _ (by decide))
        have s8 := poke_keeps_size OFF_MTIME
          (snprintf 12 (fmt_octal 11 f.st_mtime)) s7 (by decide) (side11 _ _ (by decide))
        have n9 := poke_keeps_name OFF_TYPEFLAG
          ([REGTYPE]) n8
          (by decide) (by decide)
        have s9 := poke_keeps_size OFF_TYPEFLAG
          ([REGTYPE]) s8
          (by decide) (by decide)
        have n10 := poke_keeps_name OFF_MAGIC
          (strncpy MAGIC 6) n9
          (by decide) (by decide)
        have s10 := poke_keeps_size OFF_MAGIC
          (strncpy MAGIC 6) s9
          (by decide) (by decide)
        have n11 := poke_keeps_name OFF_VERSION
          ([48, 48]) n10
          (by decide) (by decide)
        have s11 := poke_keeps_size OFF_VERSION
          ([48, 48]) s10
          (by decide) (by decide)
        have n12 := poke_keeps_name OFF_DEVMAJOR
          (snprintf 8 (fmt_octal 7 f.st_dev_major)) n11 (by decide)
          (side7 _ _ (by decide))
        have s12 := poke_keeps_size OFF_DEVMAJOR
          (snprintf 8 (fmt_octal 7 f.st_dev_major)) s11 (by decide)
          (side7 _ _ (by decide))
        have n13 := poke_keeps_name OFF_DEVMINOR
          (snprintf 8 (fmt_octal 7 f.st_dev_minor)) n12 (by decide)
          (side7 _ _ (by decide))
        have s13 := poke_keeps_size OFF_DEVMINOR
          (snprintf 8 (fmt_octal 7 f.st_dev_minor)) s12 (by decide)
          (side7 _ _ (by decide))
        have n14 := compute_checksum_keeps_name n13
        have s14 := compute_checksum_keeps_size s13
        exact ⟨n14.1, n14.2, s14.2⟩


theorem cstr_append_nul (n rest : List Nat) (h0 : 0 ∉ n) : cstr (n ++ 0 :: rest) = n := by
  unfold cstr
  induction n with
  | nil => simp
  | cons a t ih =>
    have ha : a ≠ 0 := fun h => h0 (by simp [h])
    have ht : 0 ∉ t := fun h => h0 (by simp [h])
    have hb : (a != 0) = true := by simp [ha]
    rw [List.cons_append, List.takeWhile_cons, hb]
    simp only [if_true]
    rw [ih ht]

/-- A name shorter than the name field is read back from the header unchanged. -/
theorem header_name_fill {fs : FileSys} {file_name : Name} {header : List Nat}
    (h : fill_tar_header fs file_name = some header) (hlen : file_name.length < 100)
    (h0 : 0 ∉ file_name) : header_name header = file_name := by
  obtain ⟨f, _, _, _, _, hname, _⟩ := fill_tar_header_some h
  unfold header_name
  have hsplit : header = header.take 100 ++ header.drop 100 := (List.take_append_drop _ _).symm
  rw [show OFF_NAME = 0 from rfl, List.drop_zero, hsplit, hname]
  unfold strncpy
  rw [List.take_of_length_le (by omega)]
  obtain ⟨k, hk⟩ : ∃ k, 100 - file_name.length = k + 1 := ⟨99 - file_name.length, by omega⟩
  rw [hk, List.replicate_succ, List.append_assoc, List.cons_append]
  exact cstr_append_nul _ _ h0

/-- The size field of a header is read back as the file size reduced to 32 bits. -/
theorem header_size_fill {fs : FileSys} {file_name : Name} {header : List Nat}
    (h : fill_tar_header fs file_name = some header) :
    ∃ f, fs.files file_name = some f ∧
      header_size header = ((f.content.length % 4294967296 : Nat) : Int) := by
  obtain ⟨f, hf, _, _, _, _, hsize⟩ := fill_tar_header_some h
  refine ⟨f, hf, ?_⟩
  unfold header_size
  have hsplit : header.drop 124 = (header.drop 124).take 12 ++ (header.drop 124).drop 12 :=
    (List.take_append_drop _ _).symm
  rw [show OFF_SIZE = 124 from rfl, hsplit, hsize]
  exact strtol8_fmt11 _ _


/-! ## The writer -/

theorem zero_pad_nil : zero_pad [] = [] := rfl

theorem length_zero_pad (c : List Nat) :
    (zero_pad c).length = 512 * ((c.length + 511) / 512) := by
  simp only [zero_pad, List.length_append, List.length_replicate]
  omega

/-- The copy loop writes the content padded with zero bytes to a whole number of blocks. -/
theorem copy_blocks_eq : ∀ (fuel : Nat) (c : List Nat), c.length ≤ fuel →
    copy_blocks fuel c = zero_pad c := by
  intro fuel
  induction fuel with
  | zero =>
    intro c hc
    have : c = [] := List.length_eq_zero.mp (by omega)
    subst this
    rfl
  | succ k ih =>
    intro c hc
    cases c with
    | nil => rfl
    | cons a t =>
      simp only [copy_blocks]
      by_cases hle : (a :: t).length ≤ 512
      · rw [List.take_of_length_le hle, List.drop_of_length_le hle]
        have h0 : copy_blocks k [] = [] := by cases k <;> rfl
        rw [h0, List.append_nil]
        unfold zero_pad
        have hpos : 0 < (a :: t).length := by simp
        have e : 512 - (a :: t).length = (512 - (a :: t).length % 512) % 512 := by omega
        rw [e]
      · have hlt : 512 < (a :: t).length := by omega
        have htk : (List.take 512 (a :: t)).length = 512 := by
          rw [List.length_take]; omega
        rw [htk, ih _ (by rw [List.length_drop]; omega)]
        unfold zero_pad
        rw [List.length_drop]
        simp only [Nat.sub_self, List.replicate_zero, List.append_nil]
        rw [← List.append_assoc, List.take_append_drop]
        have e : (512 - ((a :: t).length - 512) % 512) % 512 =
            (512 - (a :: t).length % 512) % 512 := by omega
        rw [e]

theorem fill_tar_header_congr {fs fs' : FileSys} {name : Name}
    (hf : fs'.files name = fs.files name) (hp : fs'.getpwuid = fs.getpwuid)
    (hg : fs'.getgrgid = fs.getgrgid) : fill_tar_header fs' name = fill_tar_header fs name := by
  unfold fill_tar_header stat
  rw [hf, hp, hg]

theorem fill_tar_header_archivable {fs : FileSys} {name : Name}
    (h : archivable fs name = true) :
    ∃ header, fill_tar_header fs name = some header ∧ header.length = 512 ∧
      fopen_r fs name = some (content_of fs name) := by
  unfold archivable at h
  cases hf : fs.files name with
  | none => simp [hf] at h
  | some f =>
    simp only [hf, Bool.and_eq_true] at h
    obtain ⟨⟨hr, hp⟩, hg⟩ := h
    obtain ⟨pw, hpw⟩ := Option.isSome_iff_exists.mp hp
    obtain ⟨gr, hgr⟩ := Option.isSome_iff_exists.mp hg
    have hsome : ∃ header, fill_tar_header fs name = some header := by
      unfold fill_tar_header stat
      simp only [hf, hpw, hgr]
      exact ⟨_, rfl⟩
    obtain ⟨header, hh⟩ := hsome
    obtain ⟨_, _, _, _, hl, _⟩ := fill_tar_header_some hh
    refine ⟨header, hh, hl, ?_⟩
    simp [fopen_r, content_of, hf, hr]

theorem entry_of_archivable {fs : FileSys} {name : Name} (h : archivable fs name = true) :
    fill_tar_header fs name = some (entry_of fs name).header ∧
      (entry_of fs name).header.length = 512 := by
  obtain ⟨header, hh, hl, _⟩ := fill_tar_header_archivable h
  simp [entry_of, hh, hl]

/-- On files that can all be archived the writer loop succeeds and writes their entries. -/
theorem write_entries_ok (fs : FileSys) : ∀ files : List Name,
    (∀ n ∈ files, archivable fs n = true) →
    write_entries fs files = (true, entries_bytes (files.map (entry_of fs))) := by
  intro files
  induction files with
  | nil => intro _; rfl
  | cons n rest ih =>
    intro h
    obtain ⟨header, hh, _, hr⟩ := fill_tar_header_archivable (h n (by simp))
    have ih' := ih (fun m hm => h m (by simp [hm]))
    simp only [write_entries, hh, hr, ih', List.map_cons, entries_bytes, entry_of,
      Option.getD_some]
    rw [copy_blocks_eq _ _ (le_refl _)]


/-! ## File-system primitives -/

theorem put_files_same (fs : FileSys) (name : Name) (f : File) :
    (fs.put name f).files name = some f := by
  simp [FileSys.put]

theorem put_files_other (fs : FileSys) (name n : Name) (f : File) (h : n ≠ name) :
    (fs.put name f).files n = fs.files n := by
  simp [FileSys.put, h]

theorem set_content_files_same {fs : FileSys} {name : Name} {f : File} (bytes : List Nat)
    (h : fs.files name = some f) :
    (fs.set_content name bytes).files name = some { f with content := bytes } := by
  simp [FileSys.set_content, h, FileSys.put]

theorem set_content_files_other (fs : FileSys) (name n : Name) (bytes : List Nat)
    (h : n ≠ name) : (fs.set_content name bytes).files n = fs.files n := by
  unfold FileSys.set_content
  cases fs.files name with
  | none => rfl
  | some f => simp [FileSys.put, h]

theorem set_content_env (fs : FileSys) (name : Name) (bytes : List Nat) :
    (fs.set_content name bytes).getpwuid = fs.getpwuid ∧
      (fs.set_content name bytes).getgrgid = fs.getgrgid ∧
      (fs.set_content name bytes).creatable = fs.creatable ∧
      (fs.set_content name bytes).fresh = fs.fresh := by
  unfold FileSys.set_content
  cases fs.files name with
  | none => exact ⟨rfl, rfl, rfl, rfl⟩
  | some f => exact ⟨rfl, rfl, rfl, rfl⟩

/-- What a successful `fopen(name, "w")` leaves behind. -/
theorem fopen_w_some {fs fs1 : FileSys} {name : Name} (h : fopen_w fs name = some fs1) :
    (∃ f, fs1.files name = some f ∧ f.content = [] ∧ f.writable = true ∧
        (∀ g, fs.files name = some g → f.readable = g.readable) ∧
        (fs.files name = none → f.readable = true)) ∧
      (∀ n, n ≠ name → fs1.files n = fs.files n) ∧
      fs1.getpwuid = fs.getpwuid ∧ fs1.getgrgid = fs.getgrgid ∧
      fs1.creatable = fs.creatable ∧ fs1.fresh = fs.fresh := by
  unfold fopen_w at h
  cases hf : fs.files name with
  | none =>
    simp only [hf] at h
    by_cases hc : fs.creatable name = true
    · simp only [hc, if_true, Option.some.injEq] at h
      subst h
      refine ⟨⟨_, put_files_same _ _ _, rfl, rfl, ?_, fun _ => rfl⟩, ?_, rfl, rfl, rfl, rfl⟩
      · intro g hg; simp at hg
      · intro n hn; exact put_files_other _ _ _ _ hn
    · simp [hc] at h
  | some f =>
    simp only [hf] at h
    by_cases hw : f.writable = true
    · simp only [hw, if_true, Option.some.injEq] at h
      subst h
      refine ⟨⟨_, put_files_same _ _ _, rfl, rfl, ?_, fun h => by simp at h⟩, ?_,
        rfl, rfl, rfl, rfl⟩
      · intro g hg
        simp only [Option.some.injEq] at hg
        subst hg
        rfl
      · intro n hn; exact put_files_other _ _ _ _ hn
    · simp [hw] at h

theorem content_of_eq {fs : FileSys} {name : Name} {f : File} (h : fs.files name = some f) :
    content_of fs name = f.content := by
  simp [content_of, h]

theorem entry_of_congr {fs fs' : FileSys} {name : Name}
    (hf : fs'.files name = fs.files name) (hp : fs'.getpwuid = fs.getpwuid)
    (hg : fs'.getgrgid = fs.getgrgid) : entry_of fs' name = entry_of fs name := by
  unfold entry_of content_of
  rw [fill_tar_header_congr hf hp hg, hf]

theorem archivable_congr {fs fs' : FileSys} {name : Name}
    (hf : fs'.files name = fs.files name) (hp : fs'.getpwuid = fs.getpwuid)
    (hg : fs'.getgrgid = fs.getgrgid) : archivable fs' name = archivable fs name := by
  unfold archivable
  rw [hf, hp, hg]

/-- The outcome of `create_archive` on files that can all be archived. -/
theorem create_archive_ok {fs : FileSys} {archive_name : Name} {files : List Name}
    (hopen : openable fs archive_name = true) (hsep : archive_name ∉ files)
    (hfiles : ∀ n ∈ files, archivable fs n = true) :
    (create_archive fs archive_name files).1 = 0 ∧
      (∃ f, (create_archive fs archive_name files).2.files archive_name = some f ∧
        f.content = entries_bytes (files.map (entry_of fs)) ++ List.replicate 1024 0 ∧
        f.writable = true ∧ (∀ g, fs.files archive_name = some g → f.readable = g.readable) ∧
        (fs.files archive_name = none → f.readable = true)) ∧
      (∀ n, n ≠ archive_name →
        (create_archive fs archive_name files).2.files n = fs.files n) ∧
      (create_archive fs archive_name files).2.getpwuid = fs.getpwuid ∧
      (create_archive fs archive_name files).2.getgrgid = fs.getgrgid ∧
      (create_archive fs archive_name files).2.creatable = fs.creatable ∧
      (create_archive fs archive_name files).2.fresh = fs.fresh := by
  unfold openable at hopen
  obtain ⟨fs1, h1⟩ := Option.isSome_iff_exists.mp hopen
  obtain ⟨⟨f1, hf1, hc1, hw1, hr1, hr0⟩, hother, hp, hg, hcr, hfr⟩ := fopen_w_some h1
  have hne : ∀ n ∈ files, n ≠ archive_name := fun n hn h => hsep (h ▸ hn)
  have hfiles1 : ∀ n ∈ files, archivable fs1 n = true := fun n hn => by
    rw [archivable_congr (hother n (hne n hn)) hp hg]; exact hfiles n hn
  have hmap : files.map (entry_of fs1) = files.map (entry_of fs) :=
    List.map_congr_left (fun n hn => entry_of_congr (hother n (hne n hn)) hp hg)
  have hw := write_entries_ok fs1 files hfiles1
  rw [hmap] at hw
  have hres : create_archive fs archive_name files =
      (0, fs1.set_content archive_name
        (entries_bytes (files.map (entry_of fs)) ++ List.replicate 1024 0)) := by
    unfold create_archive
    simp only [h1, hw, if_true]
  rw [hres]
  obtain ⟨e1, e2, e3, e4⟩ := set_content_env fs1 archive_name
    (entries_bytes (files.map (entry_of fs)) ++ List.replicate 1024 0)
  refine ⟨rfl, ⟨_, set_content_files_same _ hf1, rfl, hw1, hr1, hr0⟩, ?_, ?_, ?_, ?_, ?_⟩
  · intro n hn
    show (fs1.set_content archive_name _).files n = _
    rw [set_content_files_other _ _ _ _ hn, hother n hn]
  · exact e1.trans hp
  · exact e2.trans hg
  · exact e3.trans hcr
  · exact e4.trans hfr


/-! ## Integer conversions on well-formed sizes -/

theorem tdiv_blocks {s : Int} (h0 : 0 ≤ s) (h1 : s < 8589934592) :
    Int.tdiv (wrap64 (s + 511)) 512 = (s + 511) / 512 := by
  have hw : wrap64 (s + 511) = s + 511 := by unfold wrap64; omega
  rw [hw, Int.tdiv_eq_ediv (by omega) (by norm_num)]

theorem skip_distance {s : Int} (h0 : 0 ≤ s) (h1 : s < 8589934592)
    (h2 : 512 * ((s + 511) / 512) < 2147483648) :
    wrap32 (wrap64 (512 * Int.tdiv (wrap64 (s + 511)) 512)) = 512 * ((s + 511) / 512) := by
  rw [tdiv_blocks h0 h1]
  unfold wrap32 wrap64
  omega

theorem block_count {s : Int} (h0 : 0 ≤ s) (h1 : s < 8589934592) :
    wrap32 (Int.tdiv (wrap64 (s + 511)) 512) = (s + 511) / 512 := by
  rw [tdiv_blocks h0 h1]
  unfold wrap32
  omega

theorem trailing_count (s : Int) :
    wrap32 (wrap64 (wrap32 (512 * ((s + 511) / 512)) - s)) = 512 * ((s + 511) / 512) - s := by
  unfold wrap32 wrap64
  omega

/-! ## Reading blocks -/

theorem fread_block_of_drop {arc rest : List Nat} {p : Nat} (h : arc.drop p = rest)
    (hl : 512 ≤ rest.length) : fread_block arc p = some (rest.take 512) := by
  unfold fread_block
  rw [h]
  simp only [List.length_take]
  rw [if_pos (by omega)]

theorem length_of_drop {arc rest : List Nat} {p : Nat} (h : arc.drop p = rest)
    (hl : 0 < rest.length) : arc.length = p + rest.length := by
  have := congrArg List.length h
  rw [List.length_drop] at this
  omega

theorem length_archive_bytes (es : List Entry) :
    (archive_bytes es).length = (entries_bytes es).length + 1024 := by
  simp only [archive_bytes, footer, List.length_append, List.length_replicate]

theorem archive_bytes_cons (e : Entry) (es : List Entry) :
    archive_bytes (e :: es) = e.header ++ (e.data ++ archive_bytes es) := by
  simp only [archive_bytes, entries_bytes, List.append_assoc]

/-- The data region of a well-formed entry as a natural number of bytes. -/
theorem Entry.wf_data {e : Entry} (h : e.wf) :
    e.data.length = 512 * ((e.size + 511) / 512).toNat ∧
      e.size.toNat ≤ e.data.length ∧ e.data.length < e.size.toNat + 512 := by
  obtain ⟨_, h0, h1, hd⟩ := h
  omega


/-! ## The list walk over a well-formed archive -/

/-- From a position where the rest of the archive is a sequence of well-formed entries and the
footer, the list walk records the names of the entries in order and returns 0. -/
theorem list_walk : ∀ (es : List Entry) (arc : List Nat) (p fuel : Nat) (h : List Nat)
    (files : List Name),
    (∀ e ∈ es, e.wf ∧ e.skippable) → es.length < fuel →
    arc.drop p = archive_bytes es → fread_block arc p = some h →
    list_loop arc ((arc.length : Int) - 512) fuel h ((p : Int) + 512) files =
      some (0, files ++ es.map Entry.name) := by
  intro es
  induction es with
  | nil =>
    intro arc p fuel h files _ hfuel hdrop _
    have hlen := length_of_drop hdrop (by rw [length_archive_bytes]; omega)
    rw [length_archive_bytes] at hlen
    simp only [entries_bytes, List.length_nil] at hlen
    obtain ⟨k, rfl⟩ : ∃ k, fuel = k + 1 := ⟨fuel - 1, by simp at hfuel; omega⟩
    unfold list_loop
    rw [if_pos (by rw [hlen]; push_cast; omega)]
    simp
  | cons e es ih =>
    intro arc p fuel h files hwf hfuel hdrop hread
    obtain ⟨⟨hhl, h0, h1, hd⟩, hskip⟩ := hwf e (by simp)
    have hlen := length_of_drop hdrop (by rw [length_archive_bytes]; omega)
    rw [archive_bytes_cons] at hdrop
    rw [archive_bytes_cons] at hlen
    simp only [List.length_append] at hlen
    have htail := length_archive_bytes es
    have hhead : h = e.header := by
      have := fread_block_of_drop hdrop (by simp only [List.length_append]; omega)
      rw [hread, List.take_left' hhl] at this
      exact (Option.some.inj this)
    subst hhead
    obtain ⟨k, rfl⟩ : ∃ k, fuel = k + 1 := ⟨fuel - 1, by simp at hfuel; omega⟩
    have hx : wrap32 (wrap64 (512 * Int.tdiv (wrap64 (header_size e.header + 511)) 512)) =
        (e.data.length : Int) := by
      unfold Entry.skippable at hskip
      unfold Entry.size at h0 h1 hd
      rw [skip_distance h0 h1 (by omega), hd]
    have hdrop' : arc.drop (p + 512 + e.data.length) = archive_bytes es := by
      rw [show p + 512 + e.data.length = p + (512 + e.data.length) by omega, ← List.drop_drop,
        hdrop, ← List.append_assoc]
      exact List.drop_left' (by simp only [List.length_append]; omega)
    have hnext := fread_block_of_drop hdrop' (by omega)
    unfold list_loop
    rw [if_neg (by rw [hlen]; push_cast; omega)]
    simp only [hx]
    rw [if_neg (by omega)]
    have htarget : ((p : Int) + 512 + (e.data.length : Int)).toNat = p + 512 + e.data.length := by
      omega
    rw [htarget, hnext]
    simp only
    have := ih arc (p + 512 + e.data.length) k _ (file_list_add files (header_name e.header))
      (fun e' he' => hwf e' (by simp [he'])) (by simp at hfuel; omega) hdrop' hnext
    rw [hlen] at this ⊢
    push_cast at this ⊢
    rw [this]
    simp [file_list_add, Entry.name]


/-- Listing an archive that holds well-formed entries yields their names in order. -/
theorem list_of_archive {fs : FileSys} {archive_name : Name} {es : List Entry} (fuel : Nat)
    (files : List Name) (hread : fopen_r fs archive_name = some (archive_bytes es))
    (hwf : ∀ e ∈ es, e.wf ∧ e.skippable) (hfuel : es.length < fuel) :
    get_archive_file_list fuel fs archive_name files = some (0, files ++ es.map Entry.name) := by
  have hl := length_archive_bytes es
  have hfirst := fread_block_of_drop (List.drop_zero (archive_bytes es)) (by omega)
  have := list_walk es (archive_bytes es) 0 fuel _ files hwf hfuel (List.drop_zero _) hfirst
  unfold get_archive_file_list
  simp only [hread]
  rw [if_neg (by omega), hfirst]
  simpa using this

/-! ## Extraction of one entry -/

theorem remove_trailing_bytes_ok {fs : FileSys} {name : Name} {f : File} (nbytes : Nat)
    (hf : fs.files name = some f) (hw : f.writable = true) (hn : nbytes ≤ f.content.length)
    (hsmall : nbytes < 9223372036854775808) :
    ∃ fs3, remove_trailing_bytes fs name nbytes = some fs3 ∧
      (∃ g, fs3.files name = some g ∧
        g.content = f.content.take (f.content.length - nbytes) ∧ g.writable = true) ∧
      (∀ n, n ≠ name → fs3.files n = fs.files n) ∧ fs3.creatable = fs.creatable := by
  unfold remove_trailing_bytes
  simp only [hf, hw, if_true]
  have hoff : wrap64 (-((nbytes % 18446744073709551616 : Nat) : Int)) = -(nbytes : Int) := by
    unfold wrap64
    omega
  simp only [hoff]
  rw [if_neg (by omega)]
  have hpos : ((f.content.length : Int) + -(nbytes : Int)).toNat = f.content.length - nbytes := by
    omega
  rw [hpos, show f.content.length - nbytes - f.content.length = 0 by omega]
  refine ⟨_, rfl, ⟨_, put_files_same _ _ _, by simp, rfl⟩, ?_, rfl⟩
  intro n hn'
  exact put_files_other _ _ _ _ hn'

/-- The effect of extracting a well-formed entry whose destination can be opened. -/
theorem extract_entry_spec {fs : FileSys} {e : Entry} (ho : openable fs e.name = true)
    (hwf : e.wf) :
    ∃ fs1, fopen_w fs e.name = some fs1 ∧
      remove_trailing_bytes (fs1.set_content e.name e.data) e.name
        (e.data.length - e.size.toNat) = some (extract_entry fs e) ∧
      (∃ f, (extract_entry fs e).files e.name = some f ∧ f.content = e.payload ∧
        f.writable = true) ∧
      (∀ n, n ≠ e.name → (extract_entry fs e).files n = fs.files n) ∧
      (extract_entry fs e).creatable = fs.creatable := by
  unfold openable at ho
  obtain ⟨fs1, h1⟩ := Option.isSome_iff_exists.mp ho
  obtain ⟨⟨f1, hf1, _, hw1, _, _⟩, hother, _, _, hcr, _⟩ := fopen_w_some h1
  obtain ⟨hd1, hd2, hd3⟩ := Entry.wf_data hwf
  have hf2 := set_content_files_same e.data hf1
  obtain ⟨fs3, hrtb, ⟨g, hg, hgc, hgw⟩, hother3, hcr3⟩ :=
    remove_trailing_bytes_ok (e.data.length - e.size.toNat) hf2 hw1
      (by simp only; omega) (by obtain ⟨_, _, h1, _⟩ := hwf; omega)
  have hee : extract_entry fs e = fs3 := by
    unfold extract_entry
    simp only [h1, hrtb]
  rw [hee]
  refine ⟨fs1, h1, hrtb, ⟨g, hg, ?_, hgw⟩, ?_, ?_⟩
  · rw [hgc]
    simp only [Entry.payload]
    congr 1
    omega
  · intro n hn
    rw [hother3 n hn, set_content_files_other _ _ _ _ hn, hother n hn]
  · rw [hcr3, (set_content_env fs1 e.name e.data).2.2.1, hcr]

theorem openable_of_files {fs fs' : FileSys} {name : Name} (hf : fs'.files name = fs.files name)
    (hc : fs'.creatable = fs.creatable) : openable fs' name = openable fs name := by
  unfold openable fopen_w
  rw [hf, hc]
  cases fs.files name with
  | none => by_cases h : fs.creatable name = true <;> simp [h]
  | some f => by_cases h : f.writable = true <;> simp [h]

theorem openable_of_writable {fs : FileSys} {name : Name} {f : File}
    (hf : fs.files name = some f) (hw : f.writable = true) : openable fs name = true := by
  simp [openable, fopen_w, hf, hw]

theorem openable_extract_entry {fs : FileSys} {e : Entry} (ho : openable fs e.name = true)
    (hwf : e.wf) (m : Name) (hm : openable fs m = true) :
    openable (extract_entry fs e) m = true := by
  obtain ⟨fs1, _, _, ⟨f, hf, _, hw⟩, hother, hcr⟩ := extract_entry_spec ho hwf
  by_cases h : m = e.name
  · subst h
    exact openable_of_writable hf hw
  · rw [openable_of_files (hother m h) hcr]
    exact hm


/-! ## The extract walk over a well-formed archive -/

/-- From a position where the rest of the archive is a sequence of well-formed entries and the
footer, the extract walk extracts the entries one after the other and returns 0. -/
theorem extract_walk : ∀ (es : List Entry) (arc : List Nat) (p fuel : Nat) (h : List Nat)
    (fs : FileSys),
    (∀ e ∈ es, e.wf) → (∀ e ∈ es, openable fs e.name = true) → es.length < fuel →
    arc.drop p = archive_bytes es → fread_block arc p = some h →
    extract_loop arc ((arc.length : Int) - 512) fuel fs h (p + 512) =
      some (0, es.foldl extract_entry fs) := by
  intro es
  induction es with
  | nil =>
    intro arc p fuel h fs _ _ hfuel hdrop _
    have hlen := length_of_drop hdrop (by rw [length_archive_bytes]; omega)
    rw [length_archive_bytes] at hlen
    simp only [entries_bytes, List.length_nil] at hlen
    obtain ⟨k, rfl⟩ : ∃ k, fuel = k + 1 := ⟨fuel - 1, by simp at hfuel; omega⟩
    unfold extract_loop
    rw [if_neg (by rw [hlen]; push_cast; omega)]
    rfl
  | cons e es ih =>
    intro arc p fuel h fs hwf hopen hfuel hdrop hread
    have hwfe := hwf e (by simp)
    have hwfe' := hwfe
    obtain ⟨hhl, h0, h1, hd⟩ := hwfe'
    obtain ⟨hd1, hd2, hd3⟩ := Entry.wf_data hwfe
    have hlen := length_of_drop hdrop (by rw [length_archive_bytes]; omega)
    rw [archive_bytes_cons] at hdrop
    rw [archive_bytes_cons] at hlen
    simp only [List.length_append] at hlen
    have htail := length_archive_bytes es
    have hhead : h = e.header := by
      have := fread_block_of_drop hdrop (by simp only [List.length_append]; omega)
      rw [hread, List.take_left' hhl] at this
      exact (Option.some.inj this)
    subst hhead
    obtain ⟨k, rfl⟩ : ∃ k, fuel = k + 1 := ⟨fuel - 1, by simp at hfuel; omega⟩
    obtain ⟨fs1, hfs1, hrtb, _, _, _⟩ := extract_entry_spec (hopen e (by simp)) hwfe
    have hx : wrap32 (Int.tdiv (wrap64 (e.size + 511)) 512) =
        (e.size + 511) / 512 := block_count h0 h1
    have hdata : arc.drop (p + 512) = e.data ++ archive_bytes es := by
      rw [← List.drop_drop, hdrop]
      exact List.drop_left' hhl
    have hdrop' : arc.drop (p + 512 + e.data.length) = archive_bytes es := by
      rw [← List.drop_drop, hdata]
      exact List.drop_left' rfl
    have hnext := fread_block_of_drop hdrop' (by omega)
    have htb : (wrap32 (wrap64 (wrap32 (512 * ((e.size + 511) / 512)) - e.size)) %
        18446744073709551616).toNat = e.data.length - e.size.toNat := by
      rw [trailing_count]
      omega
    unfold extract_loop
    rw [if_pos (by rw [hlen]; push_cast; omega)]
    simp only [show header_name e.header = e.name from rfl, hfs1, hx,
      show header_size e.header = e.size from rfl, htb]
    rw [if_neg (by rw [hlen]; omega), ← hd1, hdata, List.take_left' rfl, hrtb, hnext]
    simp only [List.foldl_cons]
    have := ih arc (p + 512 + e.data.length) k _ (extract_entry fs e)
      (fun e' he' => hwf e' (by simp [he']))
      (fun e' he' => openable_extract_entry (hopen e (by simp)) hwfe _ (hopen e' (by simp [he'])))
      (by simp at hfuel; omega) hdrop' hnext
    rw [← this]


theorem length_entries_bytes (es : List Entry) (h : ∀ e ∈ es, e.header.length = 512) :
    512 * es.length ≤ (entries_bytes es).length := by
  induction es with
  | nil => simp
  | cons e es ih =>
    have h1 := h e (by simp)
    have h2 := ih (fun e' he' => h e' (by simp [he']))
    simp only [entries_bytes, List.length_append, List.length_cons]
    omega

/-- Extracting an archive that holds well-formed entries extracts them one after the other. -/
theorem extract_of_archive {fs : FileSys} {archive_name : Name} {es : List Entry}
    (hread : fopen_r fs archive_name = some (archive_bytes es)) (hwf : ∀ e ∈ es, e.wf)
    (hopen : ∀ e ∈ es, openable fs e.name = true) :
    extract_files_from_archive fs archive_name = some (0, es.foldl extract_entry fs) := by
  have hl := length_archive_bytes es
  have hle := length_entries_bytes es (fun e he => (hwf e he).1)
  have hfirst := fread_block_of_drop (List.drop_zero (archive_bytes es)) (by omega)
  have := extract_walk es (archive_bytes es) 0 (archive_bytes es).length _ fs hwf hopen
    (by omega) (List.drop_zero _) hfirst
  unfold extract_files_from_archive
  simp only [hread]
  rw [if_neg (by omega), hfirst]
  simpa using this

theorem openable_foldl : ∀ (es : List Entry) (fs : FileSys), (∀ e ∈ es, e.wf) →
    (∀ e ∈ es, openable fs e.name = true) → ∀ m, openable fs m = true →
    openable (es.foldl extract_entry fs) m = true := by
  intro es
  induction es with
  | nil => intro fs _ _ m hm; exact hm
  | cons e es ih =>
    intro fs hwf hopen m hm
    have he := hopen e (by simp)
    have hw := hwf e (by simp)
    simp only [List.foldl_cons]
    exact ih _ (fun e' he' => hwf e' (by simp [he']))
      (fun e' he' => openable_extract_entry he hw _ (hopen e' (by simp [he']))) m
      (openable_extract_entry he hw m hm)

/-- Extraction leaves alone every path that no entry names. -/
theorem foldl_extract_other : ∀ (es : List Entry) (fs : FileSys), (∀ e ∈ es, e.wf) →
    (∀ e ∈ es, openable fs e.name = true) → ∀ n, (∀ e ∈ es, e.name ≠ n) →
    (es.foldl extract_entry fs).files n = fs.files n := by
  intro es
  induction es with
  | nil => intro fs _ _ n _; rfl
  | cons e es ih =>
    intro fs hwf hopen n hn
    have he := hopen e (by simp)
    have hw := hwf e (by simp)
    obtain ⟨_, _, _, _, hother, _⟩ := extract_entry_spec he hw
    simp only [List.foldl_cons]
    rw [ih _ (fun e' he' => hwf e' (by simp [he']))
      (fun e' he' => openable_extract_entry he hw _ (hopen e' (by simp [he']))) n
      (fun e' he' => hn e' (by simp [he']))]
    exact hother n (fun h => hn e (by simp) h.symm)

/-- After extraction the file at a name holds the payload of the last entry with that name. -/
theorem foldl_extract_last (es1 es2 : List Entry) (e : Entry) (fs : FileSys)
    (hwf : ∀ e' ∈ es1 ++ e :: es2, e'.wf)
    (hopen : ∀ e' ∈ es1 ++ e :: es2, openable fs e'.name = true)
    (hlast : ∀ e' ∈ es2, e'.name ≠ e.name) :
    ∃ f, ((es1 ++ e :: es2).foldl extract_entry fs).files e.name = some f ∧
      f.content = e.payload := by
  have hwf1 : ∀ e' ∈ es1, e'.wf := fun e' h => hwf e' (by simp [h])
  have hop1 : ∀ e' ∈ es1, openable fs e'.name = true := fun e' h => hopen e' (by simp [h])
  have hwe : e.wf := hwf e (by simp)
  have hoe : openable (es1.foldl extract_entry fs) e.name = true :=
    openable_foldl es1 fs hwf1 hop1 _ (hopen e (by simp))
  obtain ⟨_, _, _, ⟨f, hf, hc, _⟩, _, _⟩ := extract_entry_spec hoe hwe
  refine ⟨f, ?_, hc⟩
  rw [List.foldl_append, List.foldl_cons]
  rw [foldl_extract_other es2 _ (fun e' h => hwf e' (by simp [h])) ?_ _ hlast]
  · exact hf
  · intro e' h
    exact openable_extract_entry hoe hwe _
      (openable_foldl es1 fs hwf1 hop1 _ (hopen e' (by simp [h])))

/-! ## Entries written by the writer -/

theorem last_occurrence {α : Type} (l : List α) (a : α) (h : a ∈ l) :
    ∃ l1 l2, l = l1 ++ a :: l2 ∧ a ∉ l2 := by
  classical
  induction l with
  | nil => simp at h
  | cons b t ih =>
    by_cases ht : a ∈ t
    · obtain ⟨l1, l2, h1, h2⟩ := ih ht
      exact ⟨b :: l1, l2, by rw [h1]; rfl, h2⟩
    · have hb : a = b := by
        rcases List.mem_cons.mp h with h | h
        · exact h
        · exact absurd h ht
      exact ⟨[], t, by rw [hb]; rfl, ht⟩

/-- The entry written for a file below 4 GiB is well formed and declares the file's size; its
payload is the file's content. -/
theorem entry_of_wf {fs : FileSys} {name : Name} (ha : archivable fs name = true)
    (hs : (content_of fs name).length < 4294967296) :
    (entry_of fs name).wf ∧ (entry_of fs name).size = ((content_of fs name).length : Int) ∧
      (entry_of fs name).payload = content_of fs name := by
  obtain ⟨hh, hl⟩ := entry_of_archivable ha
  obtain ⟨f, hf, hsz⟩ := header_size_fill hh
  have hc : content_of fs name = f.content := content_of_eq hf
  rw [← hc, Nat.mod_eq_of_lt hs] at hsz
  have hsize : (entry_of fs name).size = ((content_of fs name).length : Int) := hsz
  have hdata : (entry_of fs name).data.length = 512 * (((content_of fs name).length + 511) / 512) :=
    length_zero_pad _
  refine ⟨⟨hl, ?_, ?_, ?_⟩, hsize, ?_⟩
  · rw [hsize]; omega
  · rw [hsize]; omega
  · rw [hsize, hdata]; omega
  · unfold Entry.payload
    rw [hsize, Int.toNat_ofNat]
    show (zero_pad (content_of fs name)).take _ = _
    unfold zero_pad
    exact List.take_left' rfl

theorem entry_of_name {fs : FileSys} {name : Name} (ha : archivable fs name = true)
    (hlen : name.length < 100) (h0 : 0 ∉ name) : (entry_of fs name).name = name :=
  header_name_fill (entry_of_archivable ha).1 hlen h0

theorem entry_of_skippable {fs : FileSys} {name : Name}
    (hs : (content_of fs name).length + 511 < 2147483648) : (entry_of fs name).skippable := by
  unfold Entry.skippable
  have hdata : (entry_of fs name).data.length = 512 * (((content_of fs name).length + 511) / 512) :=
    length_zero_pad _
  omega


/-! ## Properties of `create_archive` -/

theorem openable_of_usable {fs : FileSys} {name : Name} (h : usable_as_archive fs name = true) :
    openable fs name = true := by
  unfold usable_as_archive at h
  unfold openable fopen_w
  cases hf : fs.files name with
  | none => simp [hf] at h; simp [h]
  | some f => simp [hf] at h; simp [h.2]

/-- After a create that could be read back, `fopen(archive, "r")` yields the bytes written. -/
theorem create_archive_readable {fs : FileSys} {archive_name : Name} {files : List Name}
    (huse : usable_as_archive fs archive_name = true) (hsep : archive_name ∉ files)
    (hfiles : ∀ n ∈ files, archivable fs n = true) :
    fopen_r (create_archive fs archive_name files).2 archive_name =
      some (archive_bytes (files.map (entry_of fs))) := by
  obtain ⟨_, ⟨f, hf, hc, _, hr1, hr0⟩, _⟩ :=
    create_archive_ok (openable_of_usable huse) hsep hfiles
  have hr : f.readable = true := by
    unfold usable_as_archive at huse
    cases hg : fs.files archive_name with
    | none => exact hr0 hg
    | some g =>
      rw [hr1 g hg]
      simp [hg] at huse
      exact huse.1
  unfold fopen_r
  simp only [hf, hr, if_true, hc]
  rfl

/-- C2 (archive layout): on files that exist and can be read, with an archive path that can be
opened for writing and is not one of the files, `create_archive` returns 0 and the archive then
holds exactly: for each file in list order its 512-byte header followed by its bytes padded with
zero bytes to the next multiple of 512, then 1024 zero bytes. Nothing of what the archive held
before remains, and no other file changes. -/
theorem create_archive_layout (fs : FileSys) (archive_name : Name) (files : List Name)
    (hopen : openable fs archive_name = true) (hsep : archive_name ∉ files)
    (hfiles : ∀ n ∈ files, archivable fs n = true) :
    (create_archive fs archive_name files).1 = 0 ∧
      (∃ f, (create_archive fs archive_name files).2.files archive_name = some f ∧
        f.content =
          entries_bytes (files.map (fun n =>
            { header := (fill_tar_header fs n).getD [],
              data := content_of fs n ++
                List.replicate ((512 - (content_of fs n).length % 512) % 512) 0 })) ++
          List.replicate 1024 0) ∧
      (∀ n ∈ files, ∃ header, fill_tar_header fs n = some header ∧ header.length = 512) ∧
      (∀ n, n ≠ archive_name → (create_archive fs archive_name files).2.files n = fs.files n) := by
  obtain ⟨h1, ⟨f, hf, hc, _⟩, hother, _⟩ := create_archive_ok hopen hsep hfiles
  refine ⟨h1, ⟨f, hf, hc⟩, ?_, hother⟩
  intro n hn
  obtain ⟨header, hh, hl, _⟩ := fill_tar_header_archivable (hfiles n hn)
  exact ⟨header, hh, hl⟩

theorem create_archive_layout_witness :
    openable sample_fs [120] = true ∧ [120] ∉ [[97], [98], [97]] ∧
      (∀ n ∈ [[97], [98], [97]], archivable sample_fs n = true) ∧
      (create_archive sample_fs [120] [[97], [98], [97]]).1 = 0 :=
  ⟨by decide, by decide, by decide,
    (create_archive_layout sample_fs [120] [[97], [98], [97]] (by decide) (by decide)
      (by decide)).1⟩


/-- C9 (empty archive): with an empty file list `create_archive` returns 0 and leaves an archive
of exactly 1024 bytes, all zero; `get_archive_file_list` on it returns 0 and adds no name to the
output list. -/
theorem create_empty_archive (fs : FileSys) (archive_name : Name) (files : List Name)
    (fuel : Nat) (huse : usable_as_archive fs archive_name = true) :
    (create_archive fs archive_name []).1 = 0 ∧
      (∃ f, (create_archive fs archive_name []).2.files archive_name = some f ∧
        f.content = List.replicate 1024 0 ∧ f.content.length = 1024) ∧
      get_archive_file_list (fuel + 1) (create_archive fs archive_name []).2 archive_name files =
        some (0, files) := by
  have hnil : ∀ n ∈ ([] : List Name), archivable fs n = true := fun n hn => by simp at hn
  obtain ⟨h1, ⟨f, hf, hc, _⟩, _⟩ :=
    @create_archive_ok fs archive_name [] (openable_of_usable huse) (by simp) hnil
  have hread := @create_archive_readable fs archive_name [] huse (by simp) hnil
  refine ⟨h1, ⟨f, hf, ?_, ?_⟩, ?_⟩
  · rw [hc]; rfl
  · rw [hc]; simp only [List.map_nil, entries_bytes, List.nil_append, List.length_replicate]
  · have := list_of_archive (fuel + 1) files hread (by simp) (by simp)
    simpa using this

theorem create_empty_archive_witness :
    usable_as_archive sample_fs [120] = true ∧
      get_archive_file_list 1 (create_archive sample_fs [120] []).2 [120] [] = some (0, []) :=
  ⟨by decide, (create_empty_archive sample_fs [120] [] 0 (by decide)).2.2⟩

/-- C10 (single small file): for a list holding one file of 10 bytes `create_archive` returns 0
and leaves an archive of exactly 2048 bytes in which bytes 512..521 are the bytes of the file,
bytes 522..1023 are 502 zero bytes and bytes 1024..2047 are zero. -/
theorem create_single_small_file (fs : FileSys) (archive_name name : Name)
    (hopen : openable fs archive_name = true) (hsep : archive_name ≠ name)
    (hfile : archivable fs name = true) (hsize : (content_of fs name).length = 10) :
    (create_archive fs archive_name [name]).1 = 0 ∧
      ∃ f, (create_archive fs archive_name [name]).2.files archive_name = some f ∧
        f.content.length = 2048 ∧
        (f.content.drop 512).take 10 = content_of fs name ∧
        (f.content.drop 522).take 502 = List.replicate 502 0 ∧
        f.content.drop 1024 = List.replicate 1024 0 := by
  obtain ⟨h1, ⟨f, hf, hc, _⟩, _⟩ :=
    @create_archive_ok fs archive_name [name] hopen (by simpa using hsep)
      (fun n hn => by simp at hn; rw [hn]; exact hfile)
  obtain ⟨_, hl⟩ := entry_of_archivable hfile
  have hdata : (entry_of fs name).data = content_of fs name ++ List.replicate 502 0 := by
    show zero_pad (content_of fs name) = _
    unfold zero_pad
    rw [hsize]
  have hc' : f.content = (entry_of fs name).header ++
      (content_of fs name ++ (List.replicate 502 0 ++ List.replicate 1024 0)) := by
    rw [hc]
    simp only [List.map_cons, List.map_nil, entries_bytes, hdata, List.append_nil,
      List.append_assoc]
  refine ⟨h1, f, hf, ?_, ?_, ?_, ?_⟩
  · rw [hc']
    simp only [List.length_append, List.length_replicate, hl, hsize]
  · rw [hc', List.drop_left' hl, List.take_left' hsize]
  · rw [hc', show 522 = 512 + 10 from rfl, ← List.drop_drop, List.drop_left' hl,
      List.drop_left' hsize]
    exact List.take_left' (List.length_replicate _ _)
  · rw [hc', show 1024 = 512 + (10 + 502) from rfl, ← List.drop_drop, List.drop_left' hl,
      ← List.drop_drop, List.drop_left' hsize]
    exact List.drop_left' (List.length_replicate _ _)

theorem create_single_small_file_witness :
    openable sample_fs [120] = true ∧ ([120] : Name) ≠ [97] ∧
      archivable sample_fs [97] = true ∧ (content_of sample_fs [97]).length = 10 ∧
      (create_archive sample_fs [120] [[97]]).1 = 0 :=
  ⟨by decide, by decide, by decide, by decide,
    (create_single_small_file sample_fs [120] [97] (by decide) (by decide) (by decide)
      (by decide)).1⟩


/-! ## The footer invariant -/

/-- Whatever the writer loop writes, success or not, is a whole number of blocks. -/
theorem write_entries_blocks (fs : FileSys) :
    ∀ files : List Name, (write_entries fs files).2.length % 512 = 0 := by
  intro files
  induction files with
  | nil => rfl
  | cons n rest ih =>
    unfold write_entries
    cases hh : fill_tar_header fs n with
    | none => rfl
    | some header =>
      obtain ⟨_, _, _, _, hl, _⟩ := fill_tar_header_some hh
      cases hr : fopen_r fs n with
      | none => simp only [hl]
      | some content =>
        simp only [List.length_append, hl, copy_blocks_eq _ _ (le_refl _), length_zero_pad]
        omega

theorem footer_invariant_append_footer (bytes : List Nat) (h : bytes.length % 512 = 0) :
    footer_invariant (bytes ++ List.replicate 1024 0) := by
  refine ⟨?_, ?_, ?_⟩
  · simp only [List.length_append, List.length_replicate]; omega
  · simp only [List.length_append, List.length_replicate]; omega
  · simp only [List.length_append, List.length_replicate, Nat.add_sub_cancel]
    exact List.drop_left' rfl

theorem content_of_set_content {fs : FileSys} {name : Name} {f : File} (bytes : List Nat)
    (h : fs.files name = some f) : content_of (fs.set_content name bytes) name = bytes := by
  rw [content_of_eq (set_content_files_same bytes h)]

/-- What a successful `create_archive` leaves in the archive. -/
theorem create_archive_success {fs : FileSys} {archive_name : Name} {files : List Name}
    (h : (create_archive fs archive_name files).1 = 0) :
    ∃ fs1, fopen_w fs archive_name = some fs1 ∧ (write_entries fs1 files).1 = true ∧
      content_of (create_archive fs archive_name files).2 archive_name =
        (write_entries fs1 files).2 ++ List.replicate 1024 0 := by
  unfold create_archive at h ⊢
  cases h1 : fopen_w fs archive_name with
  | none => simp [h1] at h
  | some fs1 =>
    obtain ⟨⟨f1, hf1, _⟩, _⟩ := fopen_w_some h1
    simp only [h1] at h ⊢
    by_cases hr : (write_entries fs1 files).1 = true
    · simp only [hr, if_true]
      exact ⟨fs1, rfl, hr, content_of_set_content _ hf1⟩
    · simp [hr] at h

/-- What a successful `append_files_to_archive` leaves in the archive. -/
theorem append_success {fs : FileSys} {archive_name : Name} {files : List Name}
    (h : (append_files_to_archive fs archive_name files).1 = 0) :
    ∃ f, fs.files archive_name = some f ∧ f.readable = true ∧ f.writable = true ∧
      1024 ≤ f.content.length ∧ (write_entries fs files).1 = true ∧
      (append_files_to_archive fs archive_name files).2 =
        fs.set_content archive_name
          (f.content.take (f.content.length - 1024) ++ (write_entries fs files).2 ++
            List.replicate 1024 0) := by
  unfold append_files_to_archive fopen_r fopen_rw at h ⊢
  cases hf : fs.files archive_name with
  | none => simp [hf] at h
  | some f =>
    simp only [hf] at h ⊢
    by_cases hr : f.readable = true
    · by_cases hw : f.writable = true
      · simp only [hr, hw, if_true, Bool.and_self] at h ⊢
        by_cases hl : f.content.length < 1024
        · simp [hl] at h
        · simp only [hl, if_false] at h ⊢
          by_cases hok : (write_entries fs files).1 = true
          · simp only [hok, if_true]
            have hpoke : poke f.content (f.content.length - 1024)
                ((write_entries fs files).2 ++ List.replicate 1024 0) =
                f.content.take (f.content.length - 1024) ++ (write_entries fs files).2 ++
                  List.replicate 1024 0 := by
              unfold poke
              rw [List.drop_of_length_le (by
                simp only [List.length_append, List.length_replicate]; omega)]
              simp only [List.append_nil, List.append_assoc]
            rw [hpoke]
            exact ⟨f, rfl, hr, hw, by omega, trivial, rfl⟩
          · simp [hok] at h
      · simp [hr, hw] at h
    · simp [hr] at h

/-- C4 (footer invariant): the archive left by a `create_archive` that returns 0 has a length
that is a multiple of 512 and ends with 1024 zero bytes; so has the archive left by an
`append_files_to_archive` that returns 0, and by an update (`-u`) that exits with 0, when the
archive had that property before. -/
theorem footer_invariant_kept (fs : FileSys) (archive_name : Name) (files : List Name) :
    ((create_archive fs archive_name files).1 = 0 →
      footer_invariant (content_of (create_archive fs archive_name files).2 archive_name)) ∧
    (footer_invariant (content_of fs archive_name) →
      (append_files_to_archive fs archive_name files).1 = 0 →
      footer_invariant
        (content_of (append_files_to_archive fs archive_name files).2 archive_name)) ∧
    (∀ (fuel : Nat) (prog flag : Name) (fs' : FileSys) (out : List Name),
      footer_invariant (content_of fs archive_name) →
      main fuel fs (prog :: OPT_U :: flag :: archive_name :: files) = some (0, fs', out) →
      footer_invariant (content_of fs' archive_name)) := by
  have happ : footer_invariant (content_of fs archive_name) →
      (append_files_to_archive fs archive_name files).1 = 0 →
      footer_invariant
        (content_of (append_files_to_archive fs archive_name files).2 archive_name) := by
    intro hinv h
    obtain ⟨f, hf, _, _, hl, _, hres⟩ := append_success h
    rw [hres, content_of_set_content _ hf, List.append_assoc]
    rw [content_of_eq hf] at hinv
    have hb := write_entries_blocks fs files
    have := footer_invariant_append_footer
      (f.content.take (f.content.length - 1024) ++ (write_entries fs files).2)
      (by rw [List.length_append, List.length_take]; have := hinv.1; omega)
    rw [List.append_assoc] at this
    exact this
  refine ⟨?_, happ, ?_⟩
  · intro h
    obtain ⟨fs1, _, _, hc⟩ := create_archive_success h
    rw [hc]
    exact footer_invariant_append_footer _ (write_entries_blocks fs1 files)
  · intro fuel prog flag fs' out hinv hmain
    have hfiles : List.foldl file_list_add [] files = files := by
      have : ∀ (l acc : List Name), List.foldl file_list_add acc l = acc ++ l := by
        intro l
        induction l with
        | nil => intro acc; simp
        | cons a t ih => intro acc; simp [List.foldl_cons, ih, file_list_add]
      simpa using this files []
    unfold main at hmain
    simp only [hfiles, show (OPT_U = OPT_C) = False from by decide,
      show (OPT_U = OPT_A) = False from by decide, show (OPT_U = OPT_T) = False from by decide,
      if_false, if_true] at hmain
    cases hl : get_archive_file_list fuel fs archive_name [] with
    | none => simp [hl] at hmain
    | some r =>
      simp only [hl] at hmain
      by_cases h1 : r.1 ≠ 0
      · simp [h1] at hmain
      · by_cases h2 : file_list_is_subset files r.2 ≠ true
        · simp [h1, h2] at hmain
        · by_cases h3 : (append_files_to_archive fs archive_name files).1 ≠ 0
          · simp [h1, h2, h3] at hmain
          · simp only [h1, h2, h3, if_false, Option.some.injEq, Prod.mk.injEq, true_and] at hmain
            rw [← hmain.1]
            exact happ hinv (not_not.mp h3)


theorem footer_invariant_kept_witness :
    (create_archive sample_fs [120] [[97]]).1 = 0 ∧
      (append_files_to_archive (create_archive sample_fs [120] [[97]]).2 [120] [[98]]).1 = 0 ∧
      footer_invariant (content_of
        (append_files_to_archive (create_archive sample_fs [120] [[97]]).2 [120] [[98]]).2
        [120]) :=
  ⟨by decide, by decide!,
    (footer_invariant_kept (create_archive sample_fs [120] [[97]]).2 [120] [[98]]).2.1
      ((footer_invariant_kept sample_fs [120] [[97]]).1 (by decide)) (by decide!)⟩


/-! ## Listing a created archive -/

theorem entries_of_files_listable {fs : FileSys} {files : List Name}
    (hfiles : ∀ n ∈ files, archivable fs n = true)
    (hsizes : ∀ n ∈ files, (content_of fs n).length + 511 < 2147483648) :
    ∀ e ∈ files.map (entry_of fs), e.wf ∧ e.skippable := by
  intro e he
  obtain ⟨n, hn, rfl⟩ := List.mem_map.mp he
  exact ⟨(entry_of_wf (hfiles n hn) (by have := hsizes n hn; omega)).1,
    entry_of_skippable (hsizes n hn)⟩

theorem names_of_files {fs : FileSys} {files : List Name}
    (hfiles : ∀ n ∈ files, archivable fs n = true)
    (hnames : ∀ n ∈ files, n.length < 100 ∧ 0 ∉ n) :
    (files.map (entry_of fs)).map Entry.name = files := by
  rw [List.map_map]
  conv_rhs => rw [← List.map_id files]
  apply List.map_congr_left
  intro n hn
  exact entry_of_name (hfiles n hn) (hnames n hn).1 (hnames n hn).2

/-- The list branch of `main` in terms of `get_archive_file_list`. -/
theorem main_list (fuel : Nat) (fs : FileSys) (prog flag archive_name : Name)
    (extra : List Name) :
    main fuel fs (prog :: OPT_T :: flag :: archive_name :: extra) =
      match get_archive_file_list fuel fs archive_name [] with
      | none => none
      | some r => if r.1 ≠ 0 then some (1, fs, []) else some (0, fs, r.2) := by
  unfold main
  simp only [show (OPT_T = OPT_C) = False from by decide,
    show (OPT_T = OPT_A) = False from by decide, if_false, if_true]

/-- The listing of a created archive below 2 GiB: for files that exist and can be read, whose
names are shorter than 100 bytes and whose sizes rounded up to whole blocks stay below 2^31
bytes (duplicates allowed), `get_archive_file_list` on the archive `create_archive` wrote for
the list returns 0 and adds to the output list exactly those names, in the same order and
multiplicity; `main` with `-t` then exits with 0 and prints them in that order. -/
theorem list_after_create (fs : FileSys) (archive_name : Name) (files out : List Name)
    (fuel : Nat) (huse : usable_as_archive fs archive_name = true)
    (hsep : archive_name ∉ files) (hfiles : ∀ n ∈ files, archivable fs n = true)
    (hnames : ∀ n ∈ files, n.length < 100 ∧ 0 ∉ n)
    (hsizes : ∀ n ∈ files, (content_of fs n).length + 511 < 2147483648)
    (hfuel : files.length < fuel) :
    get_archive_file_list fuel (create_archive fs archive_name files).2 archive_name out =
        some (0, out ++ files) ∧
      ∀ prog flag extra,
        main fuel (create_archive fs archive_name files).2
            (prog :: OPT_T :: flag :: archive_name :: extra) =
          some (0, (create_archive fs archive_name files).2, files) := by
  have hread := create_archive_readable huse hsep hfiles
  have hlist : ∀ out : List Name,
      get_archive_file_list fuel (create_archive fs archive_name files).2 archive_name out =
        some (0, out ++ files) := by
    intro out
    have := list_of_archive fuel out hread (entries_of_files_listable hfiles hsizes)
      (by rw [List.length_map]; exact hfuel)
    rw [names_of_files hfiles hnames] at this
    exact this
  refine ⟨hlist out, ?_⟩
  intro prog flag extra
  rw [main_list, hlist []]
  simp

theorem list_after_create_witness :
    usable_as_archive sample_fs [120] = true ∧ [120] ∉ [[97], [98], [97]] ∧
      (∀ n ∈ [[97], [98], [97]], archivable sample_fs n = true) ∧
      (∀ n ∈ [[97], [98], [97]], n.length < 100 ∧ 0 ∉ n) ∧
      (∀ n ∈ [[97], [98], [97]], (content_of sample_fs n).length + 511 < 2147483648) ∧
      get_archive_file_list 4 (create_archive sample_fs [120] [[97], [98], [97]]).2 [120] [] =
        some (0, [[97], [98], [97]]) :=
  ⟨by decide, by decide, by decide, by decide, by decide,
    (list_after_create sample_fs [120] [[97], [98], [97]] [] 4 (by decide) (by decide)
      (by decide) (by decide) (by decide) (by decide)).1⟩

/-- The list walk returns -1 after the first entry when the seek past its data would land before
the start of the archive. -/
theorem list_first_seek_fails {fs : FileSys} {archive_name : Name} {arc header : List Nat}
    (hread : fopen_r fs archive_name = some arc) (hlen : 1024 < arc.length)
    (hfirst : fread_block arc 0 = some header)
    (hneg : 512 + wrap32 (wrap64 (512 * Int.tdiv (wrap64 (header_size header + 511)) 512)) < 0)
    (k : Nat) (out : List Name) :
    get_archive_file_list (k + 1) fs archive_name out =
      some (-1, out ++ [header_name header]) := by
  unfold get_archive_file_list
  simp only [hread, hfirst]
  rw [if_neg (by omega)]
  unfold list_loop
  rw [if_neg (by omega)]
  simp only [file_list_add]
  rw [if_pos hneg]

theorem list_no_fuel {fs : FileSys} {archive_name : Name} {arc header : List Nat}
    (hread : fopen_r fs archive_name = some arc) (hlen : 1024 < arc.length)
    (hfirst : fread_block arc 0 = some header) (out : List Name) :
    get_archive_file_list 0 fs archive_name out = none := by
  unfold get_archive_file_list
  simp only [hread, hfirst]
  rw [if_neg (by omega)]
  rfl

/-- The archive `create_archive` writes for the 2 GiB file `b` of `large_fs`: the write succeeds,
the archive holds the one well-formed entry of `b`, and `get_archive_file_list` returns -1 on it
after the first name, because the distance it seeks past the data is computed in an `int`,
where 2^31 wraps to -2^31. -/
theorem large_archive_listing :
    (create_archive large_fs [120] [[98]]).1 = 0 ∧
      fopen_r (create_archive large_fs [120] [[98]]).2 [120] =
        some (archive_bytes [entry_of large_fs [98]]) ∧
      (entry_of large_fs [98]).name = [98] ∧
      (∀ (k : Nat) (out : List Name),
        get_archive_file_list (k + 1) (create_archive large_fs [120] [[98]]).2 [120] out =
          some (-1, out ++ [[98]])) ∧
      get_archive_file_list 0 (create_archive large_fs [120] [[98]]).2 [120] [] = none := by
  have huse : usable_as_archive large_fs [120] = true := by decide
  have harch : archivable large_fs [98] = true := by decide
  have hfiles : ∀ n ∈ [([98] : Name)], archivable large_fs n = true := by
    intro n hn
    rw [List.mem_singleton.mp hn]; exact harch
  have hsep : ([120] : Name) ∉ [([98] : Name)] := by decide
  obtain ⟨hst, _⟩ := create_archive_ok (openable_of_usable huse) hsep hfiles
  have hread : fopen_r (create_archive large_fs [120] [[98]]).2 [120] =
      some (archive_bytes [entry_of large_fs [98]]) := create_archive_readable huse hsep hfiles
  obtain ⟨hh, hl⟩ := entry_of_archivable harch
  obtain ⟨f, hf, hsz⟩ := header_size_fill hh
  have hfile : large_fs.files [98] = some (sample_file (List.replicate 2147483648 0)) := rfl
  have hc : content_of large_fs [98] = List.replicate 2147483648 0 := content_of_eq hfile
  have hflen : f.content.length = 2147483648 := by
    rw [← content_of_eq hf, hc]
    exact List.length_replicate _ _
  rw [hflen] at hsz
  have hname : header_name (entry_of large_fs [98]).header = [98] :=
    entry_of_name harch (by decide) (by decide)
  have hdata : (entry_of large_fs [98]).data.length = 2147483648 := by
    have h1 : (entry_of large_fs [98]).data.length =
        512 * (((content_of large_fs [98]).length + 511) / 512) := length_zero_pad _
    rw [h1, hc, List.length_replicate]
  have hlen : (archive_bytes [entry_of large_fs [98]]).length = 2147485184 := by
    have h2 : (archive_bytes [entry_of large_fs [98]]).length =
        (entry_of large_fs [98]).header.length +
          ((entry_of large_fs [98]).data.length + (archive_bytes []).length) := by
      rw [archive_bytes_cons, List.length_append, List.length_append]
    have h3 : (archive_bytes []).length = 1024 := by
      simp only [archive_bytes, entries_bytes, footer, List.nil_append, List.length_replicate]
    omega
  have hfirst : fread_block (archive_bytes [entry_of large_fs [98]]) 0 =
      some (entry_of large_fs [98]).header := by
    have := fread_block_of_drop (List.drop_zero (archive_bytes [entry_of large_fs [98]]))
      (by omega)
    rw [this, archive_bytes_cons, List.take_left' hl]
  have hneg : 512 + wrap32 (wrap64 (512 * Int.tdiv (wrap64
      (header_size (entry_of large_fs [98]).header + 511)) 512)) < 0 := by
    rw [hsz]
    decide
  have hwalk := fun k out => list_first_seek_fails hread (by omega) hfirst hneg k out
  rw [hname] at hwalk
  exact ⟨hst, hread, hname, hwalk, list_no_fuel hread (by omega) hfirst []⟩

/-- C5 (listing order) fails on the code for a large file: for the 2 GiB file `b`, whose name
is one byte long, `create_archive` returns 0, but the distance `get_archive_file_list` seeks
past the data is computed in an `int`, where 2^31 wraps to -2^31; the seek fails and the
listing returns -1, whatever the fuel. -/
theorem list_after_create_large_file :
    usable_as_archive large_fs [120] = true ∧ archivable large_fs [98] = true ∧
      (create_archive large_fs [120] [[98]]).1 = 0 ∧
      get_archive_file_list 2 (create_archive large_fs [120] [[98]]).2 [120] [] =
        some (-1, [[98]]) ∧
      ¬ ∃ fuel, get_archive_file_list fuel (create_archive large_fs [120] [[98]]).2 [120] [] =
        some (0, [[98]]) := by
  obtain ⟨hst, _, _, hwalk, hzero⟩ := large_archive_listing
  refine ⟨by decide, by decide, hst, hwalk 1 [], ?_⟩
  rintro ⟨fuel, hfuel⟩
  cases fuel with
  | zero =>
    rw [hzero] at hfuel
    exact Option.noConfusion hfuel
  | succ k =>
    rw [hwalk k []] at hfuel
    have := congrArg (fun r => r.map Prod.fst) hfuel
    simp at this


/-! ## Round trip -/

theorem fopen_r_congr {fs fs' : FileSys} {name : Name} (h : fs'.files name = fs.files name) :
    fopen_r fs' name = fopen_r fs name := by
  unfold fopen_r
  rw [h]

/-- C1 (round trip): for files that exist and can be read, with names shorter than 100 bytes
and sizes below 2^32, `create_archive` returns 0, and `extract_files_from_archive`, run on the
archive it wrote from any file system in which the listed paths can be opened for writing
(the files may have been deleted or altered), returns 0 and leaves at every listed name a file
whose bytes are the bytes the file had when the archive was created. -/
theorem roundtrip_create_extract (fs fs' : FileSys) (archive_name : Name) (files : List Name)
    (huse : usable_as_archive fs archive_name = true) (hsep : archive_name ∉ files)
    (hfiles : ∀ n ∈ files, archivable fs n = true)
    (hnames : ∀ n ∈ files, n.length < 100 ∧ 0 ∉ n)
    (hsizes : ∀ n ∈ files, (content_of fs n).length < 4294967296)
    (harch : fs'.files archive_name = (create_archive fs archive_name files).2.files archive_name)
    (hdest : ∀ n ∈ files, openable fs' n = true) :
    (create_archive fs archive_name files).1 = 0 ∧
      ∃ fs'', extract_files_from_archive fs' archive_name = some (0, fs'') ∧
        ∀ n ∈ files, ∃ f, fs''.files n = some f ∧ f.content = content_of fs n := by
  obtain ⟨hst, _⟩ := create_archive_ok (openable_of_usable huse) hsep hfiles
  have hread : fopen_r fs' archive_name = some (archive_bytes (files.map (entry_of fs))) := by
    rw [fopen_r_congr harch]
    exact create_archive_readable huse hsep hfiles
  have hname : ∀ n ∈ files, (entry_of fs n).name = n := fun n hn =>
    entry_of_name (hfiles n hn) (hnames n hn).1 (hnames n hn).2
  have hwf : ∀ e ∈ files.map (entry_of fs), e.wf := by
    intro e he
    obtain ⟨n, hn, rfl⟩ := List.mem_map.mp he
    exact (entry_of_wf (hfiles n hn) (hsizes n hn)).1
  have hopen : ∀ e ∈ files.map (entry_of fs), openable fs' e.name = true := by
    intro e he
    obtain ⟨n, hn, rfl⟩ := List.mem_map.mp he
    rw [hname n hn]
    exact hdest n hn
  refine ⟨hst, _, extract_of_archive hread hwf hopen, ?_⟩
  intro n hn
  obtain ⟨l1, l2, hsplit, hnot⟩ := last_occurrence files n hn
  have hmap : files.map (entry_of fs) =
      l1.map (entry_of fs) ++ entry_of fs n :: l2.map (entry_of fs) := by
    rw [hsplit, List.map_append, List.map_cons]
  have hl2 : ∀ m ∈ l2, m ∈ files := fun m hm => by rw [hsplit]; simp [hm]
  rw [hmap] at hwf hopen ⊢
  obtain ⟨f, hf, hc⟩ := foldl_extract_last _ _ (entry_of fs n) fs' hwf hopen (by
    intro e' he'
    obtain ⟨m, hm, rfl⟩ := List.mem_map.mp he'
    rw [hname m (hl2 m hm), hname n hn]
    exact fun h => hnot (h ▸ hm))
  rw [hname n hn] at hf
  exact ⟨f, hf, hc.trans (entry_of_wf (hfiles n hn) (hsizes n hn)).2.2⟩

theorem roundtrip_create_extract_witness :
    usable_as_archive sample_fs [120] = true ∧ [120] ∉ [[97], [98], [97]] ∧
      (∀ n ∈ [[97], [98], [97]], archivable sample_fs n = true) ∧
      (∀ n ∈ [[97], [98], [97]], n.length < 100 ∧ 0 ∉ n) ∧
      (∀ n ∈ [[97], [98], [97]], (content_of sample_fs n).length < 4294967296) ∧
      roundtrip_fs.files [120] =
        (create_archive sample_fs [120] [[97], [98], [97]]).2.files [120] ∧
      (∀ n ∈ [[97], [98], [97]], openable roundtrip_fs n = true) ∧
      ∃ fs'', extract_files_from_archive roundtrip_fs [120] = some (0, fs'') ∧
        ∀ n ∈ [[97], [98], [97]], ∃ f, fs''.files n = some f ∧
          f.content = content_of sample_fs n :=
  ⟨by decide, by decide, by decide, by decide, by decide, rfl, by decide,
    (roundtrip_create_extract sample_fs roundtrip_fs [120] [[97], [98], [97]] (by decide)
      (by decide) (by decide) (by decide) (by decide) rfl (by decide)).2⟩


/-! ## Appending -/

theorem entries_bytes_append (es1 es2 : List Entry) :
    entries_bytes (es1 ++ es2) = entries_bytes es1 ++ entries_bytes es2 := by
  induction es1 with
  | nil => rfl
  | cons e es ih =>
    show e.header ++ e.data ++ entries_bytes (es ++ es2) = _
    rw [ih]
    simp only [entries_bytes, List.append_assoc]

theorem take_archive_bytes (es : List Entry) :
    (archive_bytes es).take ((archive_bytes es).length - 1024) = entries_bytes es := by
  rw [length_archive_bytes, Nat.add_sub_cancel]
  exact List.take_left' rfl

/-- The outcome of `append_files_to_archive` on an archive of at least 1024 bytes and files that
can all be archived. -/
theorem append_ok {fs : FileSys} {archive_name : Name} {files : List Name} {f : File}
    (hf : fs.files archive_name = some f) (hr : f.readable = true) (hw : f.writable = true)
    (hlen : 1024 ≤ f.content.length) (hfiles : ∀ n ∈ files, archivable fs n = true) :
    append_files_to_archive fs archive_name files =
      (0, fs.set_content archive_name
        (f.content.take (f.content.length - 1024) ++ entries_bytes (files.map (entry_of fs)) ++
          List.replicate 1024 0)) := by
  have hpoke : poke f.content (f.content.length - 1024)
      (entries_bytes (files.map (entry_of fs)) ++ List.replicate 1024 0) =
      f.content.take (f.content.length - 1024) ++ entries_bytes (files.map (entry_of fs)) ++
        List.replicate 1024 0 := by
    unfold poke
    rw [List.drop_of_length_le (by
      simp only [List.length_append, List.length_replicate]; omega)]
    simp only [List.append_nil, List.append_assoc]
  unfold append_files_to_archive fopen_r fopen_rw
  simp only [hf, hr, hw, Bool.and_self, if_true, write_entries_ok fs files hfiles]
  rw [if_neg (by omega), hpoke]

/-- C3 (append overwrites the old footer), amended: for an archive of length L >= 1024 that can
be opened for reading and writing and files that exist and can be read,
`append_files_to_archive` returns 0, leaves the first L - 1024 bytes of the archive unchanged
and replaces the rest by the new entries (header and zero-padded data, in list order) followed
by 1024 zero bytes; no other file changes. When the archive was well formed, holding entries
below 2 GiB, and the appended files have names shorter than 100 bytes and sizes that rounded up
to whole blocks stay below 2^31, the archive after the append is the old entries followed
directly by the new ones and the footer, and its listing is the listing before the append
followed by the appended names. -/
theorem append_overwrites_footer (fs : FileSys) (archive_name : Name) (files : List Name)
    (f : File) (hf : fs.files archive_name = some f) (hr : f.readable = true)
    (hw : f.writable = true) (hlen : 1024 ≤ f.content.length) (hsep : archive_name ∉ files)
    (hfiles : ∀ n ∈ files, archivable fs n = true) :
    (append_files_to_archive fs archive_name files).1 = 0 ∧
      (∃ g, (append_files_to_archive fs archive_name files).2.files archive_name = some g ∧
        g.content = f.content.take (f.content.length - 1024) ++
          entries_bytes (files.map (entry_of fs)) ++ List.replicate 1024 0) ∧
      (∀ n, n ≠ archive_name →
        (append_files_to_archive fs archive_name files).2.files n = fs.files n) ∧
      (∀ (es : List Entry) (fuel : Nat), f.content = archive_bytes es →
        (∀ e ∈ es, e.wf ∧ e.skippable) →
        (∀ n ∈ files, n.length < 100 ∧ 0 ∉ n ∧
          (content_of fs n).length + 511 < 2147483648) →
        es.length + files.length < fuel →
        content_of (append_files_to_archive fs archive_name files).2 archive_name =
            archive_bytes (es ++ files.map (entry_of fs)) ∧
          get_archive_file_list fuel fs archive_name [] = some (0, es.map Entry.name) ∧
          get_archive_file_list fuel (append_files_to_archive fs archive_name files).2
            archive_name [] = some (0, es.map Entry.name ++ files)) := by
  have _hs := hsep
  have hres := append_ok hf hr hw hlen hfiles
  have hg := set_content_files_same (f.content.take (f.content.length - 1024) ++
    entries_bytes (files.map (entry_of fs)) ++ List.replicate 1024 0) hf
  rw [hres]
  refine ⟨rfl, ⟨_, hg, rfl⟩, fun n hn => set_content_files_other _ _ _ _ hn, ?_⟩
  intro es fuel hes hwf hnew hfuel
  have hcontent : f.content.take (f.content.length - 1024) ++
      entries_bytes (files.map (entry_of fs)) ++ List.replicate 1024 0 =
      archive_bytes (es ++ files.map (entry_of fs)) := by
    rw [hes, take_archive_bytes]
    simp only [archive_bytes, entries_bytes_append, footer]
  have hbefore : fopen_r fs archive_name = some (archive_bytes es) := by
    simp [fopen_r, hf, hr, hes]
  have hafter : fopen_r (fs.set_content archive_name
      (f.content.take (f.content.length - 1024) ++ entries_bytes (files.map (entry_of fs)) ++
        List.replicate 1024 0)) archive_name =
      some (archive_bytes (es ++ files.map (entry_of fs))) := by
    rw [hcontent]
    unfold fopen_r
    rw [set_content_files_same _ hf]
    simp only [hr, if_true]
  have hwf' : ∀ e ∈ es ++ files.map (entry_of fs), e.wf ∧ e.skippable := by
    intro e he
    rcases List.mem_append.mp he with h | h
    · exact hwf e h
    · exact entries_of_files_listable hfiles (fun n hn => (hnew n hn).2.2) e h
  refine ⟨?_, ?_, ?_⟩
  · show content_of (fs.set_content archive_name _) archive_name = _
    rw [content_of_set_content _ hf, hcontent]
  · have := list_of_archive fuel [] hbefore hwf (by omega)
    rw [List.nil_append] at this
    exact this
  · have := list_of_archive fuel [] hafter hwf'
      (by rw [List.length_append, List.length_map]; omega)
    rw [List.map_append, names_of_files hfiles (fun n hn => ⟨(hnew n hn).1, (hnew n hn).2.1⟩),
      List.nil_append] at this
    exact this

theorem append_overwrites_footer_witness :
    long_name_fs.files [120] = some (sample_file (List.replicate 1024 0)) ∧
      1024 ≤ (sample_file (List.replicate 1024 0)).content.length ∧
      [120] ∉ [long_name] ∧ (∀ n ∈ [long_name], archivable long_name_fs n = true) ∧
      (append_files_to_archive long_name_fs [120] [long_name]).1 = 0 :=
  ⟨rfl, by decide!, by decide, by decide,
    (append_overwrites_footer long_name_fs [120] [long_name]
      (sample_file (List.replicate 1024 0)) rfl rfl rfl (by decide!) (by decide)
      (by decide)).1⟩

/-- C3 as stated fails for a name longer than the name field: appending the file whose name
is 101 bytes long to the empty archive succeeds, but the header keeps only the first 100 bytes
of the name, without a NUL, and the listing after the append shows those 100 bytes run
together with the seven mode digits that follow them, not the appended name. -/
theorem append_listing_long_name :
    content_of long_name_fs [120] = archive_bytes [] ∧
      archivable long_name_fs long_name = true ∧
      get_archive_file_list 5 long_name_fs [120] [] = some (0, []) ∧
      (append_files_to_archive long_name_fs [120] [long_name]).1 = 0 ∧
      get_archive_file_list 5 (append_files_to_archive long_name_fs [120] [long_name]).2
        [120] [] = some (0, [List.replicate 100 97 ++ [48, 48, 48, 48, 54, 52, 52]]) ∧
      get_archive_file_list 5 (append_files_to_archive long_name_fs [120] [long_name]).2
        [120] [] ≠ some (0, [] ++ [long_name]) := by
  decide!


/-! ## Extraction -/

theorem payload_length {e : Entry} (h : e.wf) : (e.payload.length : Int) = e.size := by
  obtain ⟨_, h2, _⟩ := Entry.wf_data h
  obtain ⟨_, h0, _, _⟩ := h
  unfold Entry.payload
  rw [List.length_take]
  omega

/-- C6 (extraction trims by declared size only), amended: for a well-formed archive whose
destinations can be opened and are not the archive itself, and for every entry that no later
entry of the same name follows, `extract_files_from_archive` returns 0 and leaves at the
entry's name a file of exactly the declared size `s`, equal to the first `s` bytes of the
entry's data region, whatever bytes the rest of the region holds. -/
theorem extract_trims_by_size (fs : FileSys) (archive_name : Name) (es1 es2 : List Entry)
    (e : Entry)
    (hread : fopen_r fs archive_name = some (archive_bytes (es1 ++ e :: es2)))
    (hwf : ∀ e' ∈ es1 ++ e :: es2, e'.wf)
    (hopen : ∀ e' ∈ es1 ++ e :: es2, openable fs e'.name = true)
    (hsep : ∀ e' ∈ es1 ++ e :: es2, e'.name ≠ archive_name)
    (hlast : ∀ e' ∈ es2, e'.name ≠ e.name) :
    ∃ fs', extract_files_from_archive fs archive_name = some (0, fs') ∧
      ∃ f, fs'.files e.name = some f ∧ (f.content.length : Int) = e.size ∧
        f.content = e.data.take e.size.toNat := by
  have _hs := hsep
  obtain ⟨f, hf, hc⟩ := foldl_extract_last es1 es2 e fs hwf hopen hlast
  refine ⟨_, extract_of_archive hread hwf hopen, f, hf, ?_, hc⟩
  rw [hc]
  exact payload_length (hwf e (by simp))

theorem extract_trims_by_size_witness :
    fopen_r shadow_fs [120] = some (archive_bytes shadow_entries) ∧
      (∀ e' ∈ shadow_entries, e'.wf) ∧
      (∀ e' ∈ shadow_entries, openable shadow_fs e'.name = true) ∧
      (∀ e' ∈ shadow_entries, e'.name ≠ [120]) ∧
      ∃ fs', extract_files_from_archive shadow_fs [120] = some (0, fs') ∧
        ∃ f, fs'.files [97] = some f ∧ (f.content.length : Int) = 1 ∧ f.content = [9] :=
  ⟨rfl, by decide!, by decide!, by decide!,
    extract_trims_by_size shadow_fs [120]
      [{ header := sample_header [97] 3, data := [1, 2, 3] ++ List.replicate 509 0 }] []
      { header := sample_header [97] 1, data := [9] ++ List.replicate 511 7 }
      rfl (by decide!) (by decide!) (by decide!) (by decide)⟩

/-- C6 as stated fails for an entry that a later entry shadows: in the well-formed archive
`shadow_entries` the first entry declares name `a`, size 3 and data `1 2 3`, yet after
extraction the file `a` holds the single byte of the second entry. -/
theorem extract_shadowed_entry :
    (∀ e ∈ shadow_entries, e.wf) ∧
      (shadow_entries.map (fun e => (e.name, e.size, e.payload))) =
        [([97], 3, [1, 2, 3]), ([97], 1, [9])] ∧
      (extract_files_from_archive shadow_fs [120]).map
          (fun r => (r.1, (r.2.files [97]).map File.content)) = some (0, some [9]) ∧
      (extract_files_from_archive shadow_fs [120]).map
          (fun r => (r.2.files [97]).map File.content) ≠ some (some [1, 2, 3]) := by
  decide!

/-- C7 (shadowing): when a well-formed archive holds two (or more) entries with the same name,
`extract_files_from_archive` returns 0 and leaves at that name exactly the payload of the last
such entry: its length is the size that entry declares, and no byte of an earlier version
remains, however long that version was. -/
theorem extract_last_entry_wins (fs : FileSys) (archive_name : Name)
    (es1 es2 es3 : List Entry) (e1 e2 : Entry)
    (hread : fopen_r fs archive_name =
      some (archive_bytes (es1 ++ e1 :: (es2 ++ e2 :: es3))))
    (hwf : ∀ e' ∈ es1 ++ e1 :: (es2 ++ e2 :: es3), e'.wf)
    (hopen : ∀ e' ∈ es1 ++ e1 :: (es2 ++ e2 :: es3), openable fs e'.name = true)
    (hsep : ∀ e' ∈ es1 ++ e1 :: (es2 ++ e2 :: es3), e'.name ≠ archive_name)
    (hsame : e1.name = e2.name) (hlast : ∀ e' ∈ es3, e'.name ≠ e2.name) :
    ∃ fs', extract_files_from_archive fs archive_name = some (0, fs') ∧
      ∃ f, fs'.files e1.name = some f ∧ f.content = e2.payload ∧
        (f.content.length : Int) = e2.size := by
  have _hs := hsep
  have hsplit : es1 ++ e1 :: (es2 ++ e2 :: es3) = (es1 ++ e1 :: es2) ++ e2 :: es3 := by
    simp only [List.append_assoc, List.cons_append]
  rw [hsplit] at hread hwf hopen
  obtain ⟨f, hf, hc⟩ := foldl_extract_last (es1 ++ e1 :: es2) es3 e2 fs hwf hopen hlast
  refine ⟨_, extract_of_archive hread hwf hopen, f, ?_, hc, ?_⟩
  · rw [hsame]; exact hf
  · rw [hc]
    exact payload_length (hwf e2 (by simp))

theorem extract_last_entry_wins_witness :
    fopen_r shadow_fs [120] = some (archive_bytes shadow_entries) ∧
      (∀ e' ∈ shadow_entries, e'.wf) ∧
      (∀ e' ∈ shadow_entries, openable shadow_fs e'.name = true) ∧
      (∀ e' ∈ shadow_entries, e'.name ≠ [120]) ∧
      ∃ fs', extract_files_from_archive shadow_fs [120] = some (0, fs') ∧
        ∃ f, fs'.files [97] = some f ∧ f.content = [9] ∧ (f.content.length : Int) = 1 :=
  ⟨rfl, by decide!, by decide!, by decide!,
    extract_last_entry_wins shadow_fs [120] [] [] []
      { header := sample_header [97] 3, data := [1, 2, 3] ++ List.replicate 509 0 }
      { header := sample_header [97] 1, data := [9] ++ List.replicate 511 7 }
      rfl (by decide!) (by decide!) (by decide!) (by decide!) (by decide)⟩


/-! ## Update -/

theorem foldl_file_list_add (l acc : List Name) :
    List.foldl file_list_add acc l = acc ++ l := by
  induction l generalizing acc with
  | nil => simp
  | cons a t ih => simp [List.foldl_cons, ih, file_list_add]

theorem file_list_is_subset_iff (files all : List Name) :
    file_list_is_subset files all = true ↔ ∀ n ∈ files, n ∈ all := by
  simp [file_list_is_subset, List.all_eq_true]

/-- The update branch of `main` in terms of the listing and of the append. -/
theorem main_update (fuel : Nat) (fs : FileSys) (prog flag archive_name : Name)
    (files : List Name) :
    main fuel fs (prog :: OPT_U :: flag :: archive_name :: files) =
      match get_archive_file_list fuel fs archive_name [] with
      | none => none
      | some r =>
        if r.1 ≠ 0 then some (1, fs, [])
        else if file_list_is_subset files r.2 ≠ true then some (1, fs, [])
        else
          if (append_files_to_archive fs archive_name files).1 ≠ 0 then
            some (1, (append_files_to_archive fs archive_name files).2, [])
          else some (0, (append_files_to_archive fs archive_name files).2, []) := by
  have hfiles : List.foldl file_list_add [] files = files := by
    simpa using foldl_file_list_add files []
  unfold main
  simp only [hfiles, show (OPT_U = OPT_C) = False from by decide,
    show (OPT_U = OPT_A) = False from by decide, show (OPT_U = OPT_T) = False from by decide,
    if_false, if_true]

/-- The update branch of `main` relative to what `get_archive_file_list` returns for the
archive. When the listing fails, or some name given to `-u` is not in the listing, `main`
exits with status 1 and leaves the file system, the archive included, unchanged. When the
listing succeeds and every name is in it, `-u` leaves exactly the file system that
`append_files_to_archive` leaves for the same names, and exits with 0 exactly when the append
returns 0. -/
theorem update_precondition (fuel : Nat) (fs : FileSys) (prog flag archive_name : Name)
    (files : List Name) (r : Int × List Name)
    (hlist : get_archive_file_list fuel fs archive_name [] = some r) :
    ((r.1 ≠ 0 ∨ ∃ n ∈ files, n ∉ r.2) →
      main fuel fs (prog :: OPT_U :: flag :: archive_name :: files) = some (1, fs, [])) ∧
    (r.1 = 0 → (∀ n ∈ files, n ∈ r.2) →
      main fuel fs (prog :: OPT_U :: flag :: archive_name :: files) =
        some (if (append_files_to_archive fs archive_name files).1 = 0 then 0 else 1,
          (append_files_to_archive fs archive_name files).2, [])) := by
  rw [main_update, hlist]
  simp only
  constructor
  · intro h
    by_cases h1 : r.1 ≠ 0
    · rw [if_pos h1]
    · have h2 : ¬ file_list_is_subset files r.2 = true := by
        rw [file_list_is_subset_iff]
        rcases h with h | ⟨n, hn, hnot⟩
        · exact absurd h h1
        · exact fun hall => hnot (hall n hn)
      rw [if_neg h1, if_pos h2]
  · intro h1 hall
    have h2 : file_list_is_subset files r.2 = true := (file_list_is_subset_iff _ _).mpr hall
    by_cases h3 : (append_files_to_archive fs archive_name files).1 = 0
    · simp [h1, h2, h3]
    · simp [h1, h2, h3]

theorem update_precondition_witness :
    get_archive_file_list 5 shadow_fs [120] [] = some (0, [[97], [97]]) ∧
      main 5 shadow_fs [[109], OPT_U, [45, 102], [120], [98]] = some (1, shadow_fs, []) :=
  ⟨by decide!,
    (update_precondition 5 shadow_fs [109] [45, 102] [120] [[98]] (0, [[97], [97]])
      (by decide!)).1 (Or.inr ⟨[98], by decide, by decide⟩)⟩


/-! ## Update of an archive that holds a large entry -/

/-- The update branch of `main` on an archive made of well-formed entries whose data the list
walk can step over: it exits with 1 and changes nothing when some name is not the name of an
entry, and it does what `append_files_to_archive` does when every name is. -/
theorem update_on_listable_archive (fuel : Nat) (fs : FileSys) (prog flag archive_name : Name)
    (files : List Name) (es : List Entry)
    (hread : fopen_r fs archive_name = some (archive_bytes es))
    (hwf : ∀ e ∈ es, e.wf ∧ e.skippable) (hfuel : es.length < fuel) :
    ((∃ n ∈ files, n ∉ es.map Entry.name) →
      main fuel fs (prog :: OPT_U :: flag :: archive_name :: files) = some (1, fs, [])) ∧
    ((∀ n ∈ files, n ∈ es.map Entry.name) →
      main fuel fs (prog :: OPT_U :: flag :: archive_name :: files) =
        some (if (append_files_to_archive fs archive_name files).1 = 0 then 0 else 1,
          (append_files_to_archive fs archive_name files).2, [])) := by
  have hl := list_of_archive fuel [] hread hwf hfuel
  rw [List.nil_append] at hl
  have h := update_precondition fuel fs prog flag archive_name files _ hl
  exact ⟨fun hx => h.1 (Or.inr hx), fun hall => h.2 rfl hall⟩

/-- C8 (update precondition) fails on the code for an archive with a 2 GiB entry. The archive
`x` that `create_archive` wrote for the 2 GiB file `b` of `large_fs` is well formed and its one
entry is named `b`, so every name of the list `[b]` is in the archive's listing. `main` with
`-u` exits with 1 and leaves the file system as it was, whatever the fuel, whereas
`append_files_to_archive` with the same names returns 0 and makes the archive longer. -/
theorem update_rejects_large_entry :
    fopen_r (create_archive large_fs [120] [[98]]).2 [120] =
        some (archive_bytes [entry_of large_fs [98]]) ∧
      (entry_of large_fs [98]).wf ∧ (entry_of large_fs [98]).name = [98] ∧
      (∀ k : Nat,
        main (k + 1) (create_archive large_fs [120] [[98]]).2
            [[109], OPT_U, [45, 102], [120], [98]] =
          some (1, (create_archive large_fs [120] [[98]]).2, [])) ∧
      (append_files_to_archive (create_archive large_fs [120] [[98]]).2 [120] [[98]]).1 = 0 ∧
      (content_of (create_archive large_fs [120] [[98]]).2 [120]).length <
        (content_of (append_files_to_archive (create_archive large_fs [120] [[98]]).2 [120]
          [[98]]).2 [120]).length := by
  obtain ⟨_, hread, hname, hwalk, _⟩ := large_archive_listing
  have huse : usable_as_archive large_fs [120] = true := by decide
  have harch : archivable large_fs [98] = true := by decide
  have hfiles : ∀ n ∈ [([98] : Name)], archivable large_fs n = true := by
    intro n hn
    rw [List.mem_singleton.mp hn]; exact harch
  have hsep : ([120] : Name) ∉ [([98] : Name)] := by decide
  have hfile : large_fs.files [98] = some (sample_file (List.replicate 2147483648 0)) := rfl
  have hclen : (content_of large_fs [98]).length = 2147483648 := by
    rw [content_of_eq hfile]
    exact List.length_replicate _ _
  have hwf := (entry_of_wf harch (by rw [hclen]; omega)).1
  obtain ⟨_, ⟨f, hf, hcontent, hw, _, hrd⟩, hother, hpw, hgr, _, _⟩ :=
    create_archive_ok (openable_of_usable huse) hsep hfiles
  have hr : f.readable = true := hrd rfl
  have hlen : 1024 ≤ f.content.length := by
    rw [hcontent, List.length_append, List.length_replicate]
    omega
  have harch' : archivable (create_archive large_fs [120] [[98]]).2 [98] = true := by
    rw [archivable_congr (hother [98] (by decide)) hpw hgr]
    exact harch
  have hfiles' : ∀ n ∈ [([98] : Name)],
      archivable (create_archive large_fs [120] [[98]]).2 n = true := by
    intro n hn
    rw [List.mem_singleton.mp hn]; exact harch'
  have happ := append_ok hf hr hw hlen hfiles'
  have hhead := (entry_of_archivable harch').2
  refine ⟨hread, hwf, hname, ?_, by rw [happ], ?_⟩
  · intro k
    exact (update_precondition (k + 1) _ [109] [45, 102] [120] [[98]] _ (hwalk k [])).1
      (Or.inl (by decide))
  · rw [happ, content_of_set_content _ hf, content_of_eq hf]
    have hb := length_entries_bytes
      ([([98] : Name)].map (entry_of (create_archive large_fs [120] [[98]]).2))
      (by
        intro e he
        rw [List.map_singleton, List.mem_singleton] at he
        rw [he]
        exact hhead)
    rw [List.length_map] at hb
    rw [List.length_append, List.length_append, List.length_take, List.length_replicate]
    have h1 : [([98] : Name)].length = 1 := rfl
    omega


/-! ## Padding arithmetic of the two walks -/

/-- One iteration of the list walk, with the distance it seeks written as `list_skip`. -/
theorem list_loop_step (arc : List Nat) (sz : Int) (fuel : Nat) (current_header : List Nat)
    (currenttell : Int) (files : List Name) :
    list_loop arc sz (fuel + 1) current_header currenttell files =
      if currenttell = sz then some (0, files)
      else if currenttell + list_skip (header_size current_header) < 0 then
        some (-1, file_list_add files (header_name current_header))
      else
        match fread_block arc (currenttell + list_skip (header_size current_header)).toNat with
        | none => some (-1, file_list_add files (header_name current_header))
        | some next_header =>
          list_loop arc sz fuel next_header
            (currenttell + list_skip (header_size current_header) + 512)
            (file_list_add files (header_name current_header)) := rfl

/-- One iteration of the extract walk, with the number of blocks it copies written as
`extract_blocks` and the number of bytes it removes as `extract_trailing`. -/
theorem extract_loop_step (arc : List Nat) (sz : Int) (fuel : Nat) (fs : FileSys)
    (current_header : List Nat) (currenttell : Nat) :
    extract_loop arc sz (fuel + 1) fs current_header currenttell =
      if (currenttell : Int) < sz then
        match fopen_w fs (header_name current_header) with
        | none => some (-1, fs)
        | some fs1 =>
          if (arc.length - currenttell) / 512 < (extract_blocks (header_size current_header)).toNat
          then
            some (-1, fs1.set_content (header_name current_header)
              ((arc.drop currenttell).take (512 * ((arc.length - currenttell) / 512))))
          else
            match remove_trailing_bytes
                (fs1.set_content (header_name current_header)
                  ((arc.drop currenttell).take
                    (512 * (extract_blocks (header_size current_header)).toNat)))
                (header_name current_header)
                (extract_trailing (header_size current_header) % 18446744073709551616).toNat with
            | none =>
              some (-1, fs1.set_content (header_name current_header)
                ((arc.drop currenttell).take
                  (512 * (extract_blocks (header_size current_header)).toNat)))
            | some fs3 =>
              match fread_block arc
                  (currenttell + 512 * (extract_blocks (header_size current_header)).toNat) with
              | none => some (-1, fs3)
              | some next_header =>
                extract_loop arc sz fuel fs3 next_header
                  (currenttell + 512 * (extract_blocks (header_size current_header)).toNat + 512)
      else some (0, fs) := rfl

/-- For a declared size that, rounded up to whole blocks, stays below 2^31, the block count of
the extract walk is the size divided by 512 and rounded up, the trailing-byte count lies in
0..511 and completes the size to a multiple of 512, and the list walk skips exactly the bytes
the extract walk copies. -/
theorem padding_arithmetic (s : Int) (h0 : 0 ≤ s) (h1 : s + 511 < 2147483648) :
    extract_blocks s = (s + 511) / 512 ∧
      512 * (extract_blocks s - 1) < s ∧ s ≤ 512 * extract_blocks s ∧
      0 ≤ extract_trailing s ∧ extract_trailing s ≤ 511 ∧
      extract_trailing s = 512 * extract_blocks s - s ∧
      (s + extract_trailing s) % 512 = 0 ∧
      list_skip s = 512 * extract_blocks s := by
  have hb : extract_blocks s = (s + 511) / 512 := block_count h0 (by omega)
  have ht : extract_trailing s = 512 * ((s + 511) / 512) - s := by
    unfold extract_trailing
    rw [hb]
    exact trailing_count s
  have hl : list_skip s = 512 * ((s + 511) / 512) := skip_distance h0 (by omega) (by omega)
  rw [ht, hl, hb]
  omega

/-- C11 (padding arithmetic) fails on the code from a declared size of 2 GiB on: for the size
2^31 the extract walk computes 4194304 blocks and copies 2^31 bytes, whereas the list walk
stores the same product in an `int`, where it becomes -2^31, so the two walks do not move by
the same number of bytes. -/
theorem walks_disagree_at_two_gib :
    extract_blocks 2147483648 = 4194304 ∧ 512 * extract_blocks 2147483648 = 2147483648 ∧
      extract_trailing 2147483648 = 0 ∧ list_skip 2147483648 = -2147483648 ∧
      list_skip 2147483648 ≠ 512 * extract_blocks 2147483648 := by
  decide


/-! ## The checksum -/

/-- What `compute_checksum` stores: the checksum field receives the text `%07o` prints for the
sum of the bytes read as signed `char` values and reduced to an `unsigned`; no other byte of
the header changes. -/
theorem compute_checksum_field (header : List Nat) (hl : header.length = 512) :
    ((compute_checksum header).drop 148).take 8 =
        snprintf 8 (fmt_octal 7
          ((poke header OFF_CHKSUM (List.replicate 8 32)).foldl
            (fun s b => (s + char_val b) % 4294967296) 0).toNat) ∧
      (compute_checksum header).take 148 = header.take 148 ∧
      (compute_checksum header).drop 156 = header.drop 156 := by
  have h1 : (poke header OFF_CHKSUM (List.replicate 8 32)).length = 512 :=
    poke_keeps_length hl (by decide)
  refine ⟨?_, ?_, ?_⟩
  · have := slice_poke_self (poke header OFF_CHKSUM (List.replicate 8 32))
      (snprintf 8 (fmt_octal 7
        ((poke header OFF_CHKSUM (List.replicate 8 32)).foldl
          (fun s b => (s + char_val b) % 4294967296) 0).toNat)) OFF_CHKSUM
      (by rw [h1]; decide)
    rw [length_snprintf_fmt7] at this
    exact this
  · unfold compute_checksum
    rw [take_poke _ _ _ _ (by decide) (by rw [h1]; decide),
      take_poke _ _ _ _ (by decide) (by rw [hl]; decide)]
  · unfold compute_checksum
    rw [drop_poke _ _ _ _ (by rw [length_snprintf_fmt7]; decide)
        (by rw [length_snprintf_fmt7, h1]; decide),
      drop_poke _ _ _ _ (by decide) (by rw [hl]; decide)]

/-- C12 (checksum) fails on the code for a name with a byte of value 128 or more: for the file
named by the bytes 0xC3 0xA9 the sum of the header bytes counted as 0..255 is 4356, whose
seven-digit octal rendering is `0010404`, but `compute_checksum` adds the bytes through a
signed `char`, counts each of the two bytes 256 too low, and stores `0007404`. -/
theorem checksum_of_high_byte_name :
    fill_tar_header accent_fs [195, 169] = some (entry_of accent_fs [195, 169]).header ∧
      unsigned_checksum (entry_of accent_fs [195, 169]).header = 4356 ∧
      octal_fixed 7 4356 = [48, 48, 49, 48, 52, 48, 52] ∧
      ((entry_of accent_fs [195, 169]).header.drop 148).take 8 =
        [48, 48, 48, 55, 52, 48, 52, 0] ∧
      ((entry_of accent_fs [195, 169]).header.drop 148).take 7 ≠
        octal_fixed 7 (unsigned_checksum (entry_of accent_fs [195, 169]).header) := by
  decide!


/-! ## A missing archive -/

/-- C13 (missing archive): when `fopen(archive, "r")` fails, `append_files_to_archive`,
`get_archive_file_list` and `extract_files_from_archive` each return -1; the file system they
leave is the one they found, so no archive is created and no file written, and the output list
is returned as it was. -/
theorem missing_archive (fs : FileSys) (archive_name : Name) (files out : List Name)
    (fuel : Nat) (h : fopen_r fs archive_name = none) :
    append_files_to_archive fs archive_name files = (-1, fs) ∧
      get_archive_file_list fuel fs archive_name out = some (-1, out) ∧
      extract_files_from_archive fs archive_name = some (-1, fs) := by
  refine ⟨?_, ?_, ?_⟩
  · unfold append_files_to_archive
    rw [h]
  · unfold get_archive_file_list
    rw [h]
  · unfold extract_files_from_archive
    rw [h]

theorem missing_archive_witness :
    fopen_r sample_fs [120] = none ∧
      append_files_to_archive sample_fs [120] [[97]] = (-1, sample_fs) ∧
      get_archive_file_list 3 sample_fs [120] [] = some (-1, []) ∧
      extract_files_from_archive sample_fs [120] = some (-1, sample_fs) :=
  ⟨by decide, missing_archive sample_fs [120] [[97]] [] 3 (by decide)⟩

/-- An archive that exists but cannot be opened for update makes `append_files_to_archive`
return -1 and leave the file system as it found it. -/
theorem append_unwritable_archive (fs : FileSys) (archive_name : Name) (files : List Name)
    (h : fopen_rw fs archive_name = none) :
    append_files_to_archive fs archive_name files = (-1, fs) := by
  unfold append_files_to_archive
  rw [h]
  cases fopen_r fs archive_name <;> rfl


/-! ## Failure of a source file -/

theorem archivable_iff (fs : FileSys) (name : Name) :
    archivable fs name = true ↔
      (fill_tar_header fs name).isSome = true ∧ (fopen_r fs name).isSome = true := by
  constructor
  · intro h
    obtain ⟨header, hh, _, hr⟩ := fill_tar_header_archivable h
    rw [hh, hr]
    exact ⟨rfl, rfl⟩
  · intro ⟨h1, h2⟩
    obtain ⟨header, hh⟩ := Option.isSome_iff_exists.mp h1
    obtain ⟨f, hf, hp, hg, _⟩ := fill_tar_header_some hh
    unfold fopen_r at h2
    rw [hf] at h2
    unfold archivable
    rw [hf]
    by_cases hr : f.readable = true
    · simp [hr, hp, hg]
    · simp [hr] at h2

theorem write_entries_congr {fs fs' : FileSys} (hp : fs'.getpwuid = fs.getpwuid)
    (hg : fs'.getgrgid = fs.getgrgid) : ∀ files : List Name,
    (∀ n ∈ files, fs'.files n = fs.files n) → write_entries fs' files = write_entries fs files := by
  intro files
  induction files with
  | nil => intro _; rfl
  | cons n rest ih =>
    intro h
    have hn := h n (by simp)
    unfold write_entries
    rw [fill_tar_header_congr hn hp hg, fopen_r_congr hn, ih (fun m hm => h m (by simp [hm]))]

/-- The writer loop stops at the first file that cannot be archived: it has then written the
entries of the files before it, and the header of that file when the header could be built. -/
theorem write_entries_fail (fs : FileSys) (n : Name) (post : List Name)
    (hn : archivable fs n = false) : ∀ pre : List Name, (∀ m ∈ pre, archivable fs m = true) →
    write_entries fs (pre ++ n :: post) =
      (false, entries_bytes (pre.map (entry_of fs)) ++ (fill_tar_header fs n).getD []) := by
  intro pre
  induction pre with
  | nil =>
    intro _
    simp only [List.nil_append, List.map_nil, entries_bytes]
    unfold write_entries
    cases hh : fill_tar_header fs n with
    | none => rfl
    | some header =>
      cases hr : fopen_r fs n with
      | none => rfl
      | some content =>
        have : archivable fs n = true := (archivable_iff fs n).mpr ⟨by rw [hh]; rfl, by rw [hr]; rfl⟩
        rw [hn] at this
        exact absurd this (by decide)
  | cons m rest ih =>
    intro h
    obtain ⟨header, hh, _, hr⟩ := fill_tar_header_archivable (h m (by simp))
    have ih' := ih (fun k hk => h k (by simp [hk]))
    simp only [List.cons_append, List.map_cons, entries_bytes]
    unfold write_entries
    simp only [hh, hr, ih']
    rw [copy_blocks_eq _ _ (le_refl _)]
    simp only [entry_of, hh, Option.getD_some, List.append_assoc]

theorem first_not_archivable (fs : FileSys) : ∀ files : List Name,
    (∃ n ∈ files, archivable fs n = false) →
    ∃ pre n post, files = pre ++ n :: post ∧ (∀ m ∈ pre, archivable fs m = true) ∧
      archivable fs n = false := by
  intro files
  induction files with
  | nil => intro ⟨n, hn, _⟩; simp at hn
  | cons a t ih =>
    intro ⟨n, hn, hbad⟩
    by_cases ha : archivable fs a = true
    · have ht : ∃ n ∈ t, archivable fs n = false := by
        rcases List.mem_cons.mp hn with h | h
        · rw [h, ha] at hbad; exact absurd hbad (by decide)
        · exact ⟨n, h, hbad⟩
      obtain ⟨pre, k, post, h1, h2, h3⟩ := ih ht
      refine ⟨a :: pre, k, post, by rw [h1]; rfl, ?_, h3⟩
      intro m hm
      rcases List.mem_cons.mp hm with h | h
      · rw [h]; exact ha
      · exact h2 m h
    · exact ⟨[], a, t, rfl, by simp, by simpa using ha⟩

/-- The outcome of `create_archive` once the archive has been opened, in terms of what the
writer loop does on the files as they were before. -/
theorem create_archive_eq {fs : FileSys} {archive_name : Name} {files : List Name}
    (hopen : openable fs archive_name = true) (hsep : archive_name ∉ files) :
    (create_archive fs archive_name files).1 = (if (write_entries fs files).1 then 0 else -1) ∧
      content_of (create_archive fs archive_name files).2 archive_name =
        (if (write_entries fs files).1 then (write_entries fs files).2 ++ List.replicate 1024 0
          else (write_entries fs files).2) := by
  unfold openable at hopen
  obtain ⟨fs1, h1⟩ := Option.isSome_iff_exists.mp hopen
  obtain ⟨⟨f1, hf1, _⟩, hother, hp, hg, _⟩ := fopen_w_some h1
  have hw : write_entries fs1 files = write_entries fs files :=
    write_entries_congr hp hg files (fun n hn => hother n (fun h => hsep (h ▸ hn)))
  unfold create_archive
  simp only [h1, hw]
  by_cases hok : (write_entries fs files).1 = true
  · simp only [if_pos hok]
    exact ⟨by first | rfl | trivial, content_of_set_content _ hf1⟩
  · simp only [if_neg hok]
    exact ⟨by first | rfl | trivial, content_of_set_content _ hf1⟩

/-- C14 (source failure aborts the write), amended: with an archive that can be opened for
writing, `create_archive` returns -1 exactly when some file in the list cannot be archived,
that is cannot be inspected, has an owner or group id that does not resolve, or cannot be opened
for reading, and returns 0 otherwise. On failure it stops at the first such file: the archive
then holds the entries of the files before it, followed by the header of the failing file when
that header could be built (the file then failed to open), and no footer. -/
theorem create_archive_source_failure (fs : FileSys) (archive_name : Name) (files : List Name)
    (hopen : openable fs archive_name = true) (hsep : archive_name ∉ files) :
    ((create_archive fs archive_name files).1 = -1 ↔ ∃ n ∈ files, archivable fs n = false) ∧
      ((create_archive fs archive_name files).1 = 0 ↔ ∀ n ∈ files, archivable fs n = true) ∧
      (∀ pre n post, files = pre ++ n :: post → (∀ m ∈ pre, archivable fs m = true) →
        archivable fs n = false →
        content_of (create_archive fs archive_name files).2 archive_name =
            entries_bytes (pre.map (entry_of fs)) ++ (fill_tar_header fs n).getD [] ∧
          ((fill_tar_header fs n).isSome = true → fopen_r fs n = none)) := by
  obtain ⟨hst, hcontent⟩ := create_archive_eq hopen hsep
  have hall : (∀ n ∈ files, archivable fs n = true) → (write_entries fs files).1 = true :=
    fun h => by rw [write_entries_ok fs files h]
  have hsome : (∃ n ∈ files, archivable fs n = false) → (write_entries fs files).1 = false := by
    intro h
    obtain ⟨pre, n, post, h1, h2, h3⟩ := first_not_archivable fs files h
    rw [h1, write_entries_fail fs n post h3 pre h2]
  have hdich : (∀ n ∈ files, archivable fs n = true) ∨ ∃ n ∈ files, archivable fs n = false := by
    by_cases h : ∀ n ∈ files, archivable fs n = true
    · exact Or.inl h
    · right
      push_neg at h
      obtain ⟨n, hn, hb⟩ := h
      exact ⟨n, hn, by simpa using hb⟩
  refine ⟨?_, ?_, ?_⟩
  · constructor
    · intro h
      rcases hdich with hgood | hbad
      · rw [hst, hall hgood] at h
        exact absurd h (by decide)
      · exact hbad
    · intro h
      rw [hst, hsome h]
      rfl
  · constructor
    · intro h
      rcases hdich with hgood | hbad
      · exact hgood
      · rw [hst, hsome hbad] at h
        exact absurd h (by decide)
    · intro h
      rw [hst, hall h]
      rfl
  · intro pre n post hfiles hpre hn
    have hw := write_entries_fail fs n post hn pre hpre
    rw [← hfiles] at hw
    rw [hcontent, hw]
    refine ⟨rfl, ?_⟩
    intro hh
    cases hr : fopen_r fs n with
    | none => rfl
    | some c =>
      have : archivable fs n = true := (archivable_iff fs n).mpr ⟨hh, by rw [hr]; rfl⟩
      rw [hn] at this
      exact absurd this (by decide)

theorem create_archive_source_failure_witness :
    openable failing_fs [120] = true ∧ [120] ∉ [[97]] ∧
      (create_archive failing_fs [120] [[97]]).1 = -1 :=
  ⟨by decide, by decide,
    (create_archive_source_failure failing_fs [120] [[97]] (by decide) (by decide)).1.mpr
      ⟨[97], by decide, by decide⟩⟩

/-- C14 as stated fails in two ways. The file `a` can be inspected but not opened: the archive
is left holding the 512-byte header of `a`, not only the entries of the files before it. The
file `c` can be inspected and opened, yet `create_archive` returns -1 because its owner id does
not resolve to a name. -/
theorem create_archive_failure_leaves_header :
    (stat failing_fs [97]).isSome = true ∧ fopen_r failing_fs [97] = none ∧
      (create_archive failing_fs [120] [[97]]).1 = -1 ∧
      (content_of (create_archive failing_fs [120] [[97]]).2 [120]).length = 512 ∧
      content_of (create_archive failing_fs [120] [[97]]).2 [120] ≠ [] ∧
      (stat failing_fs [99]).isSome = true ∧ (fopen_r failing_fs [99]).isSome = true ∧
      (create_archive failing_fs [120] [[99]]).1 = -1 := by
  decide!


/-! ## Exit status -/

theorem main_too_few_arguments (fuel : Nat) (fs : FileSys) (argv : List Name)
    (h : argv.length < 4) : main fuel fs argv = some (1, fs, []) := by
  match argv, h with
  | [], _ => rfl
  | [_], _ => rfl
  | [_, _], _ => rfl
  | [_, _, _], _ => rfl

/-- The exit status of `main` for the flags `-c`, `-a` and `-x`: 0 when the operation returns
0, 1 otherwise. -/
theorem main_exit_status_known_flags (fuel : Nat) (fs : FileSys) (prog flag archive_name : Name)
    (files : List Name) :
    main fuel fs (prog :: OPT_C :: flag :: archive_name :: files) =
        some (if (create_archive fs archive_name files).1 = 0 then 0 else 1,
          (create_archive fs archive_name files).2, []) ∧
      main fuel fs (prog :: OPT_A :: flag :: archive_name :: files) =
        some (if (append_files_to_archive fs archive_name files).1 = 0 then 0 else 1,
          (append_files_to_archive fs archive_name files).2, []) ∧
      main fuel fs (prog :: OPT_X :: flag :: archive_name :: files) =
        (extract_files_from_archive fs archive_name).map
          (fun r => (if r.1 = 0 then 0 else 1, r.2, [])) := by
  have hfiles : List.foldl file_list_add [] files = files := by
    simpa using foldl_file_list_add files []
  refine ⟨?_, ?_, ?_⟩
  · unfold main
    simp only [hfiles, if_true]
    by_cases h : (create_archive fs archive_name files).1 = 0 <;> simp [h]
  · unfold main
    simp only [hfiles, show (OPT_A = OPT_C) = False from by decide, if_false, if_true]
    by_cases h : (append_files_to_archive fs archive_name files).1 = 0 <;> simp [h]
  · unfold main
    simp only [show (OPT_X = OPT_C) = False from by decide,
      show (OPT_X = OPT_A) = False from by decide, show (OPT_X = OPT_T) = False from by decide,
      show (OPT_X = OPT_U) = False from by decide, if_false, if_true]
    cases hx : extract_files_from_archive fs archive_name with
    | none => rfl
    | some r => by_cases h : r.1 = 0 <;> simp [h]

/-- With at least four arguments and an operation flag that is none of the five known ones,
`main` performs no operation and returns 0. -/
theorem main_unknown_flag (fuel : Nat) (fs : FileSys) (prog op flag archive_name : Name)
    (rest : List Name) (hc : op ≠ OPT_C) (ha : op ≠ OPT_A) (ht : op ≠ OPT_T) (hu : op ≠ OPT_U)
    (hx : op ≠ OPT_X) :
    main fuel fs (prog :: op :: flag :: archive_name :: rest) = some (0, fs, []) := by
  unfold main
  simp only [hc, ha, ht, hu, hx, if_false]

/-- C15 (exit status) fails on the code for an unknown operation flag: the command line
`m -z -f x` names no operation that `main` knows, none of its five tests matches, and it falls
through to `return 0` instead of returning 1. -/
theorem main_unknown_flag_exits_zero :
    main 1 sample_fs [[109], [45, 122], [45, 102], [120]] = some (0, sample_fs, []) :=
  main_unknown_flag 1 sample_fs [109] [45, 122] [45, 102] [120] [] (by decide) (by decide)
    (by decide) (by decide) (by decide)


/-! ## The size field -/

theorem length_octal_fixed : ∀ (w v : Nat), (octal_fixed w v).length = w := by
  intro w
  induction w with
  | zero => intro v; rfl
  | succ w ih => intro v; simp [octal_fixed, ih]

theorem octal_fixed_zero : ∀ j : Nat, octal_fixed j 0 = List.replicate j 48 := by
  intro j
  induction j with
  | zero => rfl
  | succ j ih =>
    show octal_fixed j (0 / 8) ++ [48 + 0 % 8] = _
    rw [Nat.zero_div, ih, List.replicate_succ']

/-- Rendering a value with more digits than it needs puts zeros in front. -/
theorem octal_fixed_pad (j : Nat) : ∀ (k v : Nat), v < 8 ^ k →
    octal_fixed (k + j) v = List.replicate j 48 ++ octal_fixed k v := by
  intro k
  induction k with
  | zero =>
    intro v hv
    have : v = 0 := by simpa using hv
    subst this
    rw [Nat.zero_add, octal_fixed_zero]
    simp [octal_fixed]
  | succ k ih =>
    intro v hv
    have hlt : v / 8 < 8 ^ k := by
      rw [Nat.div_lt_iff_lt_mul (by norm_num)]
      rw [pow_succ] at hv
      exact hv
    rw [show k + 1 + j = (k + j) + 1 by omega]
    show octal_fixed (k + j) (v / 8) ++ [48 + v % 8] =
      List.replicate j 48 ++ (octal_fixed k (v / 8) ++ [48 + v % 8])
    rw [ih _ hlt, List.append_assoc]

theorem octal_digits_fixed : ∀ (fuel v : Nat) (acc : List Nat), v < 8 ^ fuel →
    ∃ k, k ≤ fuel ∧ v < 8 ^ k ∧ octal_digits fuel v acc = octal_fixed k v ++ acc := by
  intro fuel
  induction fuel with
  | zero =>
    intro v acc hv
    exact ⟨0, le_refl _, hv, rfl⟩
  | succ n ih =>
    intro v acc hv
    unfold octal_digits
    by_cases h8 : v < 8
    · refine ⟨1, by omega, by simpa using h8, ?_⟩
      rw [if_pos h8]
      show (48 + v) :: acc = ([] ++ [48 + v % 8]) ++ acc
      rw [Nat.mod_eq_of_lt h8]
      rfl
    · have hlt : v / 8 < 8 ^ n := by
        rw [Nat.div_lt_iff_lt_mul (by norm_num)]
        rw [pow_succ] at hv
        exact hv
      obtain ⟨k, hk, hvk, hd⟩ := ih (v / 8) ((48 + v % 8) :: acc) hlt
      refine ⟨k + 1, by omega, ?_, ?_⟩
      · rw [pow_succ]
        have := (Nat.div_lt_iff_lt_mul (show 0 < 8 by norm_num)).mp hvk
        exact this
      · rw [if_neg h8, hd]
        show _ = (octal_fixed k (v / 8) ++ [48 + v % 8]) ++ acc
        simp only [List.append_assoc, List.singleton_append]

/-- The text `%011o` prints for an `unsigned` is the eleven-digit octal rendering of its
argument reduced to 32 bits. -/
theorem fmt_octal_eleven (v : Nat) :
    fmt_octal 11 v = octal_fixed 11 (v % 4294967296) := by
  obtain ⟨k, hk, hvk, hd⟩ := octal_digits_fixed 11 (v % 4294967296) []
    (by have := Nat.mod_lt v (show 0 < 4294967296 by norm_num); norm_num; omega)
  unfold fmt_octal
  simp only [hd, List.append_nil, length_octal_fixed]
  have := octal_fixed_pad (11 - k) k (v % 4294967296) hvk
  rw [show k + (11 - k) = 11 by omega] at this
  exact this.symm

theorem fill_tar_header_succeeds {fs : FileSys} {name : Name} {f : File}
    (hf : fs.files name = some f) (hp : (fs.getpwuid f.st_uid).isSome = true)
    (hg : (fs.getgrgid f.st_gid).isSome = true) :
    ∃ header, fill_tar_header fs name = some header := by
  obtain ⟨pw, hpw⟩ := Option.isSome_iff_exists.mp hp
  obtain ⟨gr, hgr⟩ := Option.isSome_iff_exists.mp hg
  unfold fill_tar_header stat
  simp only [hf, hpw, hgr]
  exact ⟨_, rfl⟩

/-- C16 (size field round trip), amended: for every file that can be inspected and whose size
`s` is below 2^32, `fill_tar_header` stores in the size field the eleven-digit zero-padded octal
rendering of `s` followed by a NUL, and the value the reader parses from the field with the
base-8 conversion is `s`. -/
theorem size_field_roundtrip (fs : FileSys) (name : Name) (f : File)
    (hf : fs.files name = some f) (hp : (fs.getpwuid f.st_uid).isSome = true)
    (hg : (fs.getgrgid f.st_gid).isSome = true) (hs : f.content.length < 4294967296) :
    ∃ header, fill_tar_header fs name = some header ∧
      (header.drop 124).take 12 = octal_fixed 11 f.content.length ++ [0] ∧
      header_size header = (f.content.length : Int) := by
  obtain ⟨header, hh⟩ := fill_tar_header_succeeds hf hp hg
  obtain ⟨f', hf', _, _, _, _, hsize⟩ := fill_tar_header_some hh
  obtain ⟨f'', hf'', hparse⟩ := header_size_fill hh
  rw [hf] at hf' hf''
  have e1 : f' = f := (Option.some.inj hf').symm
  have e2 : f'' = f := (Option.some.inj hf'').symm
  subst e1
  subst e2
  refine ⟨header, hh, ?_, ?_⟩
  · rw [hsize, snprintf_fmt11, fmt_octal_eleven, Nat.mod_eq_of_lt hs]
  · rw [hparse, Nat.mod_eq_of_lt hs]

theorem size_field_roundtrip_witness :
    sample_fs.files [97] = some (sample_file [104, 105, 10, 0, 1, 2, 3, 4, 0, 0]) ∧
      ∃ header, fill_tar_header sample_fs [97] = some header ∧
        (header.drop 124).take 12 = octal_fixed 11 10 ++ [0] ∧ header_size header = 10 :=
  ⟨rfl, size_field_roundtrip sample_fs [97] (sample_file [104, 105, 10, 0, 1, 2, 3, 4, 0, 0])
    rfl (by decide) (by decide) (by decide)⟩

/-- C16 as stated fails from a size of 2^32 on: the size 4294967296 of file `b` fits in eleven
octal digits, but `fill_tar_header` prints it through a cast to `unsigned`, so the size field
holds eleven zeros and the reader parses 0. -/
theorem size_field_of_four_gib :
    (content_of huge_fs [98]).length = 4294967296 ∧ 4294967296 < 8 ^ 11 ∧
      fill_tar_header huge_fs [98] = some (entry_of huge_fs [98]).header ∧
      ((entry_of huge_fs [98]).header.drop 124).take 12 = List.replicate 11 48 ++ [0] ∧
      octal_fixed 11 4294967296 ≠ List.replicate 11 48 ∧
      header_size (entry_of huge_fs [98]).header = 0 := by
  have hfile : huge_fs.files [98] = some (sample_file (List.replicate 4294967296 0)) := rfl
  have hc : content_of huge_fs [98] = List.replicate 4294967296 0 := content_of_eq hfile
  have hlen : (content_of huge_fs [98]).length = 4294967296 := by
    rw [hc]
    exact List.length_replicate _ _
  obtain ⟨header, hh⟩ := fill_tar_header_succeeds hfile (by decide) (by decide)
  have hhead : (entry_of huge_fs [98]).header = header := by
    show (fill_tar_header huge_fs [98]).getD [] = header
    rw [hh]
    rfl
  obtain ⟨f, hf, _, _, _, _, hsize⟩ := fill_tar_header_some hh
  obtain ⟨f', hf', hparse⟩ := header_size_fill hh
  have hfl : f.content.length = 4294967296 := by rw [← content_of_eq hf]; exact hlen
  have hfl' : f'.content.length = 4294967296 := by rw [← content_of_eq hf']; exact hlen
  rw [hfl] at hsize
  rw [hfl'] at hparse
  refine ⟨hlen, by decide, by rw [hhead]; exact hh, ?_, by decide, ?_⟩
  · rw [hhead, hsize]
    decide
  · rw [hhead, hparse]
    rfl


theorem octal_digits_minimal : ∀ (fuel v : Nat) (acc : List Nat), v < 8 ^ fuel →
    ∃ k, k ≤ fuel ∧ v < 8 ^ k ∧ (k ≤ 1 ∨ 8 ^ (k - 1) ≤ v) ∧
      octal_digits fuel v acc = octal_fixed k v ++ acc := by
  intro fuel
  induction fuel with
  | zero =>
    intro v acc hv
    exact ⟨0, le_refl _, hv, Or.inl (by omega), rfl⟩
  | succ n ih =>
    intro v acc hv
    unfold octal_digits
    by_cases h8 : v < 8
    · refine ⟨1, by omega, by simpa using h8, Or.inl (le_refl _), ?_⟩
      rw [if_pos h8]
      show (48 + v) :: acc = ([] ++ [48 + v % 8]) ++ acc
      rw [Nat.mod_eq_of_lt h8]
      rfl
    · have hlt : v / 8 < 8 ^ n := by
        rw [Nat.div_lt_iff_lt_mul (by norm_num)]
        rw [pow_succ] at hv
        exact hv
      obtain ⟨k, hk, hvk, hmin, hd⟩ := ih (v / 8) ((48 + v % 8) :: acc) hlt
      have hk0 : 0 < k := by
        rcases Nat.eq_zero_or_pos k with h | h
        · subst h
          simp at hvk
          omega
        · exact h
      refine ⟨k + 1, by omega, ?_, Or.inr ?_, ?_⟩
      · rw [pow_succ]
        exact (Nat.div_lt_iff_lt_mul (show 0 < 8 by norm_num)).mp hvk
      · rw [Nat.add_sub_cancel]
        rcases hmin with h1 | h1
        · have : k = 1 := by omega
          subst this
          simp
          omega
        · obtain ⟨j, rfl⟩ : ∃ j, k = j + 1 := ⟨k - 1, by omega⟩
          rw [Nat.add_sub_cancel] at h1
          rw [pow_succ]
          omega
      · rw [if_neg h8, hd]
        show _ = (octal_fixed k (v / 8) ++ [48 + v % 8]) ++ acc
        simp only [List.append_assoc, List.singleton_append]

/-- The text `%07o` prints for a value below 8^7 is its seven-digit octal rendering. -/
theorem fmt_octal_seven (v : Nat) (hv : v < 2097152) : fmt_octal 7 v = octal_fixed 7 v := by
  have hmod : v % 4294967296 = v := Nat.mod_eq_of_lt (by omega)
  obtain ⟨k, hk, hvk, hmin, hd⟩ := octal_digits_minimal 11 (v % 4294967296) []
    (by rw [hmod]; norm_num; omega)
  rw [hmod] at hvk hmin hd
  have hk7 : k ≤ 7 := by
    by_contra hgt
    rcases hmin with h | h
    · omega
    · have : 8 ^ 7 ≤ 8 ^ (k - 1) := Nat.pow_le_pow_right (by norm_num) (by omega)
      norm_num at this
      omega
  unfold fmt_octal
  rw [hmod]
  simp only [hd, List.append_nil, length_octal_fixed]
  have := octal_fixed_pad (7 - k) k v hvk
  rw [show k + (7 - k) = 7 by omega] at this
  exact this.symm

theorem signed_sum_of_small_bytes : ∀ (l : List Nat) (acc : Nat), (∀ b ∈ l, b < 128) →
    acc + 127 * l.length < 4294967296 →
    l.foldl (fun s b => (s + char_val b) % 4294967296) (acc : Int) =
        ((l.foldl (fun s b => s + b % 256) acc : Nat) : Int) ∧
      l.foldl (fun s b => s + b % 256) acc ≤ acc + 127 * l.length := by
  intro l
  induction l with
  | nil => intro acc _ _; exact ⟨rfl, by simp⟩
  | cons b t ih =>
    intro acc hb hacc
    have hb0 : b < 128 := hb b (by simp)
    have hcv : char_val b = (b : Int) := by
      unfold char_val
      rw [Nat.mod_eq_of_lt (by omega : b < 256), if_pos hb0]
    have hm : b % 256 = b := Nat.mod_eq_of_lt (by omega)
    simp only [List.length_cons] at hacc
    have hstep : ((acc : Int) + char_val b) % 4294967296 = ((acc + b : Nat) : Int) := by
      rw [hcv]
      omega
    obtain ⟨h1, h2⟩ := ih (acc + b) (fun x hx => hb x (by simp [hx])) (by omega)
    simp only [List.foldl_cons, hstep, hm, List.length_cons]
    exact ⟨h1, by omega⟩

/-- On a header all of whose bytes are below 128 the checksum field receives the seven-digit
octal rendering of the unsigned sum of the bytes, followed by a NUL: the signed reading of the
bytes makes no difference there. -/
theorem compute_checksum_of_small_bytes (header : List Nat) (hl : header.length = 512)
    (hb : ∀ b ∈ header, b < 128) :
    ((compute_checksum header).drop 148).take 8 =
      octal_fixed 7 (unsigned_checksum header) ++ [0] := by
  have h1 : (poke header OFF_CHKSUM (List.replicate 8 32)).length = 512 :=
    poke_keeps_length hl (by decide)
  have hb' : ∀ b ∈ poke header OFF_CHKSUM (List.replicate 8 32), b < 128 := by
    intro b hmem
    unfold poke at hmem
    rcases List.mem_append.mp hmem with h | h
    · rcases List.mem_append.mp h with h | h
      · exact hb b (List.mem_of_mem_take h)
      · rw [List.eq_of_mem_replicate h]
        decide
    · exact hb b (List.mem_of_mem_drop h)
  obtain ⟨hs, hle⟩ := signed_sum_of_small_bytes _ 0 hb' (by rw [h1]; decide)
  rw [h1] at hle
  rw [(compute_checksum_field header hl).1]
  have hs' : (poke header OFF_CHKSUM (List.replicate 8 32)).foldl
      (fun s b => (s + char_val b) % 4294967296) 0 = ((unsigned_checksum header : Nat) : Int) :=
    hs
  rw [hs', Int.toNat_ofNat, fmt_octal_seven _ (by unfold unsigned_checksum; omega)]
  unfold snprintf
  rw [List.take_of_length_le (by rw [length_octal_fixed])]


/-! ## The name field -/

/-- C17 (name truncation): for a path of any length that can be inspected and whose owner and
group resolve, `fill_tar_header` succeeds, and the first 100 bytes of the header, the name
field, hold the first min(len, 100) bytes of the path followed by NUL bytes up to the width of
the field. -/
theorem name_field_truncates (fs : FileSys) (name : Name) (f : File)
    (hf : fs.files name = some f) (hp : (fs.getpwuid f.st_uid).isSome = true)
    (hg : (fs.getgrgid f.st_gid).isSome = true) :
    ∃ header, fill_tar_header fs name = some header ∧ header.length = 512 ∧
      header.take 100 = name.take (min name.length 100) ++
        List.replicate (100 - min name.length 100) 0 := by
  obtain ⟨header, hh⟩ := fill_tar_header_succeeds hf hp hg
  obtain ⟨_, _, _, _, hl, hname, _⟩ := fill_tar_header_some hh
  refine ⟨header, hh, hl, ?_⟩
  rw [hname]
  unfold strncpy
  by_cases hle : name.length ≤ 100
  · rw [Nat.min_eq_left hle, List.take_of_length_le hle, List.take_of_length_le (le_refl _)]
  · rw [Nat.min_eq_right (by omega), show 100 - name.length = 100 - 100 by omega]

theorem name_field_truncates_witness :
    long_name_fs.files long_name = some (sample_file [1, 2, 3]) ∧ long_name.length = 101 ∧
      ∃ header, fill_tar_header long_name_fs long_name = some header ∧ header.length = 512 ∧
        header.take 100 = long_name.take (min long_name.length 100) ++
          List.replicate (100 - min long_name.length 100) 0 :=
  ⟨by decide, by decide,
    name_field_truncates long_name_fs long_name (sample_file [1, 2, 3]) (by decide)
      (by decide) (by decide)⟩


/-! ## A name that fills the name field -/

/-- C19 (name that fills the field) fails on the code: for the file whose name is exactly 100
bytes long `create_archive` returns 0 and the name field holds the name without a NUL; both
readers then read the field as a C string, which runs on into the mode field, so the listing
returns the name followed by the seven mode digits `0000644`, and extraction creates the file
under that 107-byte name and nothing under the 100-byte name. -/
theorem full_name_is_read_with_mode_digits :
    archivable full_name_fs full_name = true ∧ full_name.length = 100 ∧
      (create_archive full_name_fs [120] [full_name]).1 = 0 ∧
      (entry_of full_name_fs full_name).header.take 100 = full_name ∧
      get_archive_file_list 5 (create_archive full_name_fs [120] [full_name]).2 [120] [] =
        some (0, [full_name ++ [48, 48, 48, 48, 54, 52, 52]]) ∧
      (extract_files_from_archive full_name_extract_fs [120]).map
          (fun r => (r.1, (r.2.files full_name).map File.content,
            (r.2.files (full_name ++ [48, 48, 48, 48, 54, 52, 52])).map File.content)) =
        some (0, none, some [1, 2, 3]) := by
  decide!


/-! ## Termination of the walks -/

theorem fread_block_bound {arc h : List Nat} {p : Nat} (hr : fread_block arc p = some h) :
    p + 512 ≤ arc.length := by
  unfold fread_block at hr
  simp only at hr
  split at hr
  · rename_i hl
    rw [List.length_take, List.length_drop] at hl
    omega
  · exact absurd hr (by simp)

/-- The extract walk returns whenever the fuel exceeds the number of blocks left: every
iteration moves the position forward by at least one block. -/
theorem extract_loop_total (arc : List Nat) :
    ∀ (fuel : Nat) (fs : FileSys) (h : List Nat) (c : Nat), c ≤ arc.length →
      (arc.length : Int) - c < 512 * fuel →
      ∃ r, extract_loop arc ((arc.length : Int) - 512) fuel fs h c = some r := by
  intro fuel
  induction fuel with
  | zero => intro fs h c hc hf; omega
  | succ k ih =>
    intro fs h c hc hf
    rw [extract_loop_step]
    by_cases hlt : (c : Int) < (arc.length : Int) - 512
    · rw [if_pos hlt]
      cases fopen_w fs (header_name h) with
      | none => exact ⟨_, rfl⟩
      | some fs1 =>
        simp only
        split
        · exact ⟨_, rfl⟩
        · split
          · exact ⟨_, rfl⟩
          · split
            · exact ⟨_, rfl⟩
            · rename_i next_header hnext
              have hb := fread_block_bound hnext
              exact ih _ _ _ (by omega) (by push_cast; omega)
    · rw [if_neg hlt]
      exact ⟨_, rfl⟩

/-- The function `extract_files_from_archive` returns on every file system and archive: the
fuel it gives its loop never runs out. -/
theorem extract_terminates (fs : FileSys) (archive_name : Name) :
    ∃ r, extract_files_from_archive fs archive_name = some r := by
  unfold extract_files_from_archive
  cases fopen_r fs archive_name with
  | none => exact ⟨_, rfl⟩
  | some arc =>
    simp only
    split
    · exact ⟨_, rfl⟩
    · rename_i hlen
      split
      · exact ⟨_, rfl⟩
      · exact extract_loop_total arc arc.length fs _ 512 (by omega) (by push_cast; omega)

/-- A header whose declared size makes the list walk seek back onto the header itself keeps the
walk at the same position for ever. -/
theorem list_loop_stuck (arc h : List Nat) (sz : Int) (hsz : (512 : Int) ≠ sz)
    (hskip : (512 : Int) + list_skip (header_size h) = 0)
    (hread : fread_block arc 0 = some h) :
    ∀ (fuel : Nat) (files : List Name), list_loop arc sz fuel h 512 files = none := by
  intro fuel
  induction fuel with
  | zero => intro files; rfl
  | succ k ih =>
    intro files
    rw [list_loop_step, if_neg hsz, hskip, if_neg (by decide)]
    simp only [Int.toNat_zero, hread, Int.zero_add]
    exact ih _

theorem list_stuck (fs : FileSys) (archive_name : Name) (arc h : List Nat)
    (hopen : fopen_r fs archive_name = some arc) (hlen : ¬ arc.length < 512)
    (hsz : (512 : Int) ≠ (arc.length : Int) - 512)
    (hskip : (512 : Int) + list_skip (header_size h) = 0)
    (hread : fread_block arc 0 = some h) (fuel : Nat) (out : List Name) :
    get_archive_file_list fuel fs archive_name out = none := by
  unfold get_archive_file_list
  simp only [hopen, hread]
  rw [if_neg hlen]
  exact list_loop_stuck arc h _ hsz hskip hread fuel out

/-- C20 (the walk terminates) fails on the code for the list walk: in the 2048-byte archive `x`
of `backward_fs` the size field of the first header holds `-1777`, which `strtol` parses as
-1023; the distance to seek comes out as -512, the walk seeks back onto the header it has just
read, the position after the next read is 512 again and never equals the end position 1536, so
`get_archive_file_list` does not return, whatever the number of iterations allowed. -/
theorem list_walk_loops_forever :
    header_size backward_header = -1023 ∧ list_skip (-1023) = -512 ∧
      (content_of backward_fs [120]).length = 2048 ∧
      ∀ fuel, get_archive_file_list fuel backward_fs [120] [] = none := by
  refine ⟨by decide!, by decide, by decide!, ?_⟩
  intro fuel
  exact list_stuck backward_fs [120] (backward_header ++ List.replicate 1536 0) backward_header
    rfl (by decide!) (by decide!) (by decide!) (by decide!) fuel []


/-! ## What the readers leave unchanged -/

theorem remove_trailing_bytes_frame {fs fs3 : FileSys} {name : Name} {nbytes : Nat}
    (h : remove_trailing_bytes fs name nbytes = some fs3) :
    ∀ n, n ≠ name → fs3.files n = fs.files n := by
  intro n hn
  unfold remove_trailing_bytes at h
  cases hf : fs.files name with
  | none => simp [hf] at h
  | some f =>
    simp only [hf] at h
    by_cases hw : f.writable = true
    · simp only [hw, if_true] at h
      split at h
      · exact absurd h (by simp)
      · rw [← Option.some.inj h]
        exact put_files_other _ _ _ _ hn
    · simp [hw] at h

/-- The extract walk changes no file whose name is not the name carried by some block of the
archive. -/
theorem extract_loop_frame (arc : List Nat) (sz : Int) (n : Name)
    (hb : ∀ p h, fread_block arc p = some h → header_name h ≠ n) :
    ∀ (fuel : Nat) (fs : FileSys) (h : List Nat) (c : Nat) (r : Int × FileSys),
      (∃ p, fread_block arc p = some h) → extract_loop arc sz fuel fs h c = some r →
      r.2.files n = fs.files n := by
  intro fuel
  induction fuel with
  | zero => intro fs h c r _ hr; exact absurd hr (by simp [extract_loop])
  | succ k ih =>
    intro fs h c r hblock hr
    obtain ⟨p, hp⟩ := hblock
    have hne : n ≠ header_name h := fun e => hb p h hp e.symm
    rw [extract_loop_step] at hr
    by_cases hc : (c : Int) < sz
    · rw [if_pos hc] at hr
      cases hw : fopen_w fs (header_name h) with
      | none =>
        rw [hw] at hr
        rw [← Option.some.inj hr]
      | some fs1 =>
        rw [hw] at hr
        have h1 : fs1.files n = fs.files n := (fopen_w_some hw).2.1 n hne
        simp only at hr
        split at hr
        · rw [← Option.some.inj hr]
          show (fs1.set_content _ _).files n = _
          rw [set_content_files_other _ _ _ _ hne, h1]
        · split at hr
          · rw [← Option.some.inj hr]
            show (fs1.set_content _ _).files n = _
            rw [set_content_files_other _ _ _ _ hne, h1]
          · rename_i fs3 h3
            have h2 := remove_trailing_bytes_frame h3 n hne
            rw [set_content_files_other _ _ _ _ hne, h1] at h2
            split at hr
            · rw [← Option.some.inj hr]
              exact h2
            · rename_i next_header hnext
              rw [ih fs3 next_header _ r ⟨_, hnext⟩ hr, h2]
    · rw [if_neg hc] at hr
      rw [← Option.some.inj hr]

/-- Extraction changes no file whose name is not the name carried by some block of the
archive. -/
theorem extract_frame (fs : FileSys) (archive_name n : Name) (arc : List Nat)
    (r : Int × FileSys) (harc : fopen_r fs archive_name = some arc)
    (hb : ∀ p h, fread_block arc p = some h → header_name h ≠ n)
    (hr : extract_files_from_archive fs archive_name = some r) :
    r.2.files n = fs.files n := by
  unfold extract_files_from_archive at hr
  simp only [harc] at hr
  split at hr
  · rw [← Option.some.inj hr]
  · split at hr
    · rw [← Option.some.inj hr]
    · rename_i current_header hfirst
      exact extract_loop_frame arc _ n hb _ fs current_header 512 r ⟨0, hfirst⟩ hr

/-- For a well-formed archive whose destinations can all be opened, the names extraction opens
for writing are the names of the entries, so the archive is left unchanged when no entry is
named like it. -/
theorem extract_wellformed_leaves_archive (fs : FileSys) (archive_name : Name)
    (es : List Entry) (hread : fopen_r fs archive_name = some (archive_bytes es))
    (hwf : ∀ e ∈ es, e.wf) (hopen : ∀ e ∈ es, openable fs e.name = true)
    (hsep : ∀ e ∈ es, e.name ≠ archive_name) :
    ∃ fs', extract_files_from_archive fs archive_name = some (0, fs') ∧
      fs'.files archive_name = fs.files archive_name :=
  ⟨_, extract_of_archive hread hwf hopen, foldl_extract_other es fs hwf hopen archive_name hsep⟩

theorem handles_after_none (events : List Event) : handles_after none events = none := by
  induction events with
  | nil => rfl
  | cons e es ih => exact ih

theorem handles_after_append (live : Option (List Nat)) (a b : List Event) :
    handles_after live (a ++ b) = handles_after (handles_after live a) b := by
  unfold handles_after
  exact List.foldl_append _ _ _ _

theorem handles_after_cons (live : Option (List Nat)) (e : Event) (es : List Event) :
    handles_after live (e :: es) = handles_after (handle_step live e) es := rfl

theorem handles_after_nil (live : Option (List Nat)) : handles_after live [] = live := rfl

theorem handle_step_used {l : List Nat} {h : Nat} (hm : h ∈ l) :
    handle_step (some l) (Event.used h) = some l := by
  simp [handle_step, hm]

theorem handle_step_opened {l : List Nat} {h : Nat} (hm : h ∉ l) :
    handle_step (some l) (Event.opened h) = some (h :: l) := by
  simp [handle_step, hm]

theorem handle_step_closed {l : List Nat} {h : Nat} (hm : h ∈ l) :
    handle_step (some l) (Event.closed h) = some (l.erase h) := by
  simp [handle_step, hm]

/-- The copy loop of the writers leaves the set of open handles as it found it. -/
theorem copy_events_handles {l : List Nat} {fnode fp : Nat} (h1 : fnode ∈ l) (h2 : fp ∈ l) :
    ∀ (fuel : Nat) (src : List Nat),
      handles_after (some l) (copy_events fnode fp fuel src) = some l := by
  intro fuel
  induction fuel with
  | zero => intro src; rfl
  | succ k ih =>
    intro src
    cases src with
    | nil =>
      show handles_after (some l) [Event.used fnode] = some l
      rw [handles_after_cons, handle_step_used h1, handles_after_nil]
    | cons b bs =>
      show handles_after (some l)
        (Event.used fnode :: Event.used fp :: copy_events fnode fp k ((b :: bs).drop 512)) = _
      rw [handles_after_cons, handle_step_used h1, handles_after_cons, handle_step_used h2]
      exact ih _

/-- The block loop of the extract walk leaves the set of open handles as it found it. -/
theorem block_events_handles {l : List Nat} {fp fdest : Nat} (h1 : fp ∈ l) (h2 : fdest ∈ l) :
    ∀ n : Nat, handles_after (some l) (block_events fp fdest n) = some l := by
  intro n
  induction n with
  | zero => rfl
  | succ k ih =>
    show handles_after (some l) (Event.used fp :: Event.used fdest :: block_events fp fdest k) = _
    rw [handles_after_cons, handle_step_used h1, handles_after_cons, handle_step_used h2]
    exact ih

/-- The function `remove_trailing_bytes` closes the descriptor it opened on every path. -/
theorem remove_trailing_bytes_handles (fs : FileSys) (file_name : Name) (nbytes fd : Nat)
    {l : List Nat} (hfd : fd ∉ l) :
    handles_after (some l) (remove_trailing_bytes_events fs file_name nbytes fd) = some l := by
  have hin : fd ∈ fd :: l := List.mem_cons_self _ _
  have herase : (fd :: l).erase fd = l := List.erase_cons_head _ _
  unfold remove_trailing_bytes_events
  cases fs.files file_name with
  | none => rfl
  | some f =>
    simp only
    split
    · split
      · rw [handles_after_cons, handle_step_opened hfd, handles_after_cons, handle_step_used hin,
          handles_after_cons, handle_step_closed hin, herase, handles_after_nil]
      · rw [handles_after_cons, handle_step_opened hfd, handles_after_cons, handle_step_used hin,
          handles_after_cons, handle_step_used hin, handles_after_cons, handle_step_closed hin,
          herase, handles_after_nil]
    · rfl


/-! ## Handles of the writers -/

/-- The loop of `create_archive` flags success exactly when the loop of the byte-level model
does. -/
theorem create_loop_events_flag (fs : FileSys) (fp : Nat) :
    ∀ (files : List Name) (next : Nat),
      (create_loop_events fs fp next files).1 = (write_entries fs files).1 := by
  intro files
  induction files with
  | nil => intro next; rfl
  | cons name rest ih =>
    intro next
    unfold create_loop_events write_entries
    cases fill_tar_header fs name with
    | none => rfl
    | some header =>
      cases fopen_r fs name with
      | none => rfl
      | some content => exact ih (next + 1)

/-- The loop of `append_files_to_archive` flags success exactly when the loop of the byte-level
model does. -/
theorem append_loop_events_flag (fs : FileSys) (fp : Nat) :
    ∀ (files : List Name) (next : Nat),
      (append_loop_events fs fp next files).1 = (write_entries fs files).1 := by
  intro files
  induction files with
  | nil => intro next; rfl
  | cons name rest ih =>
    intro next
    unfold append_loop_events write_entries
    cases fill_tar_header fs name with
    | none => rfl
    | some header =>
      cases fopen_r fs name with
      | none => rfl
      | some content => exact ih (next + 1)

/-- The status of `create_archive_events` is the status of `create_archive`. -/
theorem create_archive_events_status (fs : FileSys) (archive_name : Name) (files : List Name) :
    (create_archive_events fs archive_name files).1 = (create_archive fs archive_name files).1 := by
  unfold create_archive_events create_archive
  cases fopen_w fs archive_name with
  | none => rfl
  | some fs1 =>
    simp only [create_loop_events_flag]
    split <;> rfl

/-- The status of `append_files_to_archive_events` is the status of
`append_files_to_archive`. -/
theorem append_events_status (fs : FileSys) (archive_name : Name) (files : List Name) :
    (append_files_to_archive_events fs archive_name files).1 =
      (append_files_to_archive fs archive_name files).1 := by
  unfold append_files_to_archive_events append_files_to_archive
  cases fopen_r fs archive_name with
  | none => rfl
  | some c =>
    cases fopen_rw fs archive_name with
    | none => rfl
    | some old =>
      simp only [append_loop_events_flag]
      split
      · rfl
      · split <;> rfl

/-- One entry of a writer loop: the header is written, the file is opened, copied and closed.
The archive stream stays the only open handle. -/
theorem entry_events_handles {fp next : Nat} (hlt : fp < next) (content : List Nat)
    (tail : List Event) :
    handles_after (some [fp])
        ([Event.used fp, Event.opened next] ++
          copy_events next fp (content.length + 1) content ++ [Event.closed next] ++ tail) =
      handles_after (some [fp]) tail := by
  have e1 : handle_step (some [fp]) (Event.used fp) = some [fp] :=
    handle_step_used (List.mem_singleton.2 rfl)
  have e2 : handle_step (some [fp]) (Event.opened next) = some [next, fp] :=
    handle_step_opened (by rw [List.mem_singleton]; omega)
  have e3 := @copy_events_handles [next, fp] next fp (List.mem_cons_self _ _)
    (List.mem_cons_of_mem _ (List.mem_singleton.2 rfl)) (content.length + 1) content
  have e4 : handle_step (some [next, fp]) (Event.closed next) = some [fp] := by
    rw [handle_step_closed (List.mem_cons_self _ _), List.erase_cons_head]
  simp only [handles_after_append, handles_after_cons, handles_after_nil, e1, e2, e3, e4]

/-- The loop of `create_archive` leaves the archive stream open when it runs to its end and
closed when it returns early; every source file it opened is closed. -/
theorem create_loop_handles (fs : FileSys) (fp : Nat) :
    ∀ (files : List Name) (next : Nat), fp < next →
      handles_after (some [fp]) (create_loop_events fs fp next files).2 =
        some (if (create_loop_events fs fp next files).1 then [fp] else []) := by
  have hclose : handle_step (some [fp]) (Event.closed fp) = some [] := by
    rw [handle_step_closed (List.mem_singleton.2 rfl), List.erase_cons_head]
  have huse : handle_step (some [fp]) (Event.used fp) = some [fp] :=
    handle_step_used (List.mem_singleton.2 rfl)
  intro files
  induction files with
  | nil => intro next _; rfl
  | cons name rest ih =>
    intro next hlt
    unfold create_loop_events
    cases fill_tar_header fs name with
    | none =>
      simp only [handles_after_cons, handles_after_nil, hclose]
      rfl
    | some header =>
      cases fopen_r fs name with
      | none =>
        simp only [handles_after_cons, handles_after_nil, hclose, huse]
        rfl
      | some content =>
        simp only
        rw [entry_events_handles hlt]
        exact ih (next + 1) (by omega)

/-- The function `create_archive` keeps the handle discipline on every path: when it returns,
every handle it opened has been closed exactly once and none was used after that. -/
theorem create_archive_disciplined (fs : FileSys) (archive_name : Name) (files : List Name) :
    disciplined (create_archive_events fs archive_name files).2 := by
  unfold disciplined create_archive_events
  cases fopen_w fs archive_name with
  | none => rfl
  | some fs1 =>
    have hl := create_loop_handles fs1 0 files 1 (by omega)
    have hopen : handle_step (some []) (Event.opened 0) = some [0] :=
      handle_step_opened (List.not_mem_nil _)
    simp only
    by_cases hflag : (create_loop_events fs1 0 1 files).1 = true
    · rw [if_pos hflag] at hl ⊢
      simp only [handles_after_append, handles_after_cons, handles_after_nil, hopen, hl]
      rfl
    · rw [if_neg hflag] at hl ⊢
      simp only [handles_after_append, handles_after_cons, handles_after_nil, hopen, hl]

/-- The loop of `append_files_to_archive` closes the archive stream when a source file cannot be
opened, and leaves it open both when it runs to its end and when a header cannot be built. -/
theorem append_loop_handles (fs : FileSys) (fp : Nat) :
    ∀ (files : List Name) (next : Nat), fp < next →
      (∀ n ∈ files, (fill_tar_header fs n).isSome = true) →
      handles_after (some [fp]) (append_loop_events fs fp next files).2 =
        some (if (append_loop_events fs fp next files).1 then [fp] else []) := by
  have hclose : handle_step (some [fp]) (Event.closed fp) = some [] := by
    rw [handle_step_closed (List.mem_singleton.2 rfl), List.erase_cons_head]
  have huse : handle_step (some [fp]) (Event.used fp) = some [fp] :=
    handle_step_used (List.mem_singleton.2 rfl)
  intro files
  induction files with
  | nil => intro next _ _; rfl
  | cons name rest ih =>
    intro next hlt hh
    have hname := hh name (List.mem_cons_self _ _)
    unfold append_loop_events
    cases hf : fill_tar_header fs name with
    | none => rw [hf] at hname; exact absurd hname (by decide)
    | some header =>
      cases fopen_r fs name with
      | none =>
        simp only [handles_after_cons, handles_after_nil, hclose, huse]
        rfl
      | some content =>
        simp only
        rw [entry_events_handles hlt]
        exact ih (next + 1) (by omega) (fun n hn => hh n (List.mem_cons_of_mem _ hn))

/-- The function `append_files_to_archive` keeps the handle discipline on every path on which
the header of each file can be built. -/
theorem append_disciplined (fs : FileSys) (archive_name : Name) (files : List Name)
    (hh : ∀ n ∈ files, (fill_tar_header fs n).isSome = true) :
    disciplined (append_files_to_archive_events fs archive_name files).2 := by
  unfold disciplined append_files_to_archive_events
  cases fopen_r fs archive_name with
  | none => rfl
  | some c =>
    cases fopen_rw fs archive_name with
    | none => rfl
    | some old =>
      simp only
      split
      · rfl
      · have hl := append_loop_handles fs 1 files 2 (by omega) hh
        have h0 : handles_after (some [])
            [Event.opened 0, Event.closed 0, Event.opened 1, Event.used 1] = some [1] := rfl
        by_cases hflag : (append_loop_events fs 1 2 files).1 = true
        · rw [if_pos hflag] at hl ⊢
          simp only [handles_after_append, h0, hl]
          rfl
        · rw [if_neg hflag] at hl ⊢
          simp only [handles_after_append, h0, hl]


/-! ## Handles of the readers -/

/-- As long as `file_list_add` does not return 1, the status of the list loop with handle events
is the status of `list_loop`. -/
theorem list_loop_events_status (arc : List Nat) (sz : Int) (add_status : Name → Int)
    (hadd : ∀ n, add_status n ≠ 1) :
    ∀ (fuel : Nat) (h : List Nat) (c : Int) (files : List Name),
      (list_loop_events arc sz add_status fuel h c).map Prod.fst =
        (list_loop arc sz fuel h c files).map Prod.fst := by
  intro fuel
  induction fuel with
  | zero => intro h c files; rfl
  | succ k ih =>
    intro h c files
    unfold list_loop_events list_loop
    by_cases hc : c = sz
    · rw [if_pos hc, if_pos hc]
      rfl
    · rw [if_neg hc, if_neg hc, if_neg (hadd (header_name h))]
      simp only
      split
      · rfl
      · cases fread_block arc
            (c + wrap32 (wrap64 (512 * Int.tdiv (wrap64 (header_size h + 511)) 512))).toNat with
        | none => rfl
        | some nh =>
          simp only
          rw [← ih nh _ (file_list_add files (header_name h))]
          cases list_loop_events arc sz add_status k nh
            (c + wrap32 (wrap64 (512 * Int.tdiv (wrap64 (header_size h + 511)) 512)) + 512) <;> rfl

/-- As long as `file_list_add` does not return 1, the status of `get_archive_file_list_events`
is the status of `get_archive_file_list`. -/
theorem list_events_status (add_status : Name → Int) (hadd : ∀ n, add_status n ≠ 1)
    (fuel : Nat) (fs : FileSys) (archive_name : Name) (files : List Name) :
    (get_archive_file_list_events add_status fuel fs archive_name).map Prod.fst =
      (get_archive_file_list fuel fs archive_name files).map Prod.fst := by
  unfold get_archive_file_list_events get_archive_file_list
  cases fopen_r fs archive_name with
  | none => rfl
  | some arc =>
    simp only
    split
    · rfl
    · cases fread_block arc 0 with
      | none => rfl
      | some h =>
        simp only
        rw [← list_loop_events_status arc _ add_status hadd fuel h 512 files]
        cases list_loop_events arc ((arc.length : Int) - 512) add_status fuel h 512 <;> rfl

/-- As long as `file_list_add` does not return 1, the loop of `get_archive_file_list` closes
the archive stream exactly once on every path on which it returns. -/
theorem list_loop_handles (arc : List Nat) (sz : Int) (add_status : Name → Int)
    (hadd : ∀ n, add_status n ≠ 1) :
    ∀ (fuel : Nat) (h : List Nat) (c : Int) (r : Int × List Event),
      list_loop_events arc sz add_status fuel h c = some r →
      handles_after (some [0]) r.2 = some [] := by
  intro fuel
  induction fuel with
  | zero => intro h c r hr; exact absurd hr (by simp [list_loop_events])
  | succ k ih =>
    intro h c r hr
    unfold list_loop_events at hr
    by_cases hc : c = sz
    · rw [if_pos hc] at hr
      rw [← Option.some.inj hr]
      rfl
    · rw [if_neg hc, if_neg (hadd (header_name h))] at hr
      simp only at hr
      split at hr
      · rw [← Option.some.inj hr]
        rfl
      · split at hr
        · rw [← Option.some.inj hr]
          rfl
        · split at hr
          · exact absurd hr (by simp)
          · rename_i r' hr'
            rw [← Option.some.inj hr]
            have := ih _ _ _ hr'
            simpa [handles_after_cons, handle_step] using this

/-- As long as `file_list_add` does not return 1, `get_archive_file_list` keeps the handle
discipline on every path on which it returns. -/
theorem list_disciplined (add_status : Name → Int) (hadd : ∀ n, add_status n ≠ 1)
    (fuel : Nat) (fs : FileSys) (archive_name : Name) (r : Int × List Event)
    (hr : get_archive_file_list_events add_status fuel fs archive_name = some r) :
    disciplined r.2 := by
  unfold disciplined
  unfold get_archive_file_list_events at hr
  cases hf : fopen_r fs archive_name with
  | none =>
    rw [hf] at hr
    rw [← Option.some.inj hr]
    rfl
  | some arc =>
    rw [hf] at hr
    simp only at hr
    split at hr
    · rw [← Option.some.inj hr]
      rfl
    · split at hr
      · rw [← Option.some.inj hr]
        rfl
      · split at hr
        · exact absurd hr (by simp)
        · rename_i r' hr'
          rw [← Option.some.inj hr]
          have := list_loop_handles arc _ add_status hadd _ _ _ _ hr'
          simpa [handles_after_append, handles_after_cons, handle_step] using this


/-- The status of the extract loop with handle events is the status of `extract_loop`. -/
theorem extract_loop_events_status (arc : List Nat) (sz : Int) :
    ∀ (fuel : Nat) (fs : FileSys) (h : List Nat) (c next : Nat),
      (extract_loop_events arc sz fuel fs h c next).map Prod.fst =
        (extract_loop arc sz fuel fs h c).map Prod.fst := by
  intro fuel
  induction fuel with
  | zero => intro fs h c next; rfl
  | succ k ih =>
    intro fs h c next
    unfold extract_loop_events extract_loop
    by_cases hc : (c : Int) < sz
    · rw [if_pos hc, if_pos hc]
      cases fopen_w fs (header_name h) with
      | none => rfl
      | some fs1 =>
        simp only
        split
        · rfl
        · cases remove_trailing_bytes
              (fs1.set_content (header_name h)
                ((arc.drop c).take
                  (512 * (wrap32 (Int.tdiv (wrap64 (header_size h + 511)) 512)).toNat)))
              (header_name h)
              (wrap32 (wrap64 (wrap32 (512 * wrap32 (Int.tdiv (wrap64 (header_size h + 511)) 512)) -
                header_size h)) % 18446744073709551616).toNat with
          | none => rfl
          | some fs3 =>
            simp only
            cases fread_block arc
                (c + 512 * (wrap32 (Int.tdiv (wrap64 (header_size h + 511)) 512)).toNat) with
            | none => rfl
            | some nh =>
              simp only
              rw [← ih fs3 nh _ (next + 2)]
              cases extract_loop_events arc sz k fs3 nh
                (c + 512 * (wrap32 (Int.tdiv (wrap64 (header_size h + 511)) 512)).toNat + 512)
                (next + 2) <;> rfl
    · rw [if_neg hc, if_neg hc]
      rfl

/-- The status of `extract_files_from_archive_events` is the status of
`extract_files_from_archive`. -/
theorem extract_events_status (fs : FileSys) (archive_name : Name) :
    (extract_files_from_archive_events fs archive_name).map Prod.fst =
      (extract_files_from_archive fs archive_name).map Prod.fst := by
  unfold extract_files_from_archive_events extract_files_from_archive
  cases fopen_r fs archive_name with
  | none => rfl
  | some arc =>
    simp only
    split
    · rfl
    · cases fread_block arc 0 with
      | none => rfl
      | some h =>
        simp only
        rw [← extract_loop_events_status arc _ arc.length fs h 512 1]
        cases extract_loop_events arc ((arc.length : Int) - 512) arc.length fs h 512 1 <;> rfl

/-- The loop of `extract_files_from_archive` closes every destination stream and every
descriptor it opened, and closes the archive stream exactly once, on every path. -/
theorem extract_loop_handles (arc : List Nat) (sz : Int) :
    ∀ (fuel : Nat) (fs : FileSys) (h : List Nat) (c next : Nat) (r : Int × List Event),
      1 ≤ next → extract_loop_events arc sz fuel fs h c next = some r →
      handles_after (some [0]) r.2 = some [] := by
  intro fuel
  induction fuel with
  | zero => intro fs h c next r _ hr; exact absurd hr (by simp [extract_loop_events])
  | succ k ih =>
    intro fs h c next r hnext hr
    have hne : next ≠ 0 := by omega
    have e0 : handle_step (some [0]) (Event.closed 0) = some [] := rfl
    have e1 : handle_step (some [0]) (Event.used 0) = some [0] := rfl
    have e2 : handle_step (some [0]) (Event.opened next) = some [next, 0] :=
      handle_step_opened (by rw [List.mem_singleton]; exact hne)
    have e3 : ∀ n, handles_after (some [next, 0]) (block_events 0 next n) = some [next, 0] :=
      block_events_handles (List.mem_cons_of_mem _ (List.mem_singleton.2 rfl))
        (List.mem_cons_self _ _)
    have e4 : handle_step (some [next, 0]) (Event.closed next) = some [0] := by
      rw [handle_step_closed (List.mem_cons_self _ _), List.erase_cons_head]
    have e5 : ∀ fs' name nbytes,
        handles_after (some [0]) (remove_trailing_bytes_events fs' name nbytes (next + 1)) =
          some [0] :=
      fun fs' name nbytes => remove_trailing_bytes_handles fs' name nbytes (next + 1)
        (by rw [List.mem_singleton]; omega)
    have e6 : handle_step (some [next, 0]) (Event.used 0) = some [next, 0] :=
      handle_step_used (List.mem_cons_of_mem _ (List.mem_singleton.2 rfl))
    have e7 : handle_step (some [next, 0]) (Event.closed 0) = some [next] := by
      rw [handle_step_closed (List.mem_cons_of_mem _ (List.mem_singleton.2 rfl)),
        List.erase_cons_tail (by simpa using hne), List.erase_cons_head]
    have e8 : handle_step (some [next]) (Event.closed next) = some [] := by
      rw [handle_step_closed (List.mem_singleton.2 rfl), List.erase_cons_head]
    unfold extract_loop_events at hr
    by_cases hc : (c : Int) < sz
    · rw [if_pos hc] at hr
      split at hr
      · rw [← Option.some.inj hr]
        rfl
      · simp only at hr
        split at hr
        · rw [← Option.some.inj hr]
          simp only [handles_after_append, handles_after_cons, handles_after_nil, e2, e3, e6, e7,
            e8]
        · split at hr
          · rw [← Option.some.inj hr]
            simp only [handles_after_append, handles_after_cons, handles_after_nil, e0, e2, e3,
              e4, e5]
          · split at hr
            · rw [← Option.some.inj hr]
              simp only [handles_after_append, handles_after_cons, handles_after_nil, e0, e1, e2,
                e3, e4, e5]
            · split at hr
              · exact absurd hr (by simp)
              · rename_i r' hr'
                rw [← Option.some.inj hr]
                simp only [handles_after_append, handles_after_cons, handles_after_nil, e1, e2,
                  e3, e4, e5]
                exact ih _ _ _ _ _ (by omega) hr'
    · rw [if_neg hc] at hr
      rw [← Option.some.inj hr]
      rfl

/-- The function `extract_files_from_archive` returns on every input and keeps the handle
discipline on every path. -/
theorem extract_disciplined (fs : FileSys) (archive_name : Name) :
    ∃ r, extract_files_from_archive_events fs archive_name = some r ∧ disciplined r.2 := by
  obtain ⟨r0, hr0⟩ := extract_terminates fs archive_name
  have hst := extract_events_status fs archive_name
  rw [hr0] at hst
  cases hev : extract_files_from_archive_events fs archive_name with
  | none => rw [hev] at hst; exact absurd hst (by simp)
  | some r =>
    refine ⟨r, rfl, ?_⟩
    unfold disciplined
    unfold extract_files_from_archive_events at hev
    cases hf : fopen_r fs archive_name with
    | none =>
      rw [hf] at hev
      rw [← Option.some.inj hev]
      rfl
    | some arc =>
      rw [hf] at hev
      simp only at hev
      split at hev
      · rw [← Option.some.inj hev]
        rfl
      · split at hev
        · rw [← Option.some.inj hev]
          rfl
        · split at hev
          · exact absurd hev (by simp)
          · rename_i r' hr'
            rw [← Option.some.inj hev]
            have := extract_loop_handles arc _ _ _ _ _ _ _ (le_refl 1) hr'
            simpa [handles_after_append, handles_after_cons, handle_step] using this


/-- When `file_list_add` returns 1, `get_archive_file_list` closes the archive stream and goes
on to seek on it: on the archive `x` of `shadow_fs` the stream is closed at the first entry,
the seek on the closed stream fails, the stream is closed a second time and the function
returns -1. -/
theorem list_uses_closed_stream :
    get_archive_file_list_events (fun _ => 1) 9 shadow_fs [120] =
        some (-1, [Event.opened 0, Event.used 0, Event.used 0, Event.used 0, Event.used 0,
          Event.used 0, Event.closed 0, Event.used 0, Event.closed 0]) ∧
      (get_archive_file_list_events (fun _ => 1) 9 shadow_fs [120]).map
        (fun r => decide (disciplined r.2)) = some false := by
  decide!

/-- Whenever the archive can be opened for update and the header of the first file cannot be
built, `append_files_to_archive` returns -1 with the archive stream, handle 1, never closed. -/
theorem append_header_failure_events (fs : FileSys) (archive_name name : Name)
    (rest : List Name) (c old : List Nat) (hr : fopen_r fs archive_name = some c)
    (hrw : fopen_rw fs archive_name = some old) (hlen : 1024 ≤ old.length)
    (hh : fill_tar_header fs name = none) :
    append_files_to_archive_events fs archive_name (name :: rest) =
      (-1, [Event.opened 0, Event.closed 0, Event.opened 1, Event.used 1]) := by
  unfold append_files_to_archive_events append_loop_events
  simp only [hr, hrw, hh]
  rw [if_neg (by omega)]
  rfl

/-- C21 (handle discipline) fails on the code for `append_files_to_archive`. In `long_name_fs`
the archive `x` exists and can be opened for update, and there is no file `a`. Appending `a`
opens and closes `checkexistence` (handle 0), opens `fp` (handle 1), seeks, and returns -1 when
`fill_tar_header` fails, with handle 1 still open. `create_archive` on the same input closes
its stream before it returns -1. -/
theorem append_leaves_archive_open :
    (fopen_rw long_name_fs [120]).isSome = true ∧ stat long_name_fs [97] = none ∧
      (append_files_to_archive long_name_fs [120] [[97]]).1 = -1 ∧
      append_files_to_archive_events long_name_fs [120] [[97]] =
        (-1, [Event.opened 0, Event.closed 0, Event.opened 1, Event.used 1]) ∧
      handles_after (some []) (append_files_to_archive_events long_name_fs [120] [[97]]).2 =
        some [1] ∧
      ¬ disciplined (append_files_to_archive_events long_name_fs [120] [[97]]).2 ∧
      create_archive_events long_name_fs [120] [[97]] =
        (-1, [Event.opened 0, Event.closed 0]) ∧
      disciplined (create_archive_events long_name_fs [120] [[97]]).2 := by
  decide!


/-! ## Agreement of the two walks -/

/-- One iteration of the walk that collects the entries, with the distance written as
`list_skip`. -/
theorem list_loop_entries_step (arc : List Nat) (sz : Int) (fuel : Nat) (h : List Nat)
    (c : Int) :
    list_loop_entries arc sz (fuel + 1) h c =
      if c = sz then []
      else if c + list_skip (header_size h) < 0 then
        [{ header := h, data := (arc.drop c.toNat).take (list_skip (header_size h)).toNat }]
      else
        match fread_block arc (c + list_skip (header_size h)).toNat with
        | none =>
          [{ header := h, data := (arc.drop c.toNat).take (list_skip (header_size h)).toNat }]
        | some next_header =>
          { header := h, data := (arc.drop c.toNat).take (list_skip (header_size h)).toNat } ::
            list_loop_entries arc sz fuel next_header (c + list_skip (header_size h) + 512) :=
  rfl

theorem fread_block_length {arc h : List Nat} {p : Nat} (hr : fread_block arc p = some h) :
    h.length = 512 := by
  unfold fread_block at hr
  simp only at hr
  split at hr
  · rename_i hl
    rw [← Option.some.inj hr]
    exact hl
  · exact absurd hr (by simp)

theorem fread_block_eq {arc h : List Nat} {p : Nat} (hr : fread_block arc p = some h) :
    arc.drop p = h ++ arc.drop (p + 512) := by
  unfold fread_block at hr
  simp only at hr
  split at hr
  · rw [← Option.some.inj hr, ← List.drop_drop]
    exact (List.take_append_drop 512 (arc.drop p)).symm
  · exact absurd hr (by simp)

/-- Whatever the status, the names the list walk adds are the names of the entries it steps
over, in order. -/
theorem list_loop_names (arc : List Nat) (sz : Int) :
    ∀ (fuel : Nat) (h : List Nat) (c : Int) (files : List Name) (r : Int × List Name),
      list_loop arc sz fuel h c files = some r →
      r.2 = files ++ (list_loop_entries arc sz fuel h c).map Entry.name := by
  intro fuel
  induction fuel with
  | zero => intro h c files r hr; exact absurd hr (by simp [list_loop])
  | succ k ih =>
    intro h c files r hr
    rw [list_loop_step] at hr
    rw [list_loop_entries_step]
    by_cases hc : c = sz
    · rw [if_pos hc] at hr ⊢
      rw [← Option.some.inj hr]
      simp
    · rw [if_neg hc] at hr ⊢
      by_cases ht : c + list_skip (header_size h) < 0
      · rw [if_pos ht] at hr ⊢
        rw [← Option.some.inj hr]
        simp [file_list_add, Entry.name]
      · rw [if_neg ht] at hr ⊢
        cases hb : fread_block arc (c + list_skip (header_size h)).toNat with
        | none =>
          rw [hb] at hr
          simp only at hr ⊢
          rw [← Option.some.inj hr]
          simp [file_list_add, Entry.name]
        | some nh =>
          rw [hb] at hr
          simp only at hr ⊢
          rw [ih _ _ _ _ hr]
          simp [file_list_add, Entry.name]


/-- The simulation behind the agreement of the walks. From a header that was read at position
`c - 512`: if the list walk returns 0, every entry it steps over declares a size `s` with
`0 ≤ s` and `s + 511 < 2^31`, and every declared name can be opened for writing, then the
entries are well formed, they make up the archive from there to its last 1024 bytes, the names
added are theirs, and the extract walk extracts them one after the other and returns 0. -/
theorem walks_agree_loop (arc : List Nat) :
    ∀ (fuel g c : Nat) (h : List Nat) (files names : List Name) (fs : FileSys),
      512 ≤ c → fread_block arc (c - 512) = some h →
      list_loop arc ((arc.length : Int) - 512) fuel h (c : Int) files = some (0, names) →
      (∀ e ∈ list_loop_entries arc ((arc.length : Int) - 512) fuel h (c : Int),
        0 ≤ e.size ∧ e.size + 511 < 2147483648) →
      (∀ e ∈ list_loop_entries arc ((arc.length : Int) - 512) fuel h (c : Int),
        openable fs e.name = true) →
      arc.length < c + 512 * g →
      (∀ e ∈ list_loop_entries arc ((arc.length : Int) - 512) fuel h (c : Int), e.wf) ∧
        arc.drop (c - 512) =
          entries_bytes (list_loop_entries arc ((arc.length : Int) - 512) fuel h (c : Int)) ++
            arc.drop (arc.length - 1024) ∧
        extract_loop arc ((arc.length : Int) - 512) g fs h c =
          some (0, (list_loop_entries arc ((arc.length : Int) - 512) fuel h (c : Int)).foldl
            extract_entry fs) := by
  intro fuel
  induction fuel with
  | zero => intro g c h files names fs _ _ hl; exact absurd hl (by simp [list_loop])
  | succ k ih =>
    intro g c h files names fs hc512 hread hl hsize hopen hg
    have hbound := fread_block_bound hread
    obtain ⟨g', rfl⟩ : ∃ g', g = g' + 1 := ⟨g - 1, by omega⟩
    rw [list_loop_step] at hl
    by_cases hc : (c : Int) = (arc.length : Int) - 512
    · have hE : list_loop_entries arc ((arc.length : Int) - 512) (k + 1) h (c : Int) = [] := by
        rw [list_loop_entries_step, if_pos hc]
      rw [hE, extract_loop_step, if_neg (by omega)]
      refine ⟨by simp, ?_, rfl⟩
      rw [show c - 512 = arc.length - 1024 by omega]
      exact (List.nil_append _).symm
    · rw [if_neg hc] at hl
      by_cases ht : (c : Int) + list_skip (header_size h) < 0
      · rw [if_pos ht] at hl
        have : (-1 : Int) = 0 := congrArg Prod.fst (Option.some.inj hl)
        exact absurd this (by decide)
      · rw [if_neg ht] at hl
        cases hb : fread_block arc ((c : Int) + list_skip (header_size h)).toNat with
        | none =>
          rw [hb] at hl
          have : (-1 : Int) = 0 := congrArg Prod.fst (Option.some.inj hl)
          exact absurd this (by decide)
        | some nh =>
          rw [hb] at hl
          simp only at hl
          have hE : list_loop_entries arc ((arc.length : Int) - 512) (k + 1) h (c : Int) =
              Entry.mk h ((arc.drop (c : Int).toNat).take (list_skip (header_size h)).toNat) ::
                list_loop_entries arc ((arc.length : Int) - 512) k nh
                  ((c : Int) + list_skip (header_size h) + 512) := by
            rw [list_loop_entries_step, if_neg hc, if_neg ht, hb]
          rw [hE] at hsize hopen ⊢
          have hs := hsize _ (List.mem_cons_self _ _)
          have ho := hopen _ (List.mem_cons_self _ _)
          change 0 ≤ header_size h ∧ header_size h + 511 < 2147483648 at hs
          obtain ⟨hb1, _, hb3, hb4, hb5, hb6, _, hb8⟩ := padding_arithmetic _ hs.1 hs.2
          have hb0 : 0 ≤ extract_blocks (header_size h) := by omega
          obtain ⟨n, hn⟩ : ∃ n : Nat, extract_blocks (header_size h) = (n : Int) :=
            ⟨(extract_blocks (header_size h)).toNat, by omega⟩
          have hnext := fread_block_bound hb
          have htarget : ((c : Int) + list_skip (header_size h)).toNat = c + 512 * n := by omega
          have hskipn : (list_skip (header_size h)).toNat = 512 * n := by omega
          have hnn : (extract_blocks (header_size h)).toNat = n := by omega
          rw [htarget] at hb hnext
          have hpos : (c : Int) + list_skip (header_size h) + 512 =
              ((c + 512 * n + 512 : Nat) : Int) := by
            push_cast
            omega
          rw [hpos] at hl hsize hopen ⊢
          rw [Int.toNat_ofNat, hskipn] at hsize hopen ho ⊢
          have hdl : ((arc.drop c).take (512 * n)).length = 512 * n := by
            rw [List.length_take, List.length_drop]
            omega
          have hwf : Entry.wf (Entry.mk h ((arc.drop c).take (512 * n))) := by
            refine ⟨fread_block_length hread, hs.1, ?_, ?_⟩
            · show header_size h < 8589934592
              omega
            · show ((List.length _ : Nat) : Int) = 512 * ((header_size h + 511) / 512)
              rw [hdl]
              push_cast
              omega
          obtain ⟨fs1, hfs1, hrtb, _, _, _⟩ := extract_entry_spec ho hwf
          have hfs1' : fopen_w fs (header_name h) = some fs1 := hfs1
          have htb : (extract_trailing (header_size h) % 18446744073709551616).toNat =
              512 * n - (header_size h).toNat := by
            omega
          have hrtb' : remove_trailing_bytes
              (fs1.set_content (header_name h) ((arc.drop c).take (512 * n))) (header_name h)
              (512 * n - (header_size h).toNat) =
              some (extract_entry fs (Entry.mk h ((arc.drop c).take (512 * n)))) := by
            have h2 := hrtb
            rw [show (Entry.mk h ((arc.drop c).take (512 * n))).data.length = 512 * n from hdl]
              at h2
            exact h2
          have hsub : c + 512 * n + 512 - 512 = c + 512 * n := by omega
          have ih' := ih g' (c + 512 * n + 512) nh
            (file_list_add files (header_name h)) names
            (extract_entry fs (Entry.mk h ((arc.drop c).take (512 * n))))
            (by omega) (by rw [hsub]; exact hb) hl
            (fun e he => hsize e (List.mem_cons_of_mem _ he))
            (fun e he => openable_extract_entry ho hwf _ (hopen e (List.mem_cons_of_mem _ he)))
            (by omega)
          obtain ⟨ih1, ih2, ih3⟩ := ih'
          rw [hsub] at ih2
          refine ⟨?_, ?_, ?_⟩
          · intro e he
            rcases List.mem_cons.1 he with rfl | he'
            · exact hwf
            · exact ih1 e he'
          · have h1 := fread_block_eq hread
            rw [show c - 512 + 512 = c by omega] at h1
            rw [h1]
            simp only [entries_bytes, List.append_assoc]
            rw [← ih2, ← List.drop_drop, List.take_append_drop]
          · rw [extract_loop_step, if_pos (by omega), hfs1']
            simp only [hnn]
            rw [if_neg (by omega), htb, hrtb']
            simp only
            rw [hb]
            simp only [List.foldl_cons]
            exact ih3


theorem list_entries_eq {fuel : Nat} {fs : FileSys} {archive_name : Name} {arc h : List Nat}
    (harc : fopen_r fs archive_name = some arc) (hlen : ¬ arc.length < 512)
    (hread : fread_block arc 0 = some h) :
    list_entries fuel fs archive_name =
      list_loop_entries arc ((arc.length : Int) - 512) fuel h 512 := by
  unfold list_entries
  simp only [harc]
  rw [if_neg hlen, hread]

/-- The two walks agree below 2 GiB. If `get_archive_file_list` returns 0 with the names
`names`, every entry it steps over declares a size `s` with `0 ≤ s` and `s + 511 < 2^31`, and
every declared name can be opened for writing and is not the name of the archive, then: the
names are those of the entries, in order; the entries are well formed and make up the archive
up to its last 1024 bytes; and `extract_files_from_archive` returns 0, having extracted exactly
these entries one after the other, and leaves the archive as it was. -/
theorem walks_agree (fuel : Nat) (fs : FileSys) (archive_name : Name) (names : List Name)
    (hlist : get_archive_file_list fuel fs archive_name [] = some (0, names))
    (hsize : ∀ e ∈ list_entries fuel fs archive_name,
      0 ≤ e.size ∧ e.size + 511 < 2147483648)
    (hdest : ∀ e ∈ list_entries fuel fs archive_name,
      openable fs e.name = true ∧ e.name ≠ archive_name) :
    names = (list_entries fuel fs archive_name).map Entry.name ∧
      (∀ e ∈ list_entries fuel fs archive_name, e.wf) ∧
      (∃ arc, fopen_r fs archive_name = some arc ∧
        arc = entries_bytes (list_entries fuel fs archive_name) ++ arc.drop (arc.length - 1024)) ∧
      extract_files_from_archive fs archive_name =
        some (0, (list_entries fuel fs archive_name).foldl extract_entry fs) ∧
      ((list_entries fuel fs archive_name).foldl extract_entry fs).files archive_name =
        fs.files archive_name := by
  cases harc : fopen_r fs archive_name with
  | none =>
    unfold get_archive_file_list at hlist
    rw [harc] at hlist
    have : (-1 : Int) = 0 := congrArg Prod.fst (Option.some.inj hlist)
    exact absurd this (by decide)
  | some arc =>
    unfold get_archive_file_list at hlist
    simp only [harc] at hlist
    by_cases hlen : arc.length < 512
    · rw [if_pos hlen] at hlist
      have : (-1 : Int) = 0 := congrArg Prod.fst (Option.some.inj hlist)
      exact absurd this (by decide)
    · rw [if_neg hlen] at hlist
      cases hread : fread_block arc 0 with
      | none =>
        rw [hread] at hlist
        have : (-1 : Int) = 0 := congrArg Prod.fst (Option.some.inj hlist)
        exact absurd this (by decide)
      | some h =>
        rw [hread] at hlist
        simp only at hlist
        have hE := @list_entries_eq fuel fs archive_name arc h harc hlen hread
        rw [hE] at hsize hdest ⊢
        have hnames := list_loop_names arc _ fuel h 512 [] _ hlist
        have hsim := walks_agree_loop arc fuel arc.length 512 h [] names fs (le_refl _) hread
          hlist hsize (fun e he => (hdest e he).1) (by omega)
        obtain ⟨hwf, hbytes, hext⟩ := hsim
        simp only [Nat.cast_ofNat, Nat.sub_self, List.drop_zero] at hwf hbytes hext
        refine ⟨by simpa using hnames, hwf, ⟨arc, rfl, hbytes⟩, ?_, ?_⟩
        · unfold extract_files_from_archive
          simp only [harc]
          rw [if_neg hlen, hread]
          exact hext
        · exact foldl_extract_other _ fs hwf (fun e he => (hdest e he).1) archive_name
            (fun e he => (hdest e he).2)

/-- The agreement of the walks on the archive `x` of `shadow_fs`, which holds two entries. -/
theorem walks_agree_on_sample :
    get_archive_file_list 9 shadow_fs [120] [] = some (0, [[97], [97]]) ∧
      list_entries 9 shadow_fs [120] = shadow_entries ∧
      extract_files_from_archive shadow_fs [120] =
        some (0, shadow_entries.foldl extract_entry shadow_fs) := by
  have hl : get_archive_file_list 9 shadow_fs [120] [] = some (0, [[97], [97]]) := by decide!
  have he : list_entries 9 shadow_fs [120] = shadow_entries := by decide!
  have h := walks_agree 9 shadow_fs [120] [[97], [97]] hl (by rw [he]; decide!)
    (by rw [he]; decide!)
  rw [he] at h
  exact ⟨hl, he, h.2.2.2.1⟩


/-- C22 (the two walks agree) fails on the code. In the 1536-byte archive `x` of `wide_fs` the
only header, named `a`, carries the size field `40000000000`, a non-negative octal number
(2^32), and the destination `a` can be opened. The list walk stores the distance 2^32 in an
`int`, where it is 0, reads the block that follows as the next header, reaches the end position
and returns 0 with the name `a`; the extract walk computes 8388608 blocks, finds two, and
returns -1 after it has written these 1024 bytes to `a`. -/
theorem walks_disagree_on_wide_size :
    (content_of wide_fs [120]).length = 1536 ∧
      header_size wide_header = 4294967296 ∧ list_skip 4294967296 = 0 ∧
      extract_blocks 4294967296 = 8388608 ∧ openable wide_fs [97] = true ∧
      get_archive_file_list 5 wide_fs [120] [] = some (0, [[97]]) ∧
      (extract_files_from_archive wide_fs [120]).map
        (fun r => (r.1, (content_of r.2 [97]).length)) = some (-1, 1024) := by
  decide!

end Minitar
